import Mathlib

/-!
# HashMap.hpp: an open hash table with separate chaining

A shallow embedding of `src/HashMap.hpp`, and of the scanner of `src/SpamDetector.cpp`
that iterates over the table.

Modelling conventions.

* `int` members (`_capacity`, `_size`, iterator indices) are `Int`; arithmetic is
  unbounded (signed overflow, which needs about `2^30` stored entries, is not modelled).
  The score `int sum` of the scanner, which small inputs overflow, is kept in the range
  of a 32-bit `int`: an addition gives the value congruent to the exact sum modulo `2^32`,
  as the two's-complement addition of the compiled program does.
* `double` load factors are rationals.  Every finite `double` is a rational, the
  comparisons of the source are exact, and `(double) size / capacity` is exact
  whenever `capacity` is a power of two (the only capacities the table takes).
  NaN and infinities are outside the model.
* `std::hash<KeyT>` is a parameter `hashFanc : K → Nat` of every operation that hashes.
* The bucket array `_table` is a list of chains; `_table[i]` for an index outside the
  array (undefined behaviour in the source) reads as an empty chain.
* A thrown exception is the `Except.error` outcome.
* Heap management (`new[]`, copies and moves) is not modelled: a table is the value of its
  data members.  The one exception is the constructor from two vectors, whose mismatch
  path deletes `_table` itself: there the deletions of the array are followed.
* A `std::string` is a list of characters, `toupper` is the upper-casing of the C locale,
  and a file is the text it contains.
-/

set_option autoImplicit false

namespace Ex3

/-- Minimum capacity on the map. -/
def MIN_CAPACITY : Int := 1

/-- Default low load factor, `0.25`. -/
def DEF_LOW_FACTOR : ℚ := 1 / 4

/-- Default high load factor, `0.75`. -/
def DEF_HIGH_FACTOR : ℚ := 3 / 4

/-- Default number of stored values. -/
def DEF_SIZE : Int := 0

/-- Default table size. -/
def DEF_CAPACITY : Int := 16

/-- Table resizing parameter. -/
def RESIZE_PARM : Int := 2

/-- Default iterator table index. -/
def INIT_TABLA_INDEX : Int := 0

/-- Default iterator chain index. -/
def INIT_LIST_INDEX : Int := -1

/-- The abnormal outcomes of the table: the two exceptions that it throws, and the
undefined behaviour of a `delete[]` on an array that was deleted before. -/
inductive Exc where
  | invalid_argument
  | out_of_range
  | double_delete
deriving DecidableEq, Repr

/-- The data members of `HashMap<KeyT, ValueT>`. -/
structure HashMap (K V : Type) where
  _capacity : Int
  _size : Int
  _lowLoadFactor : ℚ
  _highLoadFactor : ℚ
  _table : List (List (K × V))

/-- Position of a `const_iterator`; the map pointer is passed separately. -/
structure const_iterator where
  _tableIndex : Int
  _listIndex : Int
deriving DecidableEq, Repr

section Operations

variable {K V : Type} [DecidableEq K]

/-- The expression `_table[i]`. -/
def HashMap.chain (m : HashMap K V) (i : Int) : List (K × V) :=
  m._table.getD i.toNat []

/-- The statement `table[i].push_back(p)` on a bucket array. -/
def pushBack (table : List (List (K × V))) (i : Nat) (p : K × V) : List (List (K × V)) :=
  table.set i (table.getD i [] ++ [p])

/-- Source `size()`. -/
def HashMap.size (m : HashMap K V) : Int := m._size

/-- Source `capacity()`. -/
def HashMap.capacity (m : HashMap K V) : Int := m._capacity

/-- Source `getLoadFactor()`: `((double) size()) / capacity()`. -/
def HashMap.getLoadFactor (m : HashMap K V) : ℚ := (m.size : ℚ) / (m.capacity : ℚ)

/-- Source `empty()`. -/
def HashMap.empty (m : HashMap K V) : Bool := decide (m.size = DEF_SIZE)

/-- The bucket index `hash & (cap - 1)` used by `_index` and `_reSize`. -/
def maskIndex (hashFanc : K → Nat) (key : K) (cap : Int) : Int :=
  ((hashFanc key &&& (cap - 1).toNat : Nat) : Int)

/-- Source `_index(key)`. -/
def HashMap._index (hashFanc : K → Nat) (m : HashMap K V) (key : K) : Int :=
  maskIndex hashFanc key m.capacity

/-- The scan of one chain for the first entry whose key equals `key`, as done by the
loops of `containsKey`, `at` and `erase`. -/
def chainFind (key : K) : List (K × V) → Option V
  | [] => none
  | p :: rest => if p.1 = key then some p.2 else chainFind key rest

/-- Source `containsKey(key)`. -/
def HashMap.containsKey (hashFanc : K → Nat) (m : HashMap K V) (key : K) : Bool :=
  (m.chain (m._index hashFanc key)).any (fun pair => decide (pair.1 = key))

/-- Source `at(key)`, const and non-const alike: the value of the first entry of the
chain whose key equals `key`, or `out_of_range`. -/
def HashMap.atKey (hashFanc : K → Nat) (m : HashMap K V) (key : K) : Except Exc V :=
  match chainFind key (m.chain (m._index hashFanc key)) with
  | some v => .ok v
  | none => .error .out_of_range

/-- A write through the reference returned by the non-const `at`: the value of the first
entry of the chain whose key equals `key` is replaced. -/
def chainStore (key : K) (val : V) : List (K × V) → List (K × V)
  | [] => []
  | p :: rest => if p.1 = key then (p.1, val) :: rest else p :: chainStore key val rest

/-- The assignment `at(key) = val` for a key that `at` finds. -/
def HashMap.store (hashFanc : K → Nat) (m : HashMap K V) (key : K) (val : V) : HashMap K V :=
  let i := m._index hashFanc key
  { m with _table := m._table.set i.toNat (chainStore key val (m.chain i)) }

/-- Source `bucketSize(key)`. -/
def HashMap.bucketSize (hashFanc : K → Nat) (m : HashMap K V) (key : K) : Except Exc Int :=
  if !m.containsKey hashFanc key then .error .out_of_range
  else .ok ((m.chain (m._index hashFanc key)).length : Int)

/-- Source `clear()`. -/
def HashMap.clear (m : HashMap K V) : HashMap K V :=
  { m with _table := List.replicate m._capacity.toNat [], _size := 0 }

/-! ### The iterator -/

/-- Source `begin()` before its call of `operator++`. -/
def const_iterator.start : const_iterator := ⟨INIT_TABLA_INDEX, INIT_LIST_INDEX⟩

/-- Source `end()`. -/
def HashMap.end_ (m : HashMap K V) : const_iterator := ⟨m.capacity, INIT_LIST_INDEX⟩

/-- The `do ... while` loop of `operator++`, started with table index `ti` and
`_listIndex = 0`.  The first argument bounds the number of rounds. -/
def advanceLoop (m : HashMap K V) : Nat → Int → Int
  | 0, ti => ti
  | fuel + 1, ti =>
    if ((m.chain (ti + 1)).length : Int) > 0 then ti + 1
    else if ti + 1 < m.capacity then advanceLoop m fuel (ti + 1)
    else ti + 1

/-- Source `const_iterator::operator++()`.  The loop runs at most
`capacity - _tableIndex` rounds (one round when that is not positive). -/
def const_iterator.next (m : HashMap K V) (it : const_iterator) : const_iterator :=
  if ((m.chain it._tableIndex).length : Int) > it._listIndex + 1 then
    ⟨it._tableIndex, it._listIndex + 1⟩
  else
    ⟨advanceLoop m ((m.capacity - it._tableIndex).toNat + 1) it._tableIndex, 0⟩

/-- Source `begin()`. -/
def HashMap.begin (m : HashMap K V) : const_iterator := const_iterator.start.next m

/-- Source `const_iterator::operator*()`: `_table[_tableIndex].at(_listIndex)`; a negative
index converts to a huge `size_t`, which `vector::at` rejects. -/
def const_iterator.deref (m : HashMap K V) (it : const_iterator) : Except Exc (K × V) :=
  if it._listIndex < 0 then .error .out_of_range
  else
    match (m.chain it._tableIndex)[it._listIndex.toNat]? with
    | some p => .ok p
    | none => .error .out_of_range

/-- Source `const_iterator::operator==`. -/
def const_iterator.eq [DecidableEq V] (m : HashMap K V) (a b : const_iterator) :
    Except Exc Bool :=
  if a._tableIndex = m.capacity ∧ b._tableIndex = m.capacity then .ok true
  else if a._tableIndex = m.capacity ∨ b._tableIndex = m.capacity then .ok false
  else do
    let x ← a.deref m
    let y ← b.deref m
    .ok (decide (x = y))

/-- Source `const_iterator::operator!=`. -/
def const_iterator.ne [DecidableEq V] (m : HashMap K V) (a b : const_iterator) :
    Except Exc Bool := do
  let r ← a.eq m b
  .ok (!r)

/-- The loop `for (auto cur : *this)`: the sequence of values taken by `cur`, appended to
`acc`.  The first argument bounds the number of rounds. -/
def rangeLoop [DecidableEq V] (m : HashMap K V) :
    Nat → const_iterator → List (K × V) → Except Exc (List (K × V))
  | 0, _, acc => .ok acc
  | fuel + 1, it, acc => do
    let go ← it.ne m m.end_
    if go then
      let cur ← it.deref m
      rangeLoop m fuel (it.next m) (acc ++ [cur])
    else .ok acc

/-- The values visited by `for (auto cur : *this)`, in order.  A round of the loop visits
one stored entry, so the number of stored entries plus one bounds the rounds. -/
def HashMap.elements [DecidableEq V] (m : HashMap K V) : Except Exc (List (K × V)) :=
  rangeLoop m (m._table.flatten.length + 1) m.begin []

/-! ### Resizing and the mutating operations -/

/-- Source `_reSize(newCap)`: every value visited by the iteration over `*this` is pushed
to the back of the chain `hash & (newCap - 1)` of a fresh array of `newCap` chains. -/
def HashMap._reSize [DecidableEq V] (hashFanc : K → Nat) (m : HashMap K V) (newCap : Int) :
    Except Exc (HashMap K V) :=
  if newCap < MIN_CAPACITY then .ok m
  else do
    let visited ← m.elements
    let newTable := visited.foldl
      (fun t cur => pushBack t (maskIndex hashFanc cur.1 newCap).toNat cur)
      (List.replicate newCap.toNat [])
    .ok { m with _table := newTable, _capacity := newCap }

/-- Source `insert(key, val)`: the returned flag and the table after the call. -/
def HashMap.insert [DecidableEq V] (hashFanc : K → Nat) (m : HashMap K V) (key : K) (val : V) :
    Except Exc (Bool × HashMap K V) :=
  if m.containsKey hashFanc key then .ok (false, m)
  else do
    let m1 : HashMap K V := { m with _size := m._size + 1 }
    let m2 ←
      if m1.getLoadFactor > m1._highLoadFactor then
        m1._reSize hashFanc (m1._capacity * RESIZE_PARM)
      else .ok m1
    .ok (true, { m2 with
      _table := pushBack m2._table (m2._index hashFanc key).toNat (key, val) })

/-- The scan of `erase` over one chain: the chain without the first entry whose key equals
`key`, or `none` when the scan reaches the end of the chain. -/
def chainErase (key : K) : List (K × V) → Option (List (K × V))
  | [] => none
  | p :: rest =>
    if p.1 = key then some rest
    else
      match chainErase key rest with
      | some rest' => some (p :: rest')
      | none => none

/-- Source `erase(key)`: the returned flag and the table after the call.  The division
`_capacity / RESIZE_PARM` is the truncating division of `int`. -/
def HashMap.erase [DecidableEq V] (hashFanc : K → Nat) (m : HashMap K V) (key : K) :
    Except Exc (Bool × HashMap K V) :=
  let i := m._index hashFanc key
  match chainErase key (m.chain i) with
  | none => .ok (false, m)
  | some c => do
    let m1 : HashMap K V := { m with _table := m._table.set i.toNat c, _size := m._size - 1 }
    let m2 ←
      if m1.getLoadFactor < m1._lowLoadFactor then
        m1._reSize hashFanc (Int.tdiv m1._capacity RESIZE_PARM)
      else .ok m1
    .ok (true, m2)

/-- Source non-const `operator[](key)`: the value read through the returned reference and
the table after the call. -/
def HashMap.operatorBracket [DecidableEq V] [Inhabited V] (hashFanc : K → Nat)
    (m : HashMap K V) (key : K) : Except Exc (V × HashMap K V) := do
  let r ← m.insert hashFanc key default
  let v ← r.2.atKey hashFanc key
  .ok (v, r.2)

/-- The statement `(*this)[key] = val`. -/
def HashMap.bracketAssign [DecidableEq V] [Inhabited V] (hashFanc : K → Nat)
    (m : HashMap K V) (key : K) (val : V) : Except Exc (HashMap K V) := do
  let r ← m.operatorBracket hashFanc key
  .ok (r.2.store hashFanc key val)

/-! ### Constructors -/

/-- Source `HashMap(double lowFactor, double higeFactor)`. -/
def HashMap.ctor (lowFactor higeFactor : ℚ) : Except Exc (HashMap K V) :=
  if lowFactor ≤ 0 ∨ lowFactor ≥ 1 ∨ higeFactor ≤ 0 ∨ higeFactor ≥ 1 ∨
      higeFactor < lowFactor then
    .error .invalid_argument
  else
    .ok { _capacity := DEF_CAPACITY, _size := DEF_SIZE, _lowLoadFactor := lowFactor,
          _highLoadFactor := higeFactor, _table := List.replicate DEF_CAPACITY.toNat [] }

/-- Source `HashMap()`. -/
def HashMap.ctorDefault : Except Exc (HashMap K V) :=
  HashMap.ctor DEF_LOW_FACTOR DEF_HIGH_FACTOR

/-- Source `delete[] _table`, on the state of the array that `_table` points to (`true`
when the array was deleted before).  It leaves the array deleted; a second deletion of the
same array is undefined behaviour. -/
def deleteTable (deleted : Bool) : Except Exc Bool :=
  if deleted then .error .double_delete else .ok true

/-- Source `~HashMap()`: `delete[] _table`. -/
def HashMap.dtor (deleted : Bool) : Except Exc Bool :=
  deleteTable deleted

/-- Source `HashMap(keyVec, valVec) : HashMap()`: after the length check the pairs
`(keyVec[i], valVec[i])` are assigned in index order.  On the mismatch path the body runs
`delete[] _table` and throws `invalid_argument`; the constructor delegates to `HashMap()`,
which has completed, so the object is destroyed by `~HashMap()` while the exception leaves
the constructor, before any handler is reached. -/
def HashMap.ctorVec [DecidableEq V] [Inhabited V] (hashFanc : K → Nat)
    (keyVec : List K) (valVec : List V) : Except Exc (HashMap K V) := do
  let m ← (HashMap.ctorDefault : Except Exc (HashMap K V))
  if keyVec.length ≠ valVec.length then
    let deleted ← deleteTable false
    let _ ← HashMap.dtor deleted
    .error .invalid_argument
  else (keyVec.zip valVec).foldlM (fun t kv => t.bracketAssign hashFanc kv.1 kv.2) m

/-! ### Comparison -/

/-- Source `operator==`.  A `std::out_of_range` raised inside the `try` block, by the
iteration or by `other.at`, makes the answer `false`; so does the first visited pair
whose value differs. -/
def HashMap.operatorEq [DecidableEq V] (hashFanc : K → Nat) (m other : HashMap K V) :
    Except Exc Bool :=
  if m.size ≠ other.size ∨ m.capacity ≠ other.capacity then .ok false
  else
    match m.elements with
    | .error .out_of_range => .ok false
    | .error e => .error e
    | .ok visited =>
      .ok (visited.all fun pair =>
        match other.atKey hashFanc pair.1 with
        | .ok v => decide (v = pair.2)
        | .error _ => false)

/-- Source `operator!=`. -/
def HashMap.operatorNe [DecidableEq V] (hashFanc : K → Nat) (m other : HashMap K V) :
    Except Exc Bool := do
  let r ← m.operatorEq hashFanc other
  .ok (!r)

end Operations

/-! ## Notions used to state the properties

Well-formedness of a bucket array, the invariant of a table, the tables a client can
reach, sequences of calls, and the tables on which the theorems are instantiated. -/

section Notions

variable {K V : Type} [DecidableEq K] [DecidableEq V]

/-- The entries not yet visited by an iterator standing on a stored entry. -/
def remaining (m : HashMap K V) (it : const_iterator) : List (K × V) :=
  (m.chain it._tableIndex).drop it._listIndex.toNat ++
    (m._table.drop (it._tableIndex + 1).toNat).flatten

/-- An iterator that stands on a stored entry. -/
def OnEntry (m : HashMap K V) (it : const_iterator) : Prop :=
  0 ≤ it._tableIndex ∧ it._tableIndex < m._capacity ∧ 0 ≤ it._listIndex ∧
    it._listIndex.toNat < (m.chain it._tableIndex).length

/-- The table built by the loop of `_reSize` from the visited entries `xs`. -/
def rehash (hashFanc : K → Nat) (xs : List (K × V)) (newCap : Int) : List (List (K × V)) :=
  xs.foldl (fun t cur => pushBack t (maskIndex hashFanc cur.1 newCap).toNat cur)
    (List.replicate newCap.toNat [])

/-- A bucket array of `cap ≥ 1` chains in which every entry sits in the chain of its
bucket index and no key is stored twice. -/
structure TableOK (hashFanc : K → Nat) (cap : Int) (T : List (List (K × V))) : Prop where
  cap_pos : 1 ≤ cap
  table_len : T.length = cap.toNat
  placed : ∀ (i : Nat) (p : K × V), p ∈ T.getD i [] → maskIndex hashFanc p.1 cap = (i : Int)
  nodup : (T.flatten.map Prod.fst).Nodup

/-- The stored entries, chain after chain. -/
def HashMap.entries (m : HashMap K V) : List (K × V) := m._table.flatten

/-- The stored keys, chain after chain. -/
def HashMap.keys (m : HashMap K V) : List K := m.entries.map Prod.fst

/-- The structural invariant of a table: see `TableOK`. -/
def Shape (hashFanc : K → Nat) (m : HashMap K V) : Prop :=
  TableOK hashFanc m._capacity m._table

/-- The invariant of the table: the bucket array is well formed, `_size` counts the stored
entries, the capacity is a power of two and the load-factor bounds passed the check of the
constructor. -/
structure Inv (hashFanc : K → Nat) (m : HashMap K V) : Prop where
  shape : Shape hashFanc m
  size_eq : m._size = (m.entries.length : Int)
  cap_pow : ∃ n : Nat, m._capacity = 2 ^ n
  low_pos : 0 < m._lowLoadFactor
  low_le : m._lowLoadFactor ≤ m._highLoadFactor
  high_lt : m._highLoadFactor < 1

/-- The tables a client can obtain: a constructor that returned, followed by calls of the
public mutating operations (`insert`, `erase`, the non-const `operator[]`, an assignment
through the reference returned by the non-const `at` or `operator[]`, and `clear`). Copies
and moves hand out the same states. -/
inductive Reachable [Inhabited V] (hashFanc : K → Nat) : HashMap K V → Prop
  | ctor (low high : ℚ) (m : HashMap K V) :
      HashMap.ctor low high = .ok m → Reachable hashFanc m
  | insert (m : HashMap K V) (key : K) (val : V) (r : Bool × HashMap K V) :
      Reachable hashFanc m → m.insert hashFanc key val = .ok r → Reachable hashFanc r.2
  | erase (m : HashMap K V) (key : K) (r : Bool × HashMap K V) :
      Reachable hashFanc m → m.erase hashFanc key = .ok r → Reachable hashFanc r.2
  | bracket (m : HashMap K V) (key : K) (r : V × HashMap K V) :
      Reachable hashFanc m → m.operatorBracket hashFanc key = .ok r → Reachable hashFanc r.2
  | store (m : HashMap K V) (key : K) (val old : V) :
      Reachable hashFanc m → m.atKey hashFanc key = .ok old →
      Reachable hashFanc (m.store hashFanc key val)
  | clear (m : HashMap K V) : Reachable hashFanc m → Reachable hashFanc m.clear

/-- A hash function on `Nat` keys. -/
def demoHash : Nat → Nat := fun k => k

/-- The table made by `HashMap()`. -/
def demoTable : HashMap Nat Nat :=
  { _capacity := 16, _size := 0, _lowLoadFactor := 1 / 4, _highLoadFactor := 3 / 4,
    _table := List.replicate 16 [] }

/-- The table `demoTable` after `insert(3, 5)`. -/
def demoTable1 : HashMap Nat Nat :=
  { _capacity := 16, _size := 1, _lowLoadFactor := 1 / 4, _highLoadFactor := 3 / 4,
    _table := [[], [], [], [(3, 5)], [], [], [], [], [], [], [], [], [], [], [], []] }

/-- A call of `insert` or of `erase`. -/
inductive Call (K V : Type) where
  | insert (key : K) (val : V)
  | erase (key : K)

/-- The table after one call. -/
def applyCall (hashFanc : K → Nat) (m : HashMap K V) : Call K V → Except Exc (HashMap K V)
  | .insert key val => do
    let r ← m.insert hashFanc key val
    .ok r.2
  | .erase key => do
    let r ← m.erase hashFanc key
    .ok r.2

/-- The table after a sequence of calls, made in order. -/
def runCalls (hashFanc : K → Nat) (calls : List (Call K V)) (m : HashMap K V) :
    Except Exc (HashMap K V) :=
  calls.foldlM (fun t c => applyCall hashFanc t c) m

/-- The keys that a sequence of calls leaves stored when it starts from the keys `s`: an
`insert` adds its key, an `erase` removes it. -/
def liveKeysFrom (s : Finset K) (calls : List (Call K V)) : Finset K :=
  calls.foldl
    (fun t c =>
      match c with
      | .insert key _ => insert key t
      | .erase key => t.erase key)
    s

/-- The keys whose last successful call, in a sequence applied to an empty table, is an
`insert`. -/
def liveKeys (calls : List (Call K V)) : Finset K := liveKeysFrom ∅ calls

/-- The value paired with the last occurrence of `key` in a list of pairs. -/
def lastPaired (key : K) : List (K × V) → Option V
  | [] => none
  | p :: rest =>
    match lastPaired key rest with
    | some w => some w
    | none => if p.1 = key then some p.2 else none

/-- The capacity after `n` further successful calls of `insert`, starting from capacity `c`
and size `s`: each call doubles the capacity when the new size over the capacity exceeds
the high bound. -/
def growCap (high : ℚ) : Nat → Int → Int → Int
  | 0, c, _ => c
  | n + 1, c, s =>
    growCap high n (if ((s + 1 : Int) : ℚ) / (c : ℚ) > high then c * 2 else c) (s + 1)

/-- The members of a table as `HashMap(low, high)` leaves them. -/
def freshTable (low high : ℚ) : HashMap K V :=
  { _capacity := 16, _size := 0, _lowLoadFactor := low, _highLoadFactor := high,
    _table := List.replicate 16 [] }

/-- The calls `insert(k, v)` for the pairs of a list, in order. -/
def insertCalls (kvs : List (K × V)) : List (Call K V) :=
  kvs.map fun p => Call.insert p.1 p.2

/-- The bucket indices at which the `do ... while` loop of `operator++` evaluates
`_table[_tableIndex]`, in order.  The arguments are those of `advanceLoop`: the index is
read after the increment and before the test `_tableIndex < capacity`. -/
def advanceLoopReads (m : HashMap K V) : Nat → Int → List Int
  | 0, _ => []
  | fuel + 1, ti =>
    (ti + 1) ::
      (if ((m.chain (ti + 1)).length : Int) > 0 then []
       else if ti + 1 < m.capacity then advanceLoopReads m fuel (ti + 1)
       else [])

/-- The bucket indices at which `const_iterator::operator++()` evaluates
`_table[_tableIndex]`, in order. -/
def const_iterator.nextReads (m : HashMap K V) (it : const_iterator) : List Int :=
  it._tableIndex ::
    (if ((m.chain it._tableIndex).length : Int) > it._listIndex + 1 then []
     else advanceLoopReads m ((m.capacity - it._tableIndex).toNat + 1) it._tableIndex)

/-! ### The scanner of `SpamDetector.cpp` -/

/-- Output message for a message that reaches the threshold. -/
def SPAM_MSG : String := "SPAM"

/-- Output message for a message below the threshold. -/
def NOT_SPAM_MSG : String := "NOT_SPAM"

/-- The loop `for (auto & c: line) { c = toupper(c); }`, in the C locale. -/
def upperLine (line : List Char) : List Char := line.map Char.toUpper

/-- The lines that the loop `while (!mailFile.eof()) { getline(mailFile, line); ... }`
processes: the text between the newlines; after a final newline, and for an empty file,
the last `getline` delivers an empty line. -/
def fileLines : List Char → List (List Char)
  | [] => [[]]
  | c :: rest =>
    if c = '\n' then [] :: fileLines rest
    else
      match fileLines rest with
      | l :: ls => (c :: l) :: ls
      | [] => [[c]]

/-- The search of `std::string::find` through the suffix of the string that starts at
position `pos`: the first position at which `pat` occurs, `none` for `npos`. -/
def findAt (pat : List Char) : List Char → Nat → Option Nat
  | [], pos => if pat = [] then some pos else none
  | c :: rest, pos => if pat <+: c :: rest then some pos else findAt pat rest (pos + 1)

/-- The call `s.find(pat, pos)` of `std::string`; `none` stands for `npos`. -/
def strFind (s pat : List Char) (pos : Nat) : Option Nat :=
  if s.length < pos then none else findAt pat (s.drop pos) pos

/-- Smallest value of the type `int`. -/
def INT_MIN : Int := -2147483648

/-- Largest value of the type `int`. -/
def INT_MAX : Int := 2147483647

/-- The value of type `int` that is congruent to `x` modulo `2^32`: the result of the
32-bit two's-complement operation whose exact result is `x`. -/
def toInt32 (x : Int) : Int := (x - INT_MIN) % 4294967296 + INT_MIN

/-- The loop `while ((pos = line.find(pair.first, pos)) != npos) { sum += pair.second;
pos++; }` on `int sum`.  The first argument bounds the number of rounds. -/
def matchLoop (line : List Char) (pair : List Char × Int) : Nat → Nat → Int → Int
  | 0, _, sum => sum
  | fuel + 1, pos, sum =>
    match strFind line pair.1 pos with
    | none => sum
    | some p => matchLoop line pair fuel (p + 1) (toInt32 (sum + pair.2))

/-- Source `searchInFile` on the content of the file it opened: every line is converted to
upper case and searched for every entry that the iteration over the table visits.  A
search loop makes at most `line.size() + 2` rounds. -/
def searchInFile (content : List Char) (dataBase : HashMap (List Char) Int) :
    Except Exc Int :=
  (fileLines content).foldlM
    (fun sum line => do
      let visited ← dataBase.elements
      .ok (visited.foldl
        (fun s pair => matchLoop (upperLine line) pair ((upperLine line).length + 2) 0 s)
        sum))
    0

/-- The output of `main2` for a score and a threshold that parsed as a number: a threshold
that is not positive is rejected with `invalid_argument`. -/
def classify (badPoints limitPoints : Int) : Except Exc String :=
  if limitPoints ≤ 0 then .error .invalid_argument
  else if badPoints ≥ limitPoints then .ok SPAM_MSG
  else .ok NOT_SPAM_MSG

/-- The number of start positions `0, ..., line.size()` at which `pat` occurs in `line`. -/
def occurrences (pat line : List Char) : Nat :=
  ((List.range (line.length + 1)).filter fun i => decide (pat <+: line.drop i)).length

/-- The number of suffixes of `s`, the empty one included, that start with `pat`. -/
def occFrom (pat : List Char) : List Char → Nat
  | [] => if pat = [] then 1 else 0
  | c :: rest => (if pat <+: c :: rest then 1 else 0) + occFrom pat rest

/-- Specification: the upper-case letter of a lower-case letter of the basic Latin
alphabet; every other character is itself. -/
def specUpper : Char → Char
  | 'a' => 'A' | 'b' => 'B' | 'c' => 'C' | 'd' => 'D' | 'e' => 'E' | 'f' => 'F' | 'g' => 'G'
  | 'h' => 'H' | 'i' => 'I' | 'j' => 'J' | 'k' => 'K' | 'l' => 'L' | 'm' => 'M' | 'n' => 'N'
  | 'o' => 'O' | 'p' => 'P' | 'q' => 'Q' | 'r' => 'R' | 's' => 'S' | 't' => 'T' | 'u' => 'U'
  | 'v' => 'V' | 'w' => 'W' | 'x' => 'X' | 'y' => 'Y' | 'z' => 'Z'
  | c => c

/-- Specification: the lines of a text, the pieces between its newline characters. -/
def specLines (text : List Char) : List (List Char) := text.splitOn '\n'

/-- Specification: the score of a text, the sum, over every line of the text converted to
upper case and every entry, of the weight times the number of start positions at which the
phrase occurs in the line. -/
def specScore (entries : List (List Char × Int)) (text : List Char) : Int :=
  ((specLines text).map fun line =>
    (entries.map fun p => p.2 * (occurrences p.1 (line.map specUpper) : Int)).sum).sum

/-- A hash function on strings. -/
def demoStrHash : List Char → Nat := fun s => s.length

/-- The table made by `HashMap()` after `insert("FREE", 5)`, hashed with `demoStrHash`. -/
def demoSpamTable : HashMap (List Char) Int :=
  { _capacity := 16, _size := 1, _lowLoadFactor := 1 / 4, _highLoadFactor := 3 / 4,
    _table := [[], [], [], [], [("FREE".toList, 5)], [], [], [], [], [], [], [], [], [], [],
      []] }

/-- The table made by `HashMap()` after `insert("A", 2147483647)`, hashed with
`demoStrHash`. -/
def demoBigTable : HashMap (List Char) Int :=
  { _capacity := 16, _size := 1, _lowLoadFactor := 1 / 4, _highLoadFactor := 3 / 4,
    _table := [[], [("A".toList, 2147483647)], [], [], [], [], [], [], [], [], [], [], [],
      [], [], []] }

/-- The iterator obtained from `begin()` by `n` calls of `operator++`. -/
def iterAt (m : HashMap K V) : Nat → const_iterator
  | 0 => m.begin
  | n + 1 => (iterAt m n).next m

end Notions

/-! ## Chains -/

section Chains

variable {K V : Type} [DecidableEq K]

theorem chainFind_eq_none_iff (key : K) (c : List (K × V)) :
    chainFind key c = none ↔ ∀ p ∈ c, p.1 ≠ key := by
  induction c with
  | nil => simp [chainFind]
  | cons p rest ih =>
    by_cases h : p.1 = key
    · simp [chainFind, h]
    · simp [chainFind, h, ih]

theorem chainFind_mem {key : K} {v : V} {c : List (K × V)} (h : chainFind key c = some v) :
    (key, v) ∈ c := by
  induction c with
  | nil => simp [chainFind] at h
  | cons p rest ih =>
    by_cases hp : p.1 = key
    · simp only [chainFind, hp, if_true, Option.some.injEq] at h
      have : p = (key, v) := Prod.ext hp h
      simp [this]
    · simp only [chainFind, hp, if_false] at h
      exact List.mem_cons_of_mem _ (ih h)

theorem chainFind_of_mem_nodup {key : K} {v : V} {c : List (K × V)}
    (hnd : (c.map Prod.fst).Nodup) (h : (key, v) ∈ c) : chainFind key c = some v := by
  induction c with
  | nil => simp at h
  | cons p rest ih =>
    simp only [List.map_cons, List.nodup_cons] at hnd
    rcases List.mem_cons.1 h with h1 | h1
    · subst h1
      simp [chainFind]
    · have hne : p.1 ≠ key := by
        intro hp
        apply hnd.1
        rw [hp]
        exact List.mem_map_of_mem Prod.fst h1
      simp only [chainFind, hne, if_false]
      exact ih hnd.2 h1

theorem any_key_iff (key : K) (c : List (K × V)) :
    (c.any fun pair => decide (pair.1 = key)) = true ↔ key ∈ c.map Prod.fst := by
  simp only [List.any_eq_true, decide_eq_true_eq, List.mem_map]

theorem chainFind_isSome_iff (key : K) (c : List (K × V)) :
    (chainFind key c).isSome = true ↔ key ∈ c.map Prod.fst := by
  induction c with
  | nil => simp [chainFind]
  | cons p rest ih =>
    by_cases h : p.1 = key
    · simp [chainFind, h]
    · have h2 : ¬ key = p.1 := fun e => h e.symm
      simp [chainFind, h, h2, ih]

theorem chainErase_eq_none_iff (key : K) (c : List (K × V)) :
    chainErase key c = none ↔ key ∉ c.map Prod.fst := by
  induction c with
  | nil => simp [chainErase]
  | cons p rest ih =>
    by_cases h : p.1 = key
    · simp [chainErase, h]
    · have h2 : ¬ key = p.1 := fun e => h e.symm
      simp only [chainErase, h, if_false, List.map_cons, List.mem_cons, h2, false_or]
      rw [← ih]
      cases chainErase key rest <;> simp

theorem chainErase_perm {key : K} {c c' : List (K × V)} (h : chainErase key c = some c') :
    ∃ v, c.Perm ((key, v) :: c') := by
  induction c generalizing c' with
  | nil => simp [chainErase] at h
  | cons p rest ih =>
    by_cases hp : p.1 = key
    · simp only [chainErase, hp, if_true, Option.some.injEq] at h
      subst h
      refine ⟨p.2, ?_⟩
      have : p = (key, p.2) := Prod.ext hp rfl
      rw [← this]
    · simp only [chainErase, hp, if_false] at h
      cases hr : chainErase key rest with
      | none => simp [hr] at h
      | some r =>
        simp only [hr, Option.some.injEq] at h
        subst h
        obtain ⟨v, hv⟩ := ih hr
        exact ⟨v, (List.Perm.cons p hv).trans (List.Perm.swap _ _ _)⟩

theorem chainStore_keys (key : K) (val : V) (c : List (K × V)) :
    (chainStore key val c).map Prod.fst = c.map Prod.fst := by
  induction c with
  | nil => simp [chainStore]
  | cons p rest ih =>
    by_cases h : p.1 = key
    · simp [chainStore, h]
    · simp [chainStore, h, ih]

theorem chainStore_length (key : K) (val : V) (c : List (K × V)) :
    (chainStore key val c).length = c.length := by
  have := congrArg List.length (chainStore_keys key val c)
  simpa using this

theorem chainStore_mem_key {key : K} {val : V} {c : List (K × V)} {p : K × V}
    (h : p ∈ chainStore key val c) : p.1 ∈ c.map Prod.fst := by
  rw [← chainStore_keys key val c]
  exact List.mem_map_of_mem Prod.fst h

theorem chainStore_mem_self {key : K} (val : V) {c : List (K × V)}
    (h : key ∈ c.map Prod.fst) : (key, val) ∈ chainStore key val c := by
  induction c with
  | nil => simp at h
  | cons p rest ih =>
    by_cases hp : p.1 = key
    · simp [chainStore, hp]
    · have h2 : ¬ key = p.1 := fun e => hp e.symm
      simp only [List.map_cons, List.mem_cons, h2, false_or] at h
      simp only [chainStore, hp, if_false]
      exact List.mem_cons_of_mem _ (ih h)

theorem chainStore_mem_other {key : K} (val : V) {c : List (K × V)} {p : K × V}
    (hp : p.1 ≠ key) : p ∈ chainStore key val c ↔ p ∈ c := by
  induction c with
  | nil => simp [chainStore]
  | cons q rest ih =>
    by_cases hq : q.1 = key
    · have hne : p ≠ q := fun e => hp (e ▸ hq)
      have hne2 : p ≠ (q.1, val) := fun e => hp (by rw [e]; exact hq)
      simp [chainStore, hq, hne]
      intro h
      exact absurd h (by rw [← hq]; exact hne2)
    · simp [chainStore, hq, ih]

end Chains

/-! ## Bucket arrays -/

section Tables

variable {α : Type}

theorem flatten_split (T : List (List α)) (i : Nat) (h : i < T.length) :
    T.flatten = (T.take i).flatten ++ (T[i] ++ (T.drop (i + 1)).flatten) := by
  induction T generalizing i with
  | nil => simp at h
  | cons c rest ih =>
    cases i with
    | zero => simp
    | succ j =>
      have hj : j < rest.length := by simpa using h
      simp only [List.flatten_cons, List.take_succ_cons, List.getElem_cons_succ,
        List.drop_succ_cons, List.append_assoc]
      rw [← ih j hj]

theorem flatten_set (T : List (List α)) (i : Nat) (h : i < T.length) (c : List α) :
    (T.set i c).flatten = (T.take i).flatten ++ (c ++ (T.drop (i + 1)).flatten) := by
  induction T generalizing i with
  | nil => simp at h
  | cons d rest ih =>
    cases i with
    | zero => simp
    | succ j =>
      have hj : j < rest.length := by simpa using h
      simp only [List.set_cons_succ, List.flatten_cons, List.take_succ_cons,
        List.drop_succ_cons, List.append_assoc]
      rw [ih j hj]

theorem flatten_set_perm (T : List (List α)) (i : Nat) (h : i < T.length) (c : List α)
    (x : α) (hc : c.Perm (x :: T[i])) : (T.set i c).flatten.Perm (x :: T.flatten) := by
  rw [flatten_set T i h c, flatten_split T i h]
  have h1 : (c ++ (T.drop (i + 1)).flatten).Perm
      (x :: (T[i] ++ (T.drop (i + 1)).flatten)) := by
    simpa using hc.append_right (T.drop (i + 1)).flatten
  exact (List.Perm.append_left _ h1).trans List.perm_middle

theorem flatten_perm_set (T : List (List α)) (i : Nat) (h : i < T.length) (c : List α)
    (x : α) (hc : T[i].Perm (x :: c)) : T.flatten.Perm (x :: (T.set i c).flatten) := by
  rw [flatten_set T i h c, flatten_split T i h]
  have h1 : (T[i] ++ (T.drop (i + 1)).flatten).Perm
      (x :: (c ++ (T.drop (i + 1)).flatten)) := by
    simpa using hc.append_right (T.drop (i + 1)).flatten
  exact (List.Perm.append_left _ h1).trans List.perm_middle

theorem mem_flatten_iff_getElem (T : List (List α)) (p : α) :
    p ∈ T.flatten ↔ ∃ i, ∃ h : i < T.length, p ∈ T[i] := by
  rw [List.mem_flatten]
  constructor
  · rintro ⟨l, hl, hp⟩
    obtain ⟨i, hi, e⟩ := List.mem_iff_getElem.1 hl
    exact ⟨i, hi, e ▸ hp⟩
  · rintro ⟨i, hi, hp⟩
    exact ⟨T[i], List.getElem_mem hi, hp⟩

theorem getElem_set_eq_ite (T : List (List α)) (i j : Nat) (c : List α)
    (hj : j < T.length) :
    (T.set i c).getD j [] = if i = j then c else T[j] := by
  have hj2 : j < (T.set i c).length := by simpa using hj
  rw [List.getD_eq_getElem _ _ hj2, List.getElem_set]

end Tables

/-! ## The iteration visits the chains in order -/

section Iteration

variable {K V : Type}

theorem chain_eq_getElem (m : HashMap K V) (i : Int) (h : i.toNat < m._table.length) :
    m.chain i = m._table[i.toNat] := by
  unfold HashMap.chain
  exact List.getD_eq_getElem _ _ h

theorem chain_eq_nil_of_le (m : HashMap K V) (i : Int) (h : m._table.length ≤ i.toNat) :
    m.chain i = [] := by
  unfold HashMap.chain
  rw [List.getD_eq_getElem?_getD, List.getElem?_eq_none h]
  rfl

theorem drop_flatten_of_chain_nil (m : HashMap K V) (i : Int) (h0 : 0 ≤ i)
    (h : m.chain i = []) :
    (m._table.drop i.toNat).flatten = (m._table.drop (i + 1).toNat).flatten := by
  have e : (i + 1).toNat = i.toNat + 1 := by omega
  rw [e]
  by_cases hi : i.toNat < m._table.length
  · rw [List.drop_eq_getElem_cons hi, List.flatten_cons, ← chain_eq_getElem m i hi, h]
    rfl
  · rw [List.drop_eq_nil_of_le (by omega), List.drop_eq_nil_of_le (by omega)]

theorem drop_flatten_of_chain (m : HashMap K V) (i : Int) (h0 : 0 ≤ i)
    (hi : i.toNat < m._table.length) :
    (m._table.drop i.toNat).flatten =
      m.chain i ++ (m._table.drop (i + 1).toNat).flatten := by
  have e : (i + 1).toNat = i.toNat + 1 := by omega
  rw [e, List.drop_eq_getElem_cons hi, List.flatten_cons, ← chain_eq_getElem m i hi]

/-- The loop of `operator++` stops at the next non-empty chain, or at `capacity`; the
bound on its rounds is not reached. -/
theorem advanceLoop_spec (m : HashMap K V) (fuel : Nat) (ti : Int) (h0 : -1 ≤ ti) (hlt : ti < m._capacity)
    (hfuel : (m._capacity - ti).toNat ≤ fuel) :
    ti < advanceLoop m fuel ti ∧ advanceLoop m fuel ti ≤ m._capacity ∧
    (m._table.drop (ti + 1).toNat).flatten =
      (m._table.drop (advanceLoop m fuel ti).toNat).flatten ∧
    (advanceLoop m fuel ti < m._capacity → m.chain (advanceLoop m fuel ti) ≠ []) := by
  induction fuel generalizing ti with
  | zero => omega
  | succ fuel ih =>
    unfold advanceLoop
    by_cases hne : ((m.chain (ti + 1)).length : Int) > 0
    · rw [if_pos hne]
      refine ⟨by omega, by omega, rfl, ?_⟩
      intro _ hnil
      rw [hnil] at hne
      simp at hne
    · rw [if_neg hne]
      have hnil : m.chain (ti + 1) = [] := by
        apply List.eq_nil_of_length_eq_zero
        omega
      by_cases hc : ti + 1 < m.capacity
      · rw [if_pos hc]
        have hc2 : ti + 1 < m._capacity := hc
        obtain ⟨a, b, c, d⟩ := ih (ti + 1) (by omega) hc2 (by omega)
        refine ⟨by omega, b, ?_, d⟩
        rw [← c]
        exact drop_flatten_of_chain_nil m (ti + 1) (by omega) hnil
      · rw [if_neg hc]
        have hc2 : ¬ ti + 1 < m._capacity := hc
        refine ⟨by omega, by omega, rfl, ?_⟩
        intro h
        omega

theorem next_spec (m : HashMap K V) (hlen : m._table.length = m._capacity.toNat)
    (ti li : Int) (h0 : 0 ≤ ti) (hlt : ti < m._capacity) (hli : -1 ≤ li) :
    ((const_iterator.next m ⟨ti, li⟩)._tableIndex = m._capacity ∧
      (m.chain ti).drop (li + 1).toNat ++ (m._table.drop (ti + 1).toNat).flatten = []) ∨
    (OnEntry m (const_iterator.next m ⟨ti, li⟩) ∧
      remaining m (const_iterator.next m ⟨ti, li⟩) =
        (m.chain ti).drop (li + 1).toNat ++ (m._table.drop (ti + 1).toNat).flatten) := by
  unfold const_iterator.next
  by_cases hc : ((m.chain ti).length : Int) > li + 1
  · right
    simp only [if_pos hc]
    refine ⟨⟨h0, hlt, ?_, ?_⟩, rfl⟩
    · show 0 ≤ li + 1
      omega
    · show (li + 1).toNat < (m.chain ti).length
      omega
  · simp only [if_neg hc]
    have hd : (m.chain ti).drop (li + 1).toNat = [] := by
      apply List.drop_eq_nil_of_le
      omega
    rw [hd, List.nil_append]
    have hf : (m._capacity - ti).toNat ≤ (m.capacity - ti).toNat + 1 := by
      show (m._capacity - ti).toNat ≤ (m._capacity - ti).toNat + 1
      omega
    obtain ⟨a, b, c, d⟩ := advanceLoop_spec m _ ti (by omega) hlt hf
    clear hf
    generalize advanceLoop m ((m.capacity - ti).toNat + 1) ti = r at a b c d
    by_cases hr : r = m._capacity
    · left
      refine ⟨hr, ?_⟩
      rw [c, hr, List.drop_eq_nil_of_le (by omega)]
      rfl
    · right
      have hr2 : r < m._capacity := by omega
      have hne := d hr2
      have hrl : r.toNat < m._table.length := by omega
      refine ⟨⟨?_, hr2, le_refl _, ?_⟩, ?_⟩
      · show 0 ≤ r
        omega
      · show (0 : Int).toNat < (m.chain r).length
        have : 0 < (m.chain r).length := List.length_pos.2 hne
        simpa using this
      · show (m.chain r).drop (0 : Int).toNat ++ (m._table.drop (r + 1).toNat).flatten = _
        rw [c, drop_flatten_of_chain m r (by omega) hrl]
        rfl

variable [DecidableEq K] [DecidableEq V]

theorem rangeLoop_at_end (m : HashMap K V) (fuel : Nat) (it : const_iterator)
    (acc : List (K × V)) (h : it._tableIndex = m._capacity) :
    rangeLoop m (fuel + 1) it acc = .ok acc := by
  simp [rangeLoop, const_iterator.ne, const_iterator.eq, HashMap.end_, HashMap.capacity, h,
    bind, Except.bind]

/-- From an iterator standing on a stored entry, the loop `for (auto cur : *this)` visits
exactly the entries that remain, whenever it is given at least one more round than entries
remain. -/
theorem rangeLoop_onEntry (m : HashMap K V) (hlen : m._table.length = m._capacity.toNat)
    (fuel : Nat) (it : const_iterator) (acc : List (K × V)) (hv : OnEntry m it)
    (hfuel : (remaining m it).length + 1 ≤ fuel) :
    rangeLoop m fuel it acc = .ok (acc ++ remaining m it) := by
  induction fuel generalizing it acc with
  | zero => omega
  | succ fuel ih =>
    obtain ⟨ti, li⟩ := it
    obtain ⟨h0, hlt, hl0, hll⟩ := hv
    simp only at h0 hlt hl0 hll
    have hne : ti ≠ m._capacity := by omega
    have hnl : ¬ li < 0 := by omega
    have hrem : remaining m ⟨ti, li⟩ =
        (m.chain ti)[li.toNat] ::
          ((m.chain ti).drop (li + 1).toNat ++ (m._table.drop (ti + 1).toNat).flatten) := by
      have e : (li + 1).toNat = li.toNat + 1 := by omega
      simp only [remaining]
      rw [List.drop_eq_getElem_cons hll, e]
      rfl
    have hstep : rangeLoop m (fuel + 1) ⟨ti, li⟩ acc =
        rangeLoop m fuel (const_iterator.next m ⟨ti, li⟩) (acc ++ [(m.chain ti)[li.toNat]]) := by
      simp [rangeLoop, const_iterator.ne, const_iterator.eq, HashMap.end_, HashMap.capacity,
        hne, const_iterator.deref, hnl, List.getElem?_eq_getElem hll, bind, Except.bind]
    rw [hstep, hrem]
    rw [hrem] at hfuel
    simp only [List.length_cons] at hfuel
    rcases next_spec m hlen ti li h0 hlt (by omega) with ⟨hend, hnil⟩ | ⟨hon, hrest⟩
    · rw [hnil]
      cases fuel with
      | zero => omega
      | succ fuel => rw [rangeLoop_at_end m fuel _ _ hend]
    · rw [ih _ _ hon (by rw [hrest]; omega), hrest]
      simp

/-- On a table whose bucket array has `capacity ≥ 1` chains, the iteration from `begin()` to
`end()` visits every stored entry once, chain by chain, and raises no exception. -/
theorem elements_eq (m : HashMap K V) (hlen : m._table.length = m._capacity.toNat)
    (hcap : 1 ≤ m._capacity) : m.elements = .ok m._table.flatten := by
  unfold HashMap.elements HashMap.begin const_iterator.start
  simp only [INIT_TABLA_INDEX, INIT_LIST_INDEX]
  have hT : m._table.flatten =
      (m.chain 0).drop ((-1 : Int) + 1).toNat ++ (m._table.drop ((0 : Int) + 1).toNat).flatten := by
    have := drop_flatten_of_chain m 0 (le_refl _) (by omega)
    simpa using this
  rcases next_spec m hlen 0 (-1) (le_refl _) (by omega) (le_refl _) with
    ⟨hend, hnil⟩ | ⟨hon, hrest⟩
  · rw [rangeLoop_at_end m _ _ _ hend, hT, hnil]
  · have hfuel : (remaining m (const_iterator.next m ⟨0, -1⟩)).length + 1 ≤
        m._table.flatten.length + 1 := by
      rw [hrest, ← hT]
    have := rangeLoop_onEntry m hlen _ _ [] hon hfuel
    rw [hrest, ← hT] at this
    simpa using this

end Iteration

/-! ## Well-formed bucket arrays -/

section WellFormed

variable {K V : Type} [DecidableEq K]

omit [DecidableEq K] in
theorem maskIndex_nonneg (hashFanc : K → Nat) (key : K) (cap : Int) :
    0 ≤ maskIndex hashFanc key cap := by
  unfold maskIndex
  omega

omit [DecidableEq K] in
theorem maskIndex_lt (hashFanc : K → Nat) (key : K) (cap : Int) (hc : 1 ≤ cap) :
    maskIndex hashFanc key cap < cap := by
  unfold maskIndex
  have := @Nat.and_le_right (hashFanc key) (cap - 1).toNat
  omega

omit [DecidableEq K] in
theorem maskIndex_toNat_lt (hashFanc : K → Nat) (key : K) (cap : Int) (hc : 1 ≤ cap) :
    (maskIndex hashFanc key cap).toNat < cap.toNat := by
  have h1 := maskIndex_nonneg hashFanc key cap
  have h2 := maskIndex_lt hashFanc key cap hc
  omega

omit [DecidableEq K] in
theorem getD_mem_flatten {T : List (List (K × V))} {i : Nat} {p : K × V}
    (h : p ∈ T.getD i []) : p ∈ T.flatten := by
  by_cases hi : i < T.length
  · rw [List.getD_eq_getElem _ _ hi] at h
    exact (mem_flatten_iff_getElem T p).2 ⟨i, hi, h⟩
  · rw [List.getD_eq_default _ _ (by omega)] at h
    simp at h

omit [DecidableEq K] in
theorem getD_sublist_flatten (T : List (List (K × V))) (i : Nat) :
    (T.getD i []).Sublist T.flatten := by
  by_cases hi : i < T.length
  · rw [List.getD_eq_getElem _ _ hi]
    exact List.sublist_flatten_of_mem (List.getElem_mem hi)
  · rw [List.getD_eq_default _ _ (by omega)]
    exact List.nil_sublist _

omit [DecidableEq K] in
theorem TableOK.mem_iff {hashFanc : K → Nat} {cap : Int} {T : List (List (K × V))}
    (ok : TableOK hashFanc cap T) (p : K × V) :
    p ∈ T.flatten ↔ p ∈ T.getD (maskIndex hashFanc p.1 cap).toNat [] := by
  constructor
  · intro h
    obtain ⟨i, hi, hp⟩ := (mem_flatten_iff_getElem T p).1 h
    have hp2 : p ∈ T.getD i [] := by rw [List.getD_eq_getElem _ _ hi]; exact hp
    have := ok.placed i p hp2
    rw [this]
    simpa using hp2
  · exact getD_mem_flatten

omit [DecidableEq K] in
theorem TableOK.key_mem_iff {hashFanc : K → Nat} {cap : Int} {T : List (List (K × V))}
    (ok : TableOK hashFanc cap T) (key : K) :
    key ∈ T.flatten.map Prod.fst ↔
      key ∈ (T.getD (maskIndex hashFanc key cap).toNat []).map Prod.fst := by
  simp only [List.mem_map]
  constructor
  · rintro ⟨p, hp, rfl⟩
    exact ⟨p, (ok.mem_iff p).1 hp, rfl⟩
  · rintro ⟨p, hp, rfl⟩
    exact ⟨p, getD_mem_flatten hp, rfl⟩

omit [DecidableEq K] in
theorem TableOK.chain_nodup {hashFanc : K → Nat} {cap : Int} {T : List (List (K × V))}
    (ok : TableOK hashFanc cap T) (i : Nat) : ((T.getD i []).map Prod.fst).Nodup :=
  List.Nodup.sublist ((getD_sublist_flatten T i).map Prod.fst) ok.nodup

omit [DecidableEq K] in
theorem TableOK.replicate (hashFanc : K → Nat) (cap : Int) (hc : 1 ≤ cap) :
    TableOK hashFanc cap (List.replicate cap.toNat ([] : List (K × V))) := by
  refine ⟨hc, by simp, ?_, by simp⟩
  intro i p hp
  have : (List.replicate cap.toNat ([] : List (K × V))).getD i [] = [] := by
    rw [List.getD_eq_getElem?_getD]
    by_cases hi : i < cap.toNat
    · simp [List.getElem?_replicate, hi]
    · simp [List.getElem?_replicate, hi]
  rw [this] at hp
  simp at hp

omit [DecidableEq K] in
/-- Replacing the chain of bucket `i` by a chain that is the old one with one entry of
bucket `i` added keeps the array well formed. -/
theorem TableOK.set_add {hashFanc : K → Nat} {cap : Int} {T : List (List (K × V))}
    (ok : TableOK hashFanc cap T) (p : K × V) (c : List (K × V))
    (hp : p.1 ∉ T.flatten.map Prod.fst)
    (hc : c.Perm (p :: T.getD (maskIndex hashFanc p.1 cap).toNat [])) :
    TableOK hashFanc cap (T.set (maskIndex hashFanc p.1 cap).toNat c) ∧
      (T.set (maskIndex hashFanc p.1 cap).toNat c).flatten.Perm (p :: T.flatten) := by
  have hi : (maskIndex hashFanc p.1 cap).toNat < T.length := by
    rw [ok.table_len]
    exact maskIndex_toNat_lt hashFanc p.1 cap ok.cap_pos
  have hi0 := maskIndex_nonneg hashFanc p.1 cap
  generalize hidx : (maskIndex hashFanc p.1 cap).toNat = i at hi hc
  rw [List.getD_eq_getElem _ _ hi] at hc
  have hperm := flatten_set_perm T i hi c p hc
  refine ⟨⟨ok.cap_pos, by rw [List.length_set]; exact ok.table_len, ?_, ?_⟩, hperm⟩
  · intro j q hq
    by_cases hj : j < T.length
    · rw [getElem_set_eq_ite T i j c hj] at hq
      by_cases hij : i = j
      · rw [if_pos hij] at hq
        subst hij
        rcases List.mem_cons.1 (hc.mem_iff.1 hq) with h1 | h1
        · rw [h1, ← hidx]
          omega
        · apply ok.placed i q
          rw [List.getD_eq_getElem _ _ hj]
          exact h1
      · rw [if_neg hij] at hq
        apply ok.placed j q
        rw [List.getD_eq_getElem _ _ hj]
        exact hq
    · rw [List.getD_eq_default _ _ (by rw [List.length_set]; omega)] at hq
      simp at hq
  · apply ((hperm.map Prod.fst).nodup_iff).2
    rw [List.map_cons, List.nodup_cons]
    exact ⟨hp, ok.nodup⟩

omit [DecidableEq K] in
/-- The statement `_table[index].push_back(p)` for a key that is not stored. -/
theorem TableOK.pushBack {hashFanc : K → Nat} {cap : Int} {T : List (List (K × V))}
    (ok : TableOK hashFanc cap T) (p : K × V) (hp : p.1 ∉ T.flatten.map Prod.fst) :
    TableOK hashFanc cap (pushBack T (maskIndex hashFanc p.1 cap).toNat p) ∧
      (pushBack T (maskIndex hashFanc p.1 cap).toNat p).flatten.Perm (p :: T.flatten) :=
  ok.set_add p _ hp (List.perm_append_singleton p _)

omit [DecidableEq K] in
theorem foldl_pushBack_ok (hashFanc : K → Nat) (cap : Int) (xs : List (K × V))
    (T : List (List (K × V))) (ok : TableOK hashFanc cap T)
    (hnd : ((T.flatten ++ xs).map Prod.fst).Nodup) :
    TableOK hashFanc cap
        (xs.foldl (fun t cur => pushBack t (maskIndex hashFanc cur.1 cap).toNat cur) T) ∧
      (xs.foldl (fun t cur => pushBack t (maskIndex hashFanc cur.1 cap).toNat cur) T).flatten.Perm
        (T.flatten ++ xs) := by
  induction xs generalizing T with
  | nil => simpa using ok
  | cons x rest ih =>
    have hx : x.1 ∉ T.flatten.map Prod.fst := by
      intro hmem
      rw [List.map_append, List.map_cons] at hnd
      have := (List.nodup_append.1 hnd).2.2
      exact this hmem (List.mem_cons_self _ _)
    obtain ⟨ok1, perm1⟩ := ok.pushBack x hx
    have hmid : ((x :: T.flatten) ++ rest).Perm (T.flatten ++ x :: rest) := by
      simpa using (@List.perm_middle _ x T.flatten rest).symm
    have hnd1 : (((pushBack T (maskIndex hashFanc x.1 cap).toNat x).flatten ++ rest).map
        Prod.fst).Nodup := by
      apply ((((perm1.append_right rest).trans hmid).map Prod.fst).nodup_iff).2
      exact hnd
    obtain ⟨ok2, perm2⟩ := ih _ ok1 hnd1
    rw [List.foldl_cons]
    exact ⟨ok2, perm2.trans ((perm1.append_right rest).trans hmid)⟩

omit [DecidableEq K] in
/-- Rehashing entries with distinct keys gives a well-formed array with the same entries. -/
theorem rehash_ok (hashFanc : K → Nat) (xs : List (K × V)) (newCap : Int)
    (hc : 1 ≤ newCap) (hnd : (xs.map Prod.fst).Nodup) :
    TableOK hashFanc newCap (rehash hashFanc xs newCap) ∧
      (rehash hashFanc xs newCap).flatten.Perm xs := by
  have h := foldl_pushBack_ok hashFanc newCap xs _ (TableOK.replicate hashFanc newCap hc)
    (by simpa using hnd)
  simpa [rehash] using h

omit [DecidableEq K] in
/-- Replacing the chain of bucket `i` by the old chain without one entry keeps the array
well formed. -/
theorem TableOK.set_remove {hashFanc : K → Nat} {cap : Int} {T : List (List (K × V))}
    (ok : TableOK hashFanc cap T) (i : Nat) (hi : i < T.length) (x : K × V)
    (c : List (K × V)) (hc : T[i].Perm (x :: c)) :
    TableOK hashFanc cap (T.set i c) ∧ T.flatten.Perm (x :: (T.set i c).flatten) := by
  have hperm := flatten_perm_set T i hi c x hc
  refine ⟨⟨ok.cap_pos, by rw [List.length_set]; exact ok.table_len, ?_, ?_⟩, hperm⟩
  · intro j q hq
    by_cases hj : j < T.length
    · rw [getElem_set_eq_ite T i j c hj] at hq
      apply ok.placed j q
      rw [List.getD_eq_getElem _ _ hj]
      by_cases hij : i = j
      · rw [if_pos hij] at hq
        subst hij
        exact hc.mem_iff.2 (List.mem_cons_of_mem _ hq)
      · rw [if_neg hij] at hq
        exact hq
    · rw [List.getD_eq_default _ _ (by rw [List.length_set]; omega)] at hq
      simp at hq
  · have := ((hperm.map Prod.fst).nodup_iff).1 ok.nodup
    rw [List.map_cons, List.nodup_cons] at this
    exact this.2

/-- A write through the reference returned by `at` keeps the array well formed and keeps
the stored keys, in order. -/
theorem TableOK.set_store {hashFanc : K → Nat} {cap : Int} {T : List (List (K × V))}
    (ok : TableOK hashFanc cap T) (i : Nat) (hi : i < T.length) (key : K) (val : V) :
    TableOK hashFanc cap (T.set i (chainStore key val (T.getD i []))) ∧
      (T.set i (chainStore key val (T.getD i []))).flatten.map Prod.fst =
        T.flatten.map Prod.fst := by
  have hkeys : (T.set i (chainStore key val (T.getD i []))).flatten.map Prod.fst =
      T.flatten.map Prod.fst := by
    rw [flatten_set T i hi, List.getD_eq_getElem _ _ hi]
    conv_rhs => rw [flatten_split T i hi]
    simp only [List.map_append, chainStore_keys]
  refine ⟨⟨ok.cap_pos, by rw [List.length_set]; exact ok.table_len, ?_, ?_⟩, hkeys⟩
  · intro j q hq
    by_cases hj : j < T.length
    · rw [getElem_set_eq_ite T i j _ hj] at hq
      by_cases hij : i = j
      · rw [if_pos hij] at hq
        subst hij
        obtain ⟨q', hq', e⟩ := List.mem_map.1 (chainStore_mem_key hq)
        rw [← e]
        exact ok.placed i q' hq'
      · rw [if_neg hij] at hq
        apply ok.placed j q
        rw [List.getD_eq_getElem _ _ hj]
        exact hq
    · rw [List.getD_eq_default _ _ (by rw [List.length_set]; omega)] at hq
      simp at hq
  · rw [hkeys]
    exact ok.nodup

end WellFormed

/-! ## What the queries return on a well-formed table -/

section Queries

variable {K V : Type} [DecidableEq K]

omit [DecidableEq K] in
theorem Shape.index_toNat_lt {hashFanc : K → Nat} {m : HashMap K V} (ok : Shape hashFanc m)
    (key : K) : (m._index hashFanc key).toNat < m._table.length := by
  rw [ok.table_len]
  exact maskIndex_toNat_lt hashFanc key m._capacity ok.cap_pos

theorem Shape.containsKey_iff {hashFanc : K → Nat} {m : HashMap K V} (ok : Shape hashFanc m)
    (key : K) : m.containsKey hashFanc key = true ↔ key ∈ m.keys := by
  unfold HashMap.containsKey
  rw [any_key_iff]
  exact (TableOK.key_mem_iff ok key).symm

theorem Shape.containsKey_false_iff {hashFanc : K → Nat} {m : HashMap K V}
    (ok : Shape hashFanc m) (key : K) : m.containsKey hashFanc key = false ↔ key ∉ m.keys := by
  rw [← ok.containsKey_iff key]
  simp

theorem Shape.atKey_iff {hashFanc : K → Nat} {m : HashMap K V} (ok : Shape hashFanc m)
    (key : K) (v : V) : m.atKey hashFanc key = .ok v ↔ (key, v) ∈ m.entries := by
  unfold HashMap.atKey
  have hmem := TableOK.mem_iff ok (key, v)
  have hnd := TableOK.chain_nodup ok (maskIndex hashFanc key m._capacity).toNat
  constructor
  · intro h
    cases hf : chainFind key (m.chain (m._index hashFanc key)) with
    | none => simp [hf] at h
    | some w =>
      simp only [hf, Except.ok.injEq] at h
      subst h
      exact hmem.2 (chainFind_mem hf)
  · intro h
    have := chainFind_of_mem_nodup hnd (hmem.1 h)
    have e : chainFind key (m.chain (m._index hashFanc key)) = some v := this
    rw [e]

theorem Shape.atKey_error_iff {hashFanc : K → Nat} {m : HashMap K V} (ok : Shape hashFanc m)
    (key : K) : m.atKey hashFanc key = .error .out_of_range ↔ key ∉ m.keys := by
  have hk : key ∈ m.keys ↔ key ∈ (m.chain (m._index hashFanc key)).map Prod.fst :=
    TableOK.key_mem_iff ok key
  rw [hk, ← chainFind_isSome_iff]
  unfold HashMap.atKey
  cases chainFind key (m.chain (m._index hashFanc key)) <;> simp

end Queries

/-! ## What the mutating operations do on a well-formed table -/

section Mutations

variable {K V : Type} [DecidableEq K] [DecidableEq V]

theorem reSize_small (hashFanc : K → Nat) (m : HashMap K V) (newCap : Int)
    (h : newCap < 1) : m._reSize hashFanc newCap = .ok m := by
  unfold HashMap._reSize
  rw [if_pos (by simpa [MIN_CAPACITY] using h)]

/-- On a table with `capacity ≥ 1` chains, `_reSize(newCap)` with `newCap ≥ 1` returns and
leaves the rehashed entries in an array of `newCap` chains. -/
theorem reSize_eq (hashFanc : K → Nat) (m : HashMap K V)
    (hlen : m._table.length = m._capacity.toNat) (hcap : 1 ≤ m._capacity) (newCap : Int)
    (h : 1 ≤ newCap) :
    m._reSize hashFanc newCap =
      .ok { m with _table := rehash hashFanc m._table.flatten newCap, _capacity := newCap } := by
  unfold HashMap._reSize
  rw [if_neg (by simp only [MIN_CAPACITY]; omega), elements_eq m hlen hcap]
  rfl

theorem insert_present (hashFanc : K → Nat) (m : HashMap K V) (key : K) (val : V)
    (h : m.containsKey hashFanc key = true) : m.insert hashFanc key val = .ok (false, m) := by
  unfold HashMap.insert
  rw [if_pos h]

/-- A call of `insert` with a key that is not stored. -/
theorem insert_absent {hashFanc : K → Nat} {m : HashMap K V} (ok : Shape hashFanc m)
    (key : K) (val : V) (habs : m.containsKey hashFanc key = false) :
    ∃ m', m.insert hashFanc key val = .ok (true, m') ∧ Shape hashFanc m' ∧
      m'.entries.Perm ((key, val) :: m.entries) ∧ m'._size = m._size + 1 ∧
      m'._lowLoadFactor = m._lowLoadFactor ∧ m'._highLoadFactor = m._highLoadFactor ∧
      m'._capacity =
        if ((m._size + 1 : Int) : ℚ) / (m._capacity : ℚ) > m._highLoadFactor then
          m._capacity * 2
        else m._capacity := by
  have hk : key ∉ m._table.flatten.map Prod.fst := (ok.containsKey_false_iff key).1 habs
  unfold HashMap.insert
  rw [if_neg (by simp [habs])]
  by_cases hres : ((m._size + 1 : Int) : ℚ) / (m._capacity : ℚ) > m._highLoadFactor
  · have hres2 : HashMap.getLoadFactor { m with _size := m._size + 1 } >
        m._highLoadFactor := hres
    have h2 : (1 : Int) ≤ m._capacity * RESIZE_PARM := by
      have := ok.cap_pos
      simp only [RESIZE_PARM]
      omega
    obtain ⟨ok1, perm1⟩ := rehash_ok hashFanc m._table.flatten (m._capacity * RESIZE_PARM) h2
      ok.nodup
    have hk1 : key ∉ (rehash hashFanc m._table.flatten (m._capacity * RESIZE_PARM)).flatten.map
        Prod.fst := by
      rw [(perm1.map Prod.fst).mem_iff]
      exact hk
    obtain ⟨ok2, perm2⟩ := ok1.pushBack (key, val) hk1
    simp only [if_pos hres2, if_pos hres]
    rw [reSize_eq hashFanc { m with _size := m._size + 1 } ok.table_len ok.cap_pos _ h2]
    refine ⟨_, rfl, ok2, perm2.trans (List.Perm.cons _ perm1), rfl, rfl, rfl, ?_⟩
    simp [RESIZE_PARM]
  · have hres2 : ¬ HashMap.getLoadFactor { m with _size := m._size + 1 } >
        m._highLoadFactor := hres
    obtain ⟨ok2, perm2⟩ := TableOK.pushBack ok (key, val) hk
    simp only [if_neg hres2, if_neg hres]
    exact ⟨_, rfl, ok2, perm2, rfl, rfl, rfl, rfl⟩

theorem erase_absent (hashFanc : K → Nat) (m : HashMap K V) (key : K)
    (h : m.containsKey hashFanc key = false) : m.erase hashFanc key = .ok (false, m) := by
  have h1 : chainErase key (m.chain (m._index hashFanc key)) = none := by
    rw [chainErase_eq_none_iff, ← any_key_iff]
    unfold HashMap.containsKey at h
    simp [h]
  unfold HashMap.erase
  simp only [h1]

/-- A call of `erase` with a stored key. -/
theorem erase_present {hashFanc : K → Nat} {m : HashMap K V} (ok : Shape hashFanc m)
    (key : K) (hpres : m.containsKey hashFanc key = true) :
    ∃ m' v, m.erase hashFanc key = .ok (true, m') ∧ Shape hashFanc m' ∧
      m.entries.Perm ((key, v) :: m'.entries) ∧ m'._size = m._size - 1 ∧
      m'._lowLoadFactor = m._lowLoadFactor ∧ m'._highLoadFactor = m._highLoadFactor ∧
      m'._capacity =
        if ((m._size - 1 : Int) : ℚ) / (m._capacity : ℚ) < m._lowLoadFactor ∧
            2 ≤ m._capacity then
          m._capacity / 2
        else m._capacity := by
  have hi := ok.index_toNat_lt key
  cases hce : chainErase key (m.chain (m._index hashFanc key)) with
  | none =>
    rw [chainErase_eq_none_iff, ← any_key_iff] at hce
    exact absurd hpres hce
  | some c =>
    obtain ⟨v, hv⟩ := chainErase_perm hce
    rw [chain_eq_getElem m _ hi] at hv
    obtain ⟨ok1, perm1⟩ := TableOK.set_remove ok _ hi (key, v) c hv
    unfold HashMap.erase
    simp only [hce]
    by_cases hres : ((m._size - 1 : Int) : ℚ) / (m._capacity : ℚ) < m._lowLoadFactor
    · have hres2 : HashMap.getLoadFactor
          { m with _table := m._table.set (m._index hashFanc key).toNat c,
                   _size := m._size - 1 } < m._lowLoadFactor := hres
      simp only [if_pos hres2]
      by_cases hc2 : 2 ≤ m._capacity
      · have h2 : (1 : Int) ≤ Int.tdiv m._capacity RESIZE_PARM := by
          rw [Int.tdiv_eq_ediv (by omega) (by simp [RESIZE_PARM])]
          simp only [RESIZE_PARM]
          omega
        obtain ⟨ok3, perm3⟩ := rehash_ok hashFanc
          (m._table.set (m._index hashFanc key).toNat c).flatten
          (Int.tdiv m._capacity RESIZE_PARM) h2 ok1.nodup
        rw [reSize_eq hashFanc
          { m with _table := m._table.set (m._index hashFanc key).toNat c,
                   _size := m._size - 1 } ok1.table_len ok1.cap_pos _ h2]
        refine ⟨_, v, rfl, ok3, perm1.trans (List.Perm.cons _ perm3.symm), rfl, rfl, rfl, ?_⟩
        rw [if_pos ⟨hres, hc2⟩]
        show Int.tdiv m._capacity RESIZE_PARM = m._capacity / 2
        rw [Int.tdiv_eq_ediv (by omega) (by simp [RESIZE_PARM])]
        rfl
      · have h2 : Int.tdiv m._capacity RESIZE_PARM < 1 := by
          have := ok.cap_pos
          have e : m._capacity = 1 := by omega
          rw [e]
          decide
        rw [reSize_small hashFanc _ _ h2]
        refine ⟨_, v, rfl, ok1, perm1, rfl, rfl, rfl, ?_⟩
        rw [if_neg (fun h => hc2 h.2)]
    · have hres2 : ¬ HashMap.getLoadFactor
          { m with _table := m._table.set (m._index hashFanc key).toNat c,
                   _size := m._size - 1 } < m._lowLoadFactor := hres
      simp only [if_neg hres2]
      refine ⟨_, v, rfl, ok1, perm1, rfl, rfl, rfl, ?_⟩
      rw [if_neg (fun h => hres h.1)]

end Mutations

/-! ## Reachable tables and their invariant -/

section Reach

variable {K V : Type} [DecidableEq K] [DecidableEq V]

omit [DecidableEq K] [DecidableEq V] in
theorem ctor_ok_iff (low high : ℚ) (m : HashMap K V) :
    HashMap.ctor low high = .ok m ↔
      (0 < low ∧ low ≤ high ∧ high < 1) ∧
      m = { _capacity := 16, _size := 0, _lowLoadFactor := low, _highLoadFactor := high,
            _table := List.replicate 16 [] } := by
  unfold HashMap.ctor
  by_cases h : low ≤ 0 ∨ low ≥ 1 ∨ high ≤ 0 ∨ high ≥ 1 ∨ high < low
  · rw [if_pos h]
    constructor
    · intro h1
      cases h1
    · rintro ⟨⟨h1, h2, h3⟩, -⟩
      rcases h with h | h | h | h | h
      · exact absurd h1 (not_lt.2 h)
      · exact absurd (lt_of_le_of_lt h2 h3) (not_lt.2 h)
      · exact absurd (lt_of_lt_of_le h1 h2) (not_lt.2 h)
      · exact absurd h3 (not_lt.2 h)
      · exact absurd h2 (not_le.2 h)
  · rw [if_neg h]
    simp only [not_or, not_le, not_lt, ge_iff_le] at h
    obtain ⟨h1, h2, h3, h4, h5⟩ := h
    constructor
    · intro e
      refine ⟨⟨h1, h5, h4⟩, ?_⟩
      simp only [Except.ok.injEq] at e
      rw [← e]
      rfl
    · rintro ⟨-, e⟩
      rw [e]
      rfl

omit [DecidableEq K] [DecidableEq V] in
theorem Inv.of_ctor (hashFanc : K → Nat) (low high : ℚ) (m : HashMap K V)
    (h : HashMap.ctor low high = .ok m) : Inv hashFanc m := by
  obtain ⟨⟨h1, h2, h3⟩, e⟩ := (ctor_ok_iff low high m).1 h
  subst e
  refine ⟨TableOK.replicate hashFanc 16 (by decide), ?_, ⟨4, by norm_num⟩, h1, h2, h3⟩
  simp [HashMap.entries]

theorem Inv.of_insert {hashFanc : K → Nat} {m : HashMap K V} (inv : Inv hashFanc m)
    (key : K) (val : V) (r : Bool × HashMap K V) (h : m.insert hashFanc key val = .ok r) :
    Inv hashFanc r.2 := by
  cases hc : m.containsKey hashFanc key with
  | true =>
    rw [insert_present hashFanc m key val hc] at h
    cases h
    exact inv
  | false =>
    obtain ⟨m', e, ok', perm, hs, hl, hh, hcap⟩ := insert_absent inv.shape key val hc
    rw [e] at h
    cases h
    refine ⟨ok', ?_, ?_, hl ▸ inv.low_pos, by rw [hl, hh]; exact inv.low_le,
      hh ▸ inv.high_lt⟩
    · rw [hs, perm.length_eq, inv.size_eq]
      simp
    · obtain ⟨n, hn⟩ := inv.cap_pow
      show ∃ n : Nat, m'._capacity = 2 ^ n
      rw [hcap]
      split_ifs
      · exact ⟨n + 1, by rw [hn, pow_succ]⟩
      · exact ⟨n, hn⟩

theorem Inv.of_erase {hashFanc : K → Nat} {m : HashMap K V} (inv : Inv hashFanc m)
    (key : K) (r : Bool × HashMap K V) (h : m.erase hashFanc key = .ok r) :
    Inv hashFanc r.2 := by
  cases hc : m.containsKey hashFanc key with
  | false =>
    rw [erase_absent hashFanc m key hc] at h
    cases h
    exact inv
  | true =>
    obtain ⟨m', v, e, ok', perm, hs, hl, hh, hcap⟩ := erase_present inv.shape key hc
    rw [e] at h
    cases h
    refine ⟨ok', ?_, ?_, hl ▸ inv.low_pos, by rw [hl, hh]; exact inv.low_le,
      hh ▸ inv.high_lt⟩
    · have := perm.length_eq
      rw [hs, inv.size_eq, this]
      simp
    · obtain ⟨n, hn⟩ := inv.cap_pow
      show ∃ n : Nat, m'._capacity = 2 ^ n
      rw [hcap]
      split_ifs with hif
      · cases n with
        | zero =>
          rw [hn] at hif
          exact absurd hif.2 (by norm_num)
        | succ k =>
          refine ⟨k, ?_⟩
          rw [hn, pow_succ]
          simp
      · exact ⟨n, hn⟩

omit [DecidableEq V] in
theorem Inv.of_store {hashFanc : K → Nat} {m : HashMap K V} (inv : Inv hashFanc m)
    (key : K) (val : V) : Inv hashFanc (m.store hashFanc key val) := by
  obtain ⟨ok', hkeys⟩ := TableOK.set_store inv.shape _ (inv.shape.index_toNat_lt key) key val
  refine ⟨ok', ?_, inv.cap_pow, inv.low_pos, inv.low_le, inv.high_lt⟩
  have := congrArg List.length hkeys
  simp only [List.length_map] at this
  show m._size = _
  rw [inv.size_eq]
  exact congrArg Nat.cast this.symm

omit [DecidableEq K] [DecidableEq V] in
theorem Inv.of_clear {hashFanc : K → Nat} {m : HashMap K V} (inv : Inv hashFanc m) :
    Inv hashFanc m.clear := by
  refine ⟨TableOK.replicate hashFanc m._capacity inv.shape.cap_pos, ?_, inv.cap_pow,
    inv.low_pos, inv.low_le, inv.high_lt⟩
  simp [HashMap.clear, HashMap.entries]

theorem operatorBracket_eq [Inhabited V] (hashFanc : K → Nat) (m : HashMap K V) (key : K)
    (r : V × HashMap K V) (h : m.operatorBracket hashFanc key = .ok r) :
    ∃ b, m.insert hashFanc key default = .ok (b, r.2) ∧ r.2.atKey hashFanc key = .ok r.1 := by
  unfold HashMap.operatorBracket at h
  cases hi : m.insert hashFanc key default with
  | error e => simp [hi, bind, Except.bind] at h
  | ok q =>
    cases ha : q.2.atKey hashFanc key with
    | error e => simp [hi, ha, bind, Except.bind] at h
    | ok v =>
      simp only [hi, ha, bind, Except.bind, Except.ok.injEq] at h
      subst h
      exact ⟨q.1, rfl, ha⟩

/-- Every reachable table satisfies the invariant. -/
theorem Reachable.inv [Inhabited V] {hashFanc : K → Nat} {m : HashMap K V}
    (h : Reachable hashFanc m) : Inv hashFanc m := by
  induction h with
  | ctor low high m h => exact Inv.of_ctor hashFanc low high m h
  | insert m key val r _ h ih => exact ih.of_insert key val r h
  | erase m key r _ h ih => exact ih.of_erase key r h
  | bracket m key r _ h ih =>
    obtain ⟨b, hb, -⟩ := operatorBracket_eq hashFanc m key r h
    exact ih.of_insert key default (b, r.2) hb
  | store m key val old _ _ ih => exact ih.of_store key val
  | clear m _ ih => exact ih.of_clear

end Reach

/-! ## Concrete tables used to instantiate the theorems -/

section Demo

theorem demoTable_ctor : HashMap.ctor (1 / 4) (3 / 4) = .ok demoTable :=
  (ctor_ok_iff _ _ _).2 ⟨⟨by norm_num, by norm_num, by norm_num⟩, rfl⟩

theorem demoTable_reachable : Reachable demoHash demoTable :=
  Reachable.ctor (1 / 4) (3 / 4) _ demoTable_ctor

theorem demoTable_insert : demoTable.insert demoHash 3 5 = .ok (true, demoTable1) := by
  unfold HashMap.insert
  rw [if_neg (by decide)]
  have h : ¬ (HashMap.getLoadFactor { demoTable with _size := demoTable._size + 1 } >
      demoTable._highLoadFactor) := by
    norm_num [HashMap.getLoadFactor, HashMap.size, HashMap.capacity, demoTable]
  simp only [if_neg h]
  rfl

theorem demoTable1_reachable : Reachable demoHash demoTable1 :=
  Reachable.insert demoTable 3 5 (true, demoTable1) demoTable_reachable demoTable_insert

end Demo

/-! ## The operations of the table -/

section Claims

variable {K V : Type} [DecidableEq K] [DecidableEq V]

omit [DecidableEq V] in
theorem containsKey_of_atKey (hashFanc : K → Nat) (m : HashMap K V) (key : K) (v : V)
    (h : m.atKey hashFanc key = .ok v) : m.containsKey hashFanc key = true := by
  unfold HashMap.atKey at h
  unfold HashMap.containsKey
  rw [any_key_iff, ← chainFind_isSome_iff]
  cases hf : chainFind key (m.chain (m._index hashFanc key)) with
  | none => simp [hf] at h
  | some w => rfl

/-- After `insert(k, v)` with a key that is not stored in a well-formed table, the key is
found with value `v`. -/
theorem insert_absent_found {hashFanc : K → Nat} {m : HashMap K V} (ok : Shape hashFanc m)
    (key : K) (val : V) (habs : m.containsKey hashFanc key = false) :
    ∃ m', m.insert hashFanc key val = .ok (true, m') ∧
      m'.containsKey hashFanc key = true ∧ m'.atKey hashFanc key = .ok val := by
  obtain ⟨m', e, ok', perm, -⟩ := insert_absent ok key val habs
  refine ⟨m', e, ?_, ?_⟩
  · rw [Shape.containsKey_iff ok']
    exact List.mem_map_of_mem Prod.fst (perm.mem_iff.2 (List.mem_cons_self _ _))
  · rw [Shape.atKey_iff ok']
    exact perm.mem_iff.2 (List.mem_cons_self _ _)

/-- C1: on a reachable table, for any hash function, `insert(k, v)` with a key that is not
stored returns `true`; right after it `containsKey(k)` is `true` and `at(k)` returns `v`.
This covers the calls that double the capacity and rehash. -/
theorem insert_new_then_found [Inhabited V] (hashFanc : K → Nat) (m : HashMap K V)
    (key : K) (val : V) (hr : Reachable hashFanc m)
    (habs : m.containsKey hashFanc key = false) :
    ∃ m', m.insert hashFanc key val = .ok (true, m') ∧
      m'.containsKey hashFanc key = true ∧ m'.atKey hashFanc key = .ok val :=
  insert_absent_found hr.inv.shape key val habs

/-- Instance of C1 on the default table. -/
theorem insert_new_then_found_witness :
    Reachable demoHash demoTable ∧ demoTable.containsKey demoHash 3 = false ∧
    ∃ m', demoTable.insert demoHash 3 5 = .ok (true, m') ∧
      m'.containsKey demoHash 3 = true ∧ m'.atKey demoHash 3 = .ok 5 :=
  ⟨demoTable_reachable, by decide,
    insert_new_then_found demoHash demoTable 3 5 demoTable_reachable (by decide)⟩

/-- C2: when `k` is stored with value `v`, `insert(k, v2)` returns `false` and the table
after the call is the table before it: `at(k)` is still `v`, and `_size`, `_capacity` and
every chain are unchanged. -/
theorem insert_stored_key_noop (hashFanc : K → Nat) (m : HashMap K V) (key : K) (v v2 : V)
    (hpres : m.atKey hashFanc key = .ok v) :
    ∃ m', m.insert hashFanc key v2 = .ok (false, m') ∧ m'.atKey hashFanc key = .ok v ∧
      m'._size = m._size ∧ m'._capacity = m._capacity ∧ m'._table = m._table ∧ m' = m :=
  ⟨m, insert_present hashFanc m key v2 (containsKey_of_atKey hashFanc m key v hpres), hpres,
    rfl, rfl, rfl, rfl⟩

/-- Instance of C2 on a table that stores `(3, 5)`. -/
theorem insert_stored_key_noop_witness :
    demoTable1.atKey demoHash 3 = .ok 5 ∧
    ∃ m', demoTable1.insert demoHash 3 8 = .ok (false, m') ∧
      m'.atKey demoHash 3 = .ok 5 ∧ m'._size = demoTable1._size ∧
      m'._capacity = demoTable1._capacity ∧ m'._table = demoTable1._table ∧
      m' = demoTable1 :=
  ⟨rfl, insert_stored_key_noop demoHash demoTable1 3 5 8 rfl⟩

/-- C3: on a reachable table the non-const `operator[](k)` yields the stored value and
leaves the table as it was when `k` is stored; when `k` is not stored it yields the
default-constructed value, and afterwards `containsKey(k)` is `true` and the size has
grown by one. -/
theorem operatorBracket_spec [Inhabited V] (hashFanc : K → Nat) (m : HashMap K V) (key : K)
    (hr : Reachable hashFanc m) :
    (∀ v, m.atKey hashFanc key = .ok v → m.operatorBracket hashFanc key = .ok (v, m)) ∧
    (m.containsKey hashFanc key = false →
      ∃ m', m.operatorBracket hashFanc key = .ok (default, m') ∧
        m'.containsKey hashFanc key = true ∧ m'.size = m.size + 1) := by
  constructor
  · intro v hv
    unfold HashMap.operatorBracket
    rw [insert_present hashFanc m key default (containsKey_of_atKey hashFanc m key v hv)]
    simp [bind, Except.bind, hv]
  · intro habs
    obtain ⟨m', e, ok', perm, hs, -⟩ := insert_absent hr.inv.shape key (default : V) habs
    have hat : m'.atKey hashFanc key = .ok default := by
      rw [Shape.atKey_iff ok']
      exact perm.mem_iff.2 (List.mem_cons_self _ _)
    refine ⟨m', ?_, containsKey_of_atKey hashFanc m' key default hat, hs⟩
    unfold HashMap.operatorBracket
    rw [e]
    simp [bind, Except.bind, hat]

/-- Instance of C3 on a table that stores `(3, 5)`, at the key `3`. -/
theorem operatorBracket_spec_witness :
    Reachable demoHash demoTable1 ∧
    (∀ v, demoTable1.atKey demoHash 3 = .ok v →
      demoTable1.operatorBracket demoHash 3 = .ok (v, demoTable1)) ∧
    (demoTable1.containsKey demoHash 3 = false →
      ∃ m', demoTable1.operatorBracket demoHash 3 = .ok (default, m') ∧
        m'.containsKey demoHash 3 = true ∧ m'.size = demoTable1.size + 1) :=
  ⟨demoTable1_reachable, operatorBracket_spec demoHash demoTable1 3 demoTable1_reachable⟩

/-- C4: on a reachable table `erase(k)` returns `true` exactly when `k` was stored; after
it `containsKey(k)` is `false`; a following `insert(k, v2)` returns `true` and `at(k)` then
returns `v2`. -/
theorem erase_then_reinsert [Inhabited V] (hashFanc : K → Nat) (m : HashMap K V) (key : K)
    (v2 : V) (hr : Reachable hashFanc m) :
    ∃ m1, m.erase hashFanc key = .ok (m.containsKey hashFanc key, m1) ∧
      m1.containsKey hashFanc key = false ∧
      ∃ m2, m1.insert hashFanc key v2 = .ok (true, m2) ∧ m2.atKey hashFanc key = .ok v2 := by
  have key_step : ∃ m1, m.erase hashFanc key = .ok (m.containsKey hashFanc key, m1) ∧
      m1.containsKey hashFanc key = false := by
    cases hc : m.containsKey hashFanc key with
    | false => exact ⟨m, erase_absent hashFanc m key hc, hc⟩
    | true =>
      obtain ⟨m', v, e, ok', perm, -⟩ := erase_present hr.inv.shape key hc
      refine ⟨m', e, ?_⟩
      rw [Shape.containsKey_false_iff ok']
      have hnd := ((perm.map Prod.fst).nodup_iff).1 hr.inv.shape.nodup
      rw [List.map_cons, List.nodup_cons] at hnd
      exact hnd.1
  obtain ⟨m1, e1, habs⟩ := key_step
  have hr1 : Reachable hashFanc m1 := Reachable.erase m key _ hr e1
  obtain ⟨m2, e2, -, hat⟩ := insert_absent_found hr1.inv.shape key v2 habs
  exact ⟨m1, e1, habs, m2, e2, hat⟩

/-- Instance of C4 on a table that stores `(3, 5)`: erasing `3` and inserting `(3, 9)`. -/
theorem erase_then_reinsert_witness :
    Reachable demoHash demoTable1 ∧
    ∃ m1, demoTable1.erase demoHash 3 = .ok (demoTable1.containsKey demoHash 3, m1) ∧
      m1.containsKey demoHash 3 = false ∧
      ∃ m2, m1.insert demoHash 3 9 = .ok (true, m2) ∧ m2.atKey demoHash 3 = .ok 9 :=
  ⟨demoTable1_reachable, erase_then_reinsert demoHash demoTable1 3 9 demoTable1_reachable⟩

/-- C5: on a reachable table `at(k)` (either variant) and `bucketSize(k)` throw
`out_of_range` exactly when `containsKey(k)` is `false`; when `k` is stored, `at(k)` returns
the one value stored with `k`, and `bucketSize(k)` returns the length of the chain at the
bucket index of `k`, which is at least 1. -/
theorem lookup_throws_iff_absent [Inhabited V] (hashFanc : K → Nat) (m : HashMap K V)
    (key : K) (hr : Reachable hashFanc m) :
    (m.atKey hashFanc key = .error .out_of_range ↔ m.containsKey hashFanc key = false) ∧
    (m.bucketSize hashFanc key = .error .out_of_range ↔
      m.containsKey hashFanc key = false) ∧
    (m.containsKey hashFanc key = true →
      ∃ v, m.atKey hashFanc key = .ok v ∧ (key, v) ∈ m.entries ∧
        (∀ w, (key, w) ∈ m.entries → w = v) ∧
        m.bucketSize hashFanc key = .ok ((m.chain (m._index hashFanc key)).length : Int) ∧
        1 ≤ (m.chain (m._index hashFanc key)).length) := by
  have ok := hr.inv.shape
  refine ⟨?_, ?_, ?_⟩
  · rw [Shape.atKey_error_iff ok, Shape.containsKey_false_iff ok]
  · unfold HashMap.bucketSize
    cases hc : m.containsKey hashFanc key <;> simp
  · intro hc
    have hk := (Shape.containsKey_iff ok key).1 hc
    obtain ⟨p, hp, e⟩ := List.mem_map.1 hk
    have hp2 : (key, p.2) ∈ m.entries := by
      have : p = (key, p.2) := Prod.ext e rfl
      rw [← this]
      exact hp
    have hat := (Shape.atKey_iff ok key p.2).2 hp2
    refine ⟨p.2, hat, hp2, ?_, ?_, ?_⟩
    · intro w hw
      have hw2 := (Shape.atKey_iff ok key w).2 hw
      rw [hat] at hw2
      simp only [Except.ok.injEq] at hw2
      exact hw2.symm
    · unfold HashMap.bucketSize
      simp [hc]
    · have hmem := (TableOK.mem_iff ok (key, p.2)).1 hp2
      exact List.length_pos_of_mem hmem

/-- Instance of C5 on a table that stores `(3, 5)`. -/
theorem lookup_throws_iff_absent_witness :
    Reachable demoHash demoTable1 ∧
    (demoTable1.atKey demoHash 3 = .error .out_of_range ↔
      demoTable1.containsKey demoHash 3 = false) ∧
    (demoTable1.bucketSize demoHash 3 = .error .out_of_range ↔
      demoTable1.containsKey demoHash 3 = false) ∧
    (demoTable1.containsKey demoHash 3 = true →
      ∃ v, demoTable1.atKey demoHash 3 = .ok v ∧ (3, v) ∈ demoTable1.entries ∧
        (∀ w, (3, w) ∈ demoTable1.entries → w = v) ∧
        demoTable1.bucketSize demoHash 3 =
          .ok ((demoTable1.chain (demoTable1._index demoHash 3)).length : Int) ∧
        1 ≤ (demoTable1.chain (demoTable1._index demoHash 3)).length) :=
  ⟨demoTable1_reachable, lookup_throws_iff_absent demoHash demoTable1 3 demoTable1_reachable⟩

/-- C6 (the claim fails): the constructor accepts `low = high = 0.5`, which the strict
inequality `low < high` excludes. -/
theorem ctor_accepts_equal_bounds :
    (HashMap.ctor (1 / 2) (1 / 2) : Except Exc (HashMap Nat Nat)) =
      .ok { _capacity := 16, _size := 0, _lowLoadFactor := 1 / 2, _highLoadFactor := 1 / 2,
            _table := List.replicate 16 [] } ∧
    ¬ ((0 : ℚ) < 1 / 2 ∧ (1 / 2 : ℚ) < 1 / 2 ∧ (1 / 2 : ℚ) < 1) := by
  refine ⟨(ctor_ok_iff _ _ _).2 ⟨⟨by norm_num, le_refl _, by norm_num⟩, rfl⟩, ?_⟩
  norm_num

omit [DecidableEq K] [DecidableEq V] in
/-- C6 (amended): `HashMap(low, high)` returns exactly when `0 < low ≤ high < 1` and throws
`invalid_argument` otherwise; when it returns, the capacity is 16 and the size is 0. -/
theorem ctor_returns_iff (low high : ℚ) :
    ((∃ m : HashMap K V, HashMap.ctor low high = .ok m) ↔
      (0 < low ∧ low ≤ high ∧ high < 1)) ∧
    ((HashMap.ctor low high : Except Exc (HashMap K V)) = .error .invalid_argument ↔
      ¬ (0 < low ∧ low ≤ high ∧ high < 1)) ∧
    (∀ m : HashMap K V, HashMap.ctor low high = .ok m → m.capacity = 16 ∧ m.size = 0) := by
  refine ⟨?_, ?_, ?_⟩
  · constructor
    · rintro ⟨m, hm⟩
      exact ((ctor_ok_iff low high m).1 hm).1
    · intro h
      exact ⟨_, (ctor_ok_iff low high _).2 ⟨h, rfl⟩⟩
  · constructor
    · intro he h
      have := (ctor_ok_iff (K := K) (V := V) low high _).2 ⟨h, rfl⟩
      rw [he] at this
      cases this
    · intro h
      unfold HashMap.ctor
      split_ifs with hc
      · rfl
      · exfalso
        apply h
        simp only [not_or, not_le, not_lt, ge_iff_le] at hc
        exact ⟨hc.1, hc.2.2.2.2, hc.2.2.2.1⟩
  · intro m hm
    obtain ⟨-, e⟩ := (ctor_ok_iff low high m).1 hm
    subst e
    exact ⟨rfl, rfl⟩

/-- On a well-formed left operand, `operator==` returns. -/
theorem operatorEq_returns {hashFanc : K → Nat} {a : HashMap K V} (oka : Shape hashFanc a)
    (b : HashMap K V) : ∃ r, a.operatorEq hashFanc b = .ok r := by
  unfold HashMap.operatorEq
  split_ifs
  · exact ⟨false, rfl⟩
  · rw [elements_eq a oka.table_len oka.cap_pos]
    exact ⟨_, rfl⟩

/-- On a well-formed left operand, `operator==` answers `true` exactly when sizes and
capacities agree and every entry of the left operand is found in the right one. -/
theorem operatorEq_true_iff {hashFanc : K → Nat} {a : HashMap K V} (oka : Shape hashFanc a)
    (b : HashMap K V) :
    a.operatorEq hashFanc b = .ok true ↔
      a.size = b.size ∧ a.capacity = b.capacity ∧
        ∀ p ∈ a.entries, b.atKey hashFanc p.1 = .ok p.2 := by
  unfold HashMap.operatorEq
  by_cases h : a.size ≠ b.size ∨ a.capacity ≠ b.capacity
  · rw [if_pos h]
    constructor
    · intro e
      cases e
    · rintro ⟨h1, h2, -⟩
      rcases h with h | h
      · exact absurd h1 h
      · exact absurd h2 h
  · rw [if_neg h, elements_eq a oka.table_len oka.cap_pos]
    simp only [not_or, not_not] at h
    simp only [Except.ok.injEq, List.all_eq_true]
    constructor
    · intro hall
      refine ⟨h.1, h.2, ?_⟩
      intro p hp
      have := hall p hp
      cases hb : b.atKey hashFanc p.1 with
      | error e => simp [hb] at this
      | ok v =>
        simp only [hb, decide_eq_true_eq] at this
        rw [this]
    · rintro ⟨-, -, hall⟩ p hp
      rw [hall p hp]
      simp

/-- Two tables that satisfy the invariant and compare equal store the same entries. -/
theorem entries_subset_of_operatorEq {hashFanc : K → Nat} {a b : HashMap K V}
    (ia : Inv hashFanc a) (ib : Inv hashFanc b) (h : a.operatorEq hashFanc b = .ok true) :
    ∀ p, p ∈ b.entries → p ∈ a.entries := by
  obtain ⟨hs, -, hall⟩ := (operatorEq_true_iff ia.shape b).1 h
  have hsub : a.entries ⊆ b.entries := by
    intro p hp
    exact (Shape.atKey_iff ib.shape p.1 p.2).1 (hall p hp)
  have hnd : a.entries.Nodup := List.Nodup.of_map Prod.fst ia.shape.nodup
  have hlen : b.entries.length ≤ a.entries.length := by
    have h1 := ia.size_eq
    have h2 := ib.size_eq
    have h3 : a._size = b._size := hs
    omega
  have hperm := (List.subperm_of_subset hnd hsub).perm_of_length_le hlen
  intro p hp
  exact hperm.mem_iff.2 hp

/-- C10: on reachable tables `operator==` is reflexive and symmetric, and `a == b` is `true`
exactly when the sizes are equal, the capacities are equal and every key stored in `a` is
stored in `b` with the same value. -/
theorem operatorEq_refl_symm_iff [Inhabited V] (hashFanc : K → Nat) (a b : HashMap K V)
    (ha : Reachable hashFanc a) (hb : Reachable hashFanc b) :
    a.operatorEq hashFanc a = .ok true ∧
    (a.operatorEq hashFanc b = .ok true ↔ b.operatorEq hashFanc a = .ok true) ∧
    (∃ r, a.operatorEq hashFanc b = .ok r) ∧
    (a.operatorEq hashFanc b = .ok true ↔
      a.size = b.size ∧ a.capacity = b.capacity ∧
        ∀ k, a.containsKey hashFanc k = true →
          b.containsKey hashFanc k = true ∧ b.atKey hashFanc k = a.atKey hashFanc k) := by
  have ia := ha.inv
  have ib := hb.inv
  have half : ∀ (x y : HashMap K V), Inv hashFanc x → Inv hashFanc y →
      x.operatorEq hashFanc y = .ok true → y.operatorEq hashFanc x = .ok true := by
    intro x y ix iy h
    obtain ⟨hs, hc, -⟩ := (operatorEq_true_iff ix.shape y).1 h
    refine (operatorEq_true_iff iy.shape x).2 ⟨hs.symm, hc.symm, ?_⟩
    intro p hp
    exact (Shape.atKey_iff ix.shape p.1 p.2).2 (entries_subset_of_operatorEq ix iy h p hp)
  refine ⟨?_, ⟨half a b ia ib, half b a ib ia⟩, operatorEq_returns ia.shape b, ?_⟩
  · refine (operatorEq_true_iff ia.shape a).2 ⟨rfl, rfl, ?_⟩
    intro p hp
    exact (Shape.atKey_iff ia.shape p.1 p.2).2 hp
  · rw [operatorEq_true_iff ia.shape b]
    constructor
    · rintro ⟨hs, hc, hall⟩
      refine ⟨hs, hc, ?_⟩
      intro k hk
      obtain ⟨p, hp, e⟩ := List.mem_map.1 ((Shape.containsKey_iff ia.shape k).1 hk)
      subst e
      have h1 := hall p hp
      have h2 := (Shape.atKey_iff ia.shape p.1 p.2).2 hp
      exact ⟨containsKey_of_atKey hashFanc b p.1 p.2 h1, by rw [h1, h2]⟩
    · rintro ⟨hs, hc, hall⟩
      refine ⟨hs, hc, ?_⟩
      intro p hp
      have h2 := (Shape.atKey_iff ia.shape p.1 p.2).2 hp
      have h3 := hall p.1 (containsKey_of_atKey hashFanc a p.1 p.2 h2)
      rw [h3.2, h2]

/-- Instance of C10 on the default table and the table that stores `(3, 5)`. -/
theorem operatorEq_refl_symm_iff_witness :
    Reachable demoHash demoTable ∧ Reachable demoHash demoTable1 ∧
    (demoTable.operatorEq demoHash demoTable = .ok true ∧
    (demoTable.operatorEq demoHash demoTable1 = .ok true ↔
      demoTable1.operatorEq demoHash demoTable = .ok true) ∧
    (∃ r, demoTable.operatorEq demoHash demoTable1 = .ok r) ∧
    (demoTable.operatorEq demoHash demoTable1 = .ok true ↔
      demoTable.size = demoTable1.size ∧ demoTable.capacity = demoTable1.capacity ∧
        ∀ k, demoTable.containsKey demoHash k = true →
          demoTable1.containsKey demoHash k = true ∧
            demoTable1.atKey demoHash k = demoTable.atKey demoHash k)) :=
  ⟨demoTable_reachable, demoTable1_reachable,
    operatorEq_refl_symm_iff demoHash demoTable demoTable1 demoTable_reachable
      demoTable1_reachable⟩

/-! ### Sequences of `insert` and `erase` calls -/

omit [DecidableEq K] [DecidableEq V] in
theorem Inv.size_nonneg {hashFanc : K → Nat} {m : HashMap K V} (inv : Inv hashFanc m) :
    0 ≤ m._size := by
  rw [inv.size_eq]
  exact Int.natCast_nonneg _

omit [DecidableEq V] in
theorem Inv.size_eq_card {hashFanc : K → Nat} {m : HashMap K V} (inv : Inv hashFanc m) :
    m.size = (m.keys.toFinset.card : Int) := by
  have hnd : m.keys.Nodup := inv.shape.nodup
  rw [List.toFinset_card_of_nodup hnd]
  show m._size = _
  rw [inv.size_eq]
  simp [HashMap.keys]

theorem applyCall_spec {hashFanc : K → Nat} {m : HashMap K V} (inv : Inv hashFanc m)
    (c : Call K V) :
    ∃ m', applyCall hashFanc m c = .ok m' ∧ Inv hashFanc m' ∧
      m'.keys.toFinset = liveKeysFrom m.keys.toFinset [c] ∧
      m'._lowLoadFactor = m._lowLoadFactor ∧ m'._highLoadFactor = m._highLoadFactor := by
  cases c with
  | insert key val =>
    cases hc : m.containsKey hashFanc key with
    | true =>
      refine ⟨m, ?_, inv, ?_, rfl, rfl⟩
      · simp [applyCall, insert_present hashFanc m key val hc, bind, Except.bind]
      · have hk := (Shape.containsKey_iff inv.shape key).1 hc
        simp [liveKeysFrom, hk]
    | false =>
      obtain ⟨m', e, ok', perm, hs, hl, hh, hcap⟩ := insert_absent inv.shape key val hc
      refine ⟨m', ?_, inv.of_insert key val (true, m') e, ?_, hl, hh⟩
      · simp [applyCall, e, bind, Except.bind]
      · have := List.toFinset_eq_of_perm _ _ (perm.map Prod.fst)
        simpa [liveKeysFrom, HashMap.keys] using this
  | erase key =>
    cases hc : m.containsKey hashFanc key with
    | false =>
      refine ⟨m, ?_, inv, ?_, rfl, rfl⟩
      · simp [applyCall, erase_absent hashFanc m key hc, bind, Except.bind]
      · have hk := (Shape.containsKey_false_iff inv.shape key).1 hc
        simp [liveKeysFrom, hk]
    | true =>
      obtain ⟨m', v, e, ok', perm, hs, hl, hh, hcap⟩ := erase_present inv.shape key hc
      refine ⟨m', ?_, inv.of_erase key (true, m') e, ?_, hl, hh⟩
      · simp [applyCall, e, bind, Except.bind]
      · have hfin := List.toFinset_eq_of_perm _ _ (perm.map Prod.fst)
        have hnd := ((perm.map Prod.fst).nodup_iff).1 inv.shape.nodup
        rw [List.map_cons, List.nodup_cons] at hnd
        have hk : key ∉ m'.keys.toFinset := by
          rw [List.mem_toFinset]
          exact hnd.1
        show m'.keys.toFinset = (m.keys.toFinset).erase key
        have : m.keys.toFinset = insert key m'.keys.toFinset := by
          simpa [HashMap.keys] using hfin
        rw [this, Finset.erase_insert hk]

omit [DecidableEq V] in
theorem liveKeysFrom_cons (s : Finset K) (c : Call K V) (calls : List (Call K V)) :
    liveKeysFrom s (c :: calls) = liveKeysFrom (liveKeysFrom s [c]) calls := by
  simp [liveKeysFrom]

/-- A sequence of calls on a table that satisfies the invariant returns, and leaves a table
that satisfies the invariant and stores the keys computed by `liveKeysFrom`. -/
theorem runCalls_spec {hashFanc : K → Nat} {m : HashMap K V} (inv : Inv hashFanc m)
    (calls : List (Call K V)) :
    ∃ m', runCalls hashFanc calls m = .ok m' ∧ Inv hashFanc m' ∧
      m'.keys.toFinset = liveKeysFrom m.keys.toFinset calls ∧
      m'._lowLoadFactor = m._lowLoadFactor ∧ m'._highLoadFactor = m._highLoadFactor := by
  induction calls generalizing m with
  | nil => exact ⟨m, rfl, inv, rfl, rfl, rfl⟩
  | cons c rest ih =>
    obtain ⟨m1, e1, inv1, k1, l1, h1⟩ := applyCall_spec inv c
    obtain ⟨m2, e2, inv2, k2, l2, h2⟩ := ih inv1
    refine ⟨m2, ?_, inv2, ?_, l2.trans l1, h2.trans h1⟩
    · unfold runCalls at e2 ⊢
      rw [List.foldlM_cons, e1]
      exact e2
    · rw [k2, k1, ← liveKeysFrom_cons]

omit [DecidableEq K] [DecidableEq V] in
theorem ctor_keys_empty (low high : ℚ) (m : HashMap K V)
    (h : HashMap.ctor low high = .ok m) : m.keys = [] := by
  obtain ⟨-, e⟩ := (ctor_ok_iff low high m).1 h
  subst e
  simp [HashMap.keys, HashMap.entries]

/-- C8: after any sequence of `insert` and `erase` calls on a freshly constructed table,
`size()` is the number of keys whose last successful call was an `insert`, these are the
keys that `containsKey` finds, and `size()` is the sum of the chain lengths; a further
`insert` or `erase` returns, and changes the size by one exactly when it returns `true`. -/
theorem size_counts_stored_keys (hashFanc : K → Nat) (low high : ℚ) (m0 : HashMap K V)
    (calls : List (Call K V)) (h0 : HashMap.ctor low high = .ok m0) :
    ∃ m, runCalls hashFanc calls m0 = .ok m ∧
      m.size = ((liveKeys calls).card : Int) ∧
      (∀ k, m.containsKey hashFanc k = true ↔ k ∈ liveKeys calls) ∧
      m.size = (((m._table.map List.length).sum : Nat) : Int) ∧
      (∀ k v, ∃ r, m.insert hashFanc k v = .ok r ∧ r.1 = !m.containsKey hashFanc k ∧
        r.2.size = if r.1 then m.size + 1 else m.size) ∧
      (∀ k, ∃ r, m.erase hashFanc k = .ok r ∧ r.1 = m.containsKey hashFanc k ∧
        r.2.size = if r.1 then m.size - 1 else m.size) := by
  obtain ⟨m, e, inv, hk, -⟩ := runCalls_spec (Inv.of_ctor hashFanc low high m0 h0) calls
  rw [ctor_keys_empty low high m0 h0] at hk
  have hk2 : m.keys.toFinset = liveKeys calls := hk
  refine ⟨m, e, ?_, ?_, ?_, ?_, ?_⟩
  · rw [inv.size_eq_card, hk2]
  · intro k
    rw [Shape.containsKey_iff inv.shape, ← hk2, List.mem_toFinset]
  · show m._size = _
    rw [inv.size_eq, ← List.length_flatten]
    rfl
  · intro k v
    cases hc : m.containsKey hashFanc k with
    | true => exact ⟨(false, m), insert_present hashFanc m k v hc, rfl, rfl⟩
    | false =>
      obtain ⟨m', e', -, -, hs, -⟩ := insert_absent inv.shape k v hc
      exact ⟨(true, m'), e', rfl, hs⟩
  · intro k
    cases hc : m.containsKey hashFanc k with
    | false => exact ⟨(false, m), erase_absent hashFanc m k hc, rfl, rfl⟩
    | true =>
      obtain ⟨m', v, e', -, -, hs, -⟩ := erase_present inv.shape k hc
      exact ⟨(true, m'), e', rfl, hs⟩

/-- Instance of C8: the default table after `insert(3, 5)`, `erase(3)`, `insert(4, 1)` and
`insert(4, 2)`. -/
theorem size_counts_stored_keys_witness :
    HashMap.ctor (1 / 4) (3 / 4) = .ok demoTable ∧
    ∃ m, runCalls demoHash [Call.insert 3 5, Call.erase 3, Call.insert 4 1, Call.insert 4 2]
        demoTable = .ok m ∧
      m.size = ((liveKeys [Call.insert 3 5, Call.erase 3, Call.insert 4 1,
        (Call.insert 4 2 : Call Nat Nat)]).card : Int) ∧
      (∀ k, m.containsKey demoHash k = true ↔
        k ∈ liveKeys [Call.insert 3 5, Call.erase 3, Call.insert 4 1,
          (Call.insert 4 2 : Call Nat Nat)]) ∧
      m.size = (((m._table.map List.length).sum : Nat) : Int) ∧
      (∀ k v, ∃ r, m.insert demoHash k v = .ok r ∧ r.1 = !m.containsKey demoHash k ∧
        r.2.size = if r.1 then m.size + 1 else m.size) ∧
      (∀ k, ∃ r, m.erase demoHash k = .ok r ∧ r.1 = m.containsKey demoHash k ∧
        r.2.size = if r.1 then m.size - 1 else m.size) :=
  ⟨demoTable_ctor, size_counts_stored_keys demoHash (1 / 4) (3 / 4) demoTable _ demoTable_ctor⟩

/-! ### Load factor -/

/-- One call keeps the load factor at or below the high bound when `2 * low ≤ high` and
`1 / 2 ≤ high`. -/
theorem load_le_high_step {hashFanc : K → Nat} {m : HashMap K V} (inv : Inv hashFanc m)
    (h2 : 2 * m._lowLoadFactor ≤ m._highLoadFactor) (hh : 1 / 2 ≤ m._highLoadFactor)
    (hload : m.getLoadFactor ≤ m._highLoadFactor) (c : Call K V) (m' : HashMap K V)
    (e : applyCall hashFanc m c = .ok m') : m'.getLoadFactor ≤ m'._highLoadFactor := by
  have hcap := inv.shape.cap_pos
  have hcq : (1 : ℚ) ≤ (m._capacity : ℚ) := by exact_mod_cast hcap
  have hs0 := inv.size_nonneg
  have hsq : (0 : ℚ) ≤ (m._size : ℚ) := by exact_mod_cast hs0
  have hhi := inv.high_lt
  simp only [HashMap.getLoadFactor, HashMap.size, HashMap.capacity] at hload ⊢
  have hsc : (m._size : ℚ) ≤ m._highLoadFactor * (m._capacity : ℚ) :=
    (div_le_iff₀ (by linarith)).1 hload
  cases c with
  | insert key val =>
    cases hc : m.containsKey hashFanc key with
    | true =>
      simp only [applyCall, insert_present hashFanc m key val hc, bind, Except.bind,
        Except.ok.injEq] at e
      subst e
      exact hload
    | false =>
      obtain ⟨m1, e1, -, -, hs, -, hhigh, hcapeq⟩ := insert_absent inv.shape key val hc
      simp only [applyCall, e1, bind, Except.bind, Except.ok.injEq] at e
      subst e
      rw [hs, hhigh, hcapeq]
      split_ifs with hres
      · rw [div_le_iff₀ (by push_cast; linarith)]
        push_cast
        by_cases hc1 : m._capacity = 1
        · rw [hc1] at hsc ⊢
          have hlt : (m._size : ℚ) < 1 := by
            have : (m._size : ℚ) ≤ m._highLoadFactor * ((1 : ℤ) : ℚ) := hsc
            push_cast at this
            linarith
          have hlt2 : m._size < 1 := by exact_mod_cast hlt
          have hz : m._size = 0 := by omega
          rw [hz]
          push_cast
          linarith
        · have hc2 : (2 : ℚ) ≤ (m._capacity : ℚ) := by
            have : (2 : ℤ) ≤ m._capacity := by omega
            exact_mod_cast this
          have h1 : (1 : ℚ) ≤ m._highLoadFactor * (m._capacity : ℚ) := by nlinarith
          linarith
      · exact not_lt.1 hres
  | erase key =>
    cases hc : m.containsKey hashFanc key with
    | false =>
      simp only [applyCall, erase_absent hashFanc m key hc, bind, Except.bind,
        Except.ok.injEq] at e
      subst e
      exact hload
    | true =>
      obtain ⟨m1, v, e1, -, -, hs, -, hhigh, hcapeq⟩ := erase_present inv.shape key hc
      simp only [applyCall, e1, bind, Except.bind, Except.ok.injEq] at e
      subst e
      rw [hs, hhigh, hcapeq]
      split_ifs with hres
      · obtain ⟨hlow, hc2⟩ := hres
        obtain ⟨n, hn⟩ := inv.cap_pow
        obtain ⟨d, hd⟩ : ∃ d : Int, m._capacity = 2 * d := by
          cases n with
          | zero =>
            rw [hn] at hc2
            exact absurd hc2 (by norm_num)
          | succ k => exact ⟨2 ^ k, by rw [hn, pow_succ]; ring⟩
        have hdiv : m._capacity / 2 = d := by omega
        have hd1 : (1 : ℤ) ≤ d := by omega
        have hdq : (1 : ℚ) ≤ (d : ℚ) := by exact_mod_cast hd1
        rw [hdiv, div_le_iff₀ (by linarith)]
        rw [hd] at hlow
        rw [div_lt_iff₀ (by push_cast; linarith)] at hlow
        push_cast at hlow ⊢
        nlinarith
      · rw [div_le_iff₀ (by linarith)]
        push_cast
        linarith

/-- A sequence of calls keeps the load factor at or below the high bound when
`2 * low ≤ high` and `1 / 2 ≤ high`. -/
theorem load_le_high_run {hashFanc : K → Nat} {m : HashMap K V} (inv : Inv hashFanc m)
    (h2 : 2 * m._lowLoadFactor ≤ m._highLoadFactor) (hh : 1 / 2 ≤ m._highLoadFactor)
    (hload : m.getLoadFactor ≤ m._highLoadFactor) (calls : List (Call K V))
    (m' : HashMap K V) (e : runCalls hashFanc calls m = .ok m') :
    m'.getLoadFactor ≤ m'._highLoadFactor := by
  induction calls generalizing m with
  | nil =>
    simp only [runCalls, List.foldlM_nil, pure, Except.pure, Except.ok.injEq] at e
    subst e
    exact hload
  | cons c rest ih =>
    obtain ⟨m1, e1, inv1, -, l1, h1⟩ := applyCall_spec inv c
    have hl1 := load_le_high_step inv h2 hh hload c m1 e1
    unfold runCalls at e
    rw [List.foldlM_cons, e1] at e
    exact ih inv1 (by rw [l1, h1]; exact h2) (by rw [h1]; exact hh) hl1 e

/-- C9 (the claim fails): after the first `insert` into the default table the load factor
is `1 / 16`, below the low bound `1 / 4`, while the capacity is 16, not 1. -/
theorem load_below_low_after_first_insert :
    HashMap.ctor (1 / 4) (3 / 4) = .ok demoTable ∧
    runCalls demoHash [Call.insert 3 5] demoTable = .ok demoTable1 ∧
    demoTable1.getLoadFactor < demoTable1._lowLoadFactor ∧ demoTable1.capacity ≠ 1 := by
  refine ⟨demoTable_ctor, ?_, ?_, by decide⟩
  · simp [runCalls, applyCall, demoTable_insert, bind, Except.bind, pure, Except.pure]
  · norm_num [HashMap.getLoadFactor, HashMap.size, HashMap.capacity, demoTable1]

/-- The upper bound can fail as well: with bounds `1 / 128` and `1 / 64` the first `insert`
doubles the capacity to 32 and leaves the load factor `1 / 32`, above `1 / 64`. -/
theorem load_above_high_after_first_insert :
    ∃ m0 m : HashMap Nat Nat, HashMap.ctor (1 / 128) (1 / 64) = .ok m0 ∧
      m0.insert demoHash 3 5 = .ok (true, m) ∧ m.capacity = 32 ∧
      m._highLoadFactor < m.getLoadFactor := by
  have hc : (HashMap.ctor (1 / 128) (1 / 64) : Except Exc (HashMap Nat Nat)) = .ok _ :=
    (ctor_ok_iff _ _ _).2 ⟨⟨by norm_num, by norm_num, by norm_num⟩, rfl⟩
  have inv := Inv.of_ctor demoHash _ _ _ hc
  obtain ⟨m, e, -, -, hs, -, hh, hcap⟩ := insert_absent inv.shape 3 5 (by decide)
  have hcap2 : m._capacity = 32 := by
    rw [hcap]
    norm_num
  refine ⟨_, m, hc, e, hcap2, ?_⟩
  simp only [HashMap.getLoadFactor, HashMap.size, HashMap.capacity]
  rw [hs, hh, hcap2]
  norm_num

/-- C9 (amended): for a table constructed with valid bounds and any sequence of `insert`
and `erase` calls, the calls return; the load factor after them is at most the high bound
provided `2 * low ≤ high` and `1 / 2 ≤ high`; and a following successful `erase` leaves the
load factor at or above the low bound unless that call halved the capacity or the capacity
is 1. -/
theorem load_bounds_after_calls (hashFanc : K → Nat) (low high : ℚ) (m0 : HashMap K V)
    (calls : List (Call K V)) (h0 : HashMap.ctor low high = .ok m0) :
    ∃ m, runCalls hashFanc calls m0 = .ok m ∧
      m._lowLoadFactor = low ∧ m._highLoadFactor = high ∧
      (2 * low ≤ high → 1 / 2 ≤ high → m.getLoadFactor ≤ m._highLoadFactor) ∧
      (∀ k, m.containsKey hashFanc k = true →
        ∃ m', m.erase hashFanc k = .ok (true, m') ∧
          (m'._lowLoadFactor ≤ m'.getLoadFactor ∨
            (2 ≤ m.capacity ∧ m'.capacity = m.capacity / 2) ∨ m'.capacity = 1)) := by
  have inv0 := Inv.of_ctor hashFanc low high m0 h0
  obtain ⟨hb, e0⟩ := (ctor_ok_iff low high m0).1 h0
  have hl0 : m0._lowLoadFactor = low := by rw [e0]
  have hh0 : m0._highLoadFactor = high := by rw [e0]
  obtain ⟨m, e, inv, -, hl, hh⟩ := runCalls_spec inv0 calls
  refine ⟨m, e, hl.trans hl0, hh.trans hh0, ?_, ?_⟩
  · intro h2 h12
    apply load_le_high_run inv0 (by rw [hl0, hh0]; exact h2) (by rw [hh0]; exact h12) _
      calls m e
    rw [e0]
    simp only [HashMap.getLoadFactor, HashMap.size, HashMap.capacity]
    norm_num
    exact le_of_lt (lt_of_lt_of_le hb.1 hb.2.1)
  · intro k hk
    obtain ⟨m', v, e', -, -, hs, hlow, -, hcap⟩ := erase_present inv.shape k hk
    refine ⟨m', e', ?_⟩
    by_cases hres : ((m._size - 1 : Int) : ℚ) / (m._capacity : ℚ) < m._lowLoadFactor
    · by_cases hc2 : 2 ≤ m._capacity
      · right
        left
        rw [if_pos ⟨hres, hc2⟩] at hcap
        exact ⟨hc2, hcap⟩
      · right
        right
        rw [if_neg (fun h => hc2 h.2)] at hcap
        have := inv.shape.cap_pos
        show m'._capacity = 1
        omega
    · left
      rw [if_neg (fun h => hres h.1)] at hcap
      simp only [HashMap.getLoadFactor, HashMap.size, HashMap.capacity]
      rw [hs, hlow, hcap]
      exact not_lt.1 hres

/-- Instance of C9 (amended): the default table after `insert(3, 5)`, `erase(3)` and
`insert(4, 1)`. -/
theorem load_bounds_after_calls_witness :
    HashMap.ctor (1 / 4) (3 / 4) = .ok demoTable ∧
    ∃ m, runCalls demoHash [Call.insert 3 5, Call.erase 3, Call.insert 4 1] demoTable =
        .ok m ∧
      m._lowLoadFactor = 1 / 4 ∧ m._highLoadFactor = 3 / 4 ∧
      (2 * (1 / 4 : ℚ) ≤ 3 / 4 → (1 / 2 : ℚ) ≤ 3 / 4 →
        m.getLoadFactor ≤ m._highLoadFactor) ∧
      (∀ k, m.containsKey demoHash k = true →
        ∃ m', m.erase demoHash k = .ok (true, m') ∧
          (m'._lowLoadFactor ≤ m'.getLoadFactor ∨
            (2 ≤ m.capacity ∧ m'.capacity = m.capacity / 2) ∨ m'.capacity = 1)) :=
  ⟨demoTable_ctor, load_bounds_after_calls demoHash (1 / 4) (3 / 4) demoTable _ demoTable_ctor⟩

/-! ### The constructor from two vectors -/

omit [DecidableEq V] in
theorem lastPaired_eq_none_iff (key : K) (l : List (K × V)) :
    lastPaired key l = none ↔ key ∉ l.map Prod.fst := by
  induction l with
  | nil => simp [lastPaired]
  | cons p rest ih =>
    cases hr : lastPaired key rest with
    | some w =>
      simp only [lastPaired, hr, List.map_cons, List.mem_cons, not_or]
      constructor
      · intro h
        cases h
      · rintro ⟨-, h⟩
        rw [ih.2 h] at hr
        cases hr
    | none =>
      have h1 : key ∉ rest.map Prod.fst := ih.1 hr
      simp only [lastPaired, hr, List.map_cons, List.mem_cons, not_or]
      by_cases hp : p.1 = key
      · simp [hp]
      · have hp2 : ¬ key = p.1 := fun e => hp e.symm
        simp [hp, hp2, h1]

omit [DecidableEq V] in
theorem lastPaired_of_last (l : List (K × V)) (i : Nat) (hi : i < l.length)
    (hlast : ∀ j (hj : j < l.length), i < j → l[j].1 ≠ l[i].1) :
    lastPaired l[i].1 l = some l[i].2 := by
  induction l generalizing i with
  | nil => simp at hi
  | cons p rest ih =>
    cases i with
    | zero =>
      have hnone : lastPaired p.1 rest = none := by
        rw [lastPaired_eq_none_iff]
        intro hmem
        obtain ⟨q, hq, e⟩ := List.mem_map.1 hmem
        obtain ⟨j, hj, ej⟩ := List.mem_iff_getElem.1 hq
        have := hlast (j + 1) (by simpa using hj) (by omega)
        apply this
        simp only [List.getElem_cons_succ, List.getElem_cons_zero]
        rw [ej, e]
      simp [lastPaired, hnone]
    | succ k =>
      have hk : k < rest.length := by simpa using hi
      have := ih k hk (by
        intro j hj hkj
        have := hlast (j + 1) (by simpa using hj) (by omega)
        simpa using this)
      simp only [List.getElem_cons_succ, lastPaired, this]

omit [DecidableEq V] in
/-- The entries after an assignment through the reference returned by `at`, for a stored
key. -/
theorem store_entries {hashFanc : K → Nat} {m : HashMap K V} (ok : Shape hashFanc m)
    (key : K) (val : V) (hk : key ∈ m.keys) (p : K × V) :
    p ∈ (m.store hashFanc key val).entries ↔
      if p.1 = key then p.2 = val else p ∈ m.entries := by
  have hi := ok.index_toNat_lt key
  obtain ⟨okS, -⟩ := TableOK.set_store ok _ hi key val
  have okS' : Shape hashFanc (m.store hashFanc key val) := okS
  have hself : (key, val) ∈ (m.store hashFanc key val).entries := by
    have h1 : key ∈ (m._table.getD (m._index hashFanc key).toNat []).map Prod.fst :=
      (TableOK.key_mem_iff ok key).1 hk
    have h2 := chainStore_mem_self val h1
    have h3 : (key, val) ∈ (m._table.set (m._index hashFanc key).toNat
        (chainStore key val (m._table.getD (m._index hashFanc key).toNat []))).getD
          (m._index hashFanc key).toNat [] := by
      rw [getElem_set_eq_ite _ _ _ _ hi, if_pos rfl]
      exact h2
    exact getD_mem_flatten h3
  by_cases hp : p.1 = key
  · rw [if_pos hp]
    constructor
    · intro h
      have e1 := (Shape.atKey_iff okS' key val).2 hself
      have hp2 : (key, p.2) ∈ (m.store hashFanc key val).entries := by
        have : p = (key, p.2) := Prod.ext hp rfl
        rw [← this]
        exact h
      have e2 := (Shape.atKey_iff okS' key p.2).2 hp2
      rw [e1] at e2
      simp only [Except.ok.injEq] at e2
      exact e2.symm
    · intro h
      have : p = (key, val) := Prod.ext hp h
      rw [this]
      exact hself
  · rw [if_neg hp]
    show p ∈ (m._table.set (m._index hashFanc key).toNat
        (chainStore key val (m._table.getD (m._index hashFanc key).toNat []))).flatten ↔
      p ∈ m._table.flatten
    rw [flatten_set _ _ hi]
    conv_rhs => rw [flatten_split _ _ hi]
    rw [List.getD_eq_getElem _ _ hi]
    simp only [List.mem_append, chainStore_mem_other val hp]

/-- The statement `(*this)[key] = val` on a table that satisfies the invariant. -/
theorem bracketAssign_spec [Inhabited V] {hashFanc : K → Nat} {m : HashMap K V}
    (inv : Inv hashFanc m) (key : K) (val : V) :
    ∃ m', m.bracketAssign hashFanc key val = .ok m' ∧ Inv hashFanc m' ∧
      ∀ p, p ∈ m'.entries ↔ if p.1 = key then p.2 = val else p ∈ m.entries := by
  have step : ∃ m1 v1, m.operatorBracket hashFanc key = .ok (v1, m1) ∧ Inv hashFanc m1 ∧
      key ∈ m1.keys ∧ ∀ p : K × V, p.1 ≠ key → (p ∈ m1.entries ↔ p ∈ m.entries) := by
    cases hc : m.containsKey hashFanc key with
    | true =>
      have hk := (Shape.containsKey_iff inv.shape key).1 hc
      obtain ⟨q, hq, e⟩ := List.mem_map.1 hk
      have hq2 : (key, q.2) ∈ m.entries := by
        have : q = (key, q.2) := Prod.ext e rfl
        rw [← this]
        exact hq
      have hat := (Shape.atKey_iff inv.shape key q.2).2 hq2
      refine ⟨m, q.2, ?_, inv, hk, fun _ _ => Iff.rfl⟩
      unfold HashMap.operatorBracket
      rw [insert_present hashFanc m key default hc]
      simp [bind, Except.bind, hat]
    | false =>
      obtain ⟨m1, e, ok1, perm, -⟩ := insert_absent inv.shape key (default : V) hc
      have hmem : (key, (default : V)) ∈ m1.entries :=
        perm.mem_iff.2 (List.mem_cons_self _ _)
      have hat := (Shape.atKey_iff ok1 key default).2 hmem
      refine ⟨m1, default, ?_, inv.of_insert key default (true, m1) e,
        List.mem_map_of_mem Prod.fst hmem, ?_⟩
      · unfold HashMap.operatorBracket
        rw [e]
        simp [bind, Except.bind, hat]
      · intro p hp
        rw [perm.mem_iff, List.mem_cons]
        constructor
        · rintro (h | h)
          · exact absurd (by rw [h]) hp
          · exact h
        · exact Or.inr
  obtain ⟨m1, v1, e1, inv1, hk1, hother⟩ := step
  refine ⟨m1.store hashFanc key val, ?_, inv1.of_store key val, ?_⟩
  · unfold HashMap.bracketAssign
    rw [e1]
    rfl
  · intro p
    rw [store_entries inv1.shape key val hk1 p]
    by_cases hp : p.1 = key
    · simp [hp]
    · simp only [if_neg hp]
      exact hother p hp

/-- The loop of the constructor from two vectors. -/
theorem foldlM_bracketAssign_spec [Inhabited V] {hashFanc : K → Nat} {m : HashMap K V}
    (inv : Inv hashFanc m) (kvs : List (K × V)) :
    ∃ m', kvs.foldlM (fun t kv => t.bracketAssign hashFanc kv.1 kv.2) m = .ok m' ∧
      Inv hashFanc m' ∧
      ∀ p : K × V, p ∈ m'.entries ↔
        match lastPaired p.1 kvs with
        | some w => p.2 = w
        | none => p ∈ m.entries := by
  induction kvs generalizing m with
  | nil => exact ⟨m, rfl, inv, fun p => by simp [lastPaired]⟩
  | cons x rest ih =>
    obtain ⟨m1, e1, inv1, h1⟩ := bracketAssign_spec inv x.1 x.2
    obtain ⟨m2, e2, inv2, h2⟩ := ih inv1
    refine ⟨m2, ?_, inv2, ?_⟩
    · rw [List.foldlM_cons, e1]
      exact e2
    · intro p
      rw [h2 p]
      simp only [lastPaired]
      cases lastPaired p.1 rest with
      | some w => rfl
      | none =>
        simp only [h1 p]
        by_cases hp : x.1 = p.1
        · rw [if_pos hp.symm, if_pos hp]
        · rw [if_neg (fun e => hp e.symm), if_neg hp]

/-- On vectors of different lengths the constructor deletes `_table` in its body and again
in the destructor that the thrown exception runs. -/
theorem ctorVec_of_mismatch [Inhabited V] (hashFanc : K → Nat) (keyVec : List K)
    (valVec : List V) (hne : keyVec.length ≠ valVec.length) :
    HashMap.ctorVec hashFanc keyVec valVec = .error .double_delete := by
  have hc : (HashMap.ctorDefault : Except Exc (HashMap K V)) =
      .ok { _capacity := 16, _size := 0, _lowLoadFactor := 1 / 4, _highLoadFactor := 3 / 4,
            _table := List.replicate 16 [] } := by
    unfold HashMap.ctorDefault
    exact (ctor_ok_iff _ _ _).2
      ⟨⟨by norm_num [DEF_LOW_FACTOR], by norm_num [DEF_LOW_FACTOR, DEF_HIGH_FACTOR],
        by norm_num [DEF_HIGH_FACTOR]⟩, by simp [DEF_LOW_FACTOR, DEF_HIGH_FACTOR]⟩
  unfold HashMap.ctorVec
  rw [hc]
  show (if keyVec.length ≠ valVec.length then _ else _) = _
  rw [if_pos hne]
  rfl

/-- C7: `HashMap(keyVec, valVec)` never delivers `invalid_argument`: when the two vectors
differ in length, and only then, it deletes `_table` twice, in the body before the `throw`
and in the destructor that the exception runs, as for the keys `1, 2` with the single
value `10`.  When the lengths are equal it returns a table that stores exactly the keys
occurring in `keyVec`, in which `at` of a key returns the value paired with the last
occurrence of that key, and whose size is the number of distinct keys. -/
theorem ctorVec_spec [Inhabited V] (hashFanc : K → Nat) (keyVec : List K) (valVec : List V) :
    HashMap.ctorVec hashFanc keyVec valVec ≠ .error .invalid_argument ∧
    (HashMap.ctorVec hashFanc keyVec valVec = .error .double_delete ↔
      keyVec.length ≠ valVec.length) ∧
    HashMap.ctorVec demoHash [1, 2] [10] = .error .double_delete ∧
    (keyVec.length = valVec.length →
      ∃ m, HashMap.ctorVec hashFanc keyVec valVec = .ok m ∧
        (∀ k, m.containsKey hashFanc k = true ↔ k ∈ keyVec) ∧
        (∀ i (h1 : i < keyVec.length) (h2 : i < valVec.length),
          (∀ j (hj : j < keyVec.length), i < j → keyVec[j] ≠ keyVec[i]) →
          m.atKey hashFanc keyVec[i] = .ok valVec[i]) ∧
        m.size = (keyVec.toFinset.card : Int)) := by
  have hc : (HashMap.ctorDefault : Except Exc (HashMap K V)) =
      .ok { _capacity := 16, _size := 0, _lowLoadFactor := 1 / 4, _highLoadFactor := 3 / 4,
            _table := List.replicate 16 [] } := by
    unfold HashMap.ctorDefault
    exact (ctor_ok_iff _ _ _).2
      ⟨⟨by norm_num [DEF_LOW_FACTOR], by norm_num [DEF_LOW_FACTOR, DEF_HIGH_FACTOR],
        by norm_num [DEF_HIGH_FACTOR]⟩, by simp [DEF_LOW_FACTOR, DEF_HIGH_FACTOR]⟩
  have inv0 := Inv.of_ctor hashFanc _ _ _ (show HashMap.ctor DEF_LOW_FACTOR DEF_HIGH_FACTOR =
    .ok _ from hc)
  have hunfold : HashMap.ctorVec hashFanc keyVec valVec =
      if keyVec.length ≠ valVec.length then .error .double_delete
      else (keyVec.zip valVec).foldlM (fun t kv => t.bracketAssign hashFanc kv.1 kv.2)
        { _capacity := 16, _size := 0, _lowLoadFactor := 1 / 4, _highLoadFactor := 3 / 4,
          _table := List.replicate 16 [] } := by
    unfold HashMap.ctorVec
    rw [hc]
    show (if keyVec.length ≠ valVec.length then _ else _) = _
    split_ifs <;> rfl
  have main : keyVec.length = valVec.length →
      ∃ m, HashMap.ctorVec hashFanc keyVec valVec = .ok m ∧
        (∀ k, m.containsKey hashFanc k = true ↔ k ∈ keyVec) ∧
        (∀ i (h1 : i < keyVec.length) (h2 : i < valVec.length),
          (∀ j (hj : j < keyVec.length), i < j → keyVec[j] ≠ keyVec[i]) →
          m.atKey hashFanc keyVec[i] = .ok valVec[i]) ∧
        m.size = (keyVec.toFinset.card : Int) := by
    intro hlen
    obtain ⟨m, e, inv, hent⟩ := foldlM_bracketAssign_spec inv0 (keyVec.zip valVec)
    have hfst : (keyVec.zip valVec).map Prod.fst = keyVec :=
      List.map_fst_zip _ _ (le_of_eq hlen)
    have hzl : (keyVec.zip valVec).length = keyVec.length := by
      have := congrArg List.length hfst
      simpa using this
    have hkeys : ∀ k, m.containsKey hashFanc k = true ↔ k ∈ keyVec := by
      intro k
      rw [Shape.containsKey_iff inv.shape]
      constructor
      · intro hk
        obtain ⟨p, hp, ep⟩ := List.mem_map.1 hk
        have h := (hent p).1 hp
        by_contra hnot
        rw [← hfst, ← ep, ← lastPaired_eq_none_iff] at hnot
        rw [hnot] at h
        simp [HashMap.entries] at h
      · intro hk
        rw [← hfst] at hk
        cases hl : lastPaired k (keyVec.zip valVec) with
        | none => exact absurd hk ((lastPaired_eq_none_iff k _).1 hl)
        | some w =>
          have : (k, w) ∈ m.entries := by
            rw [hent (k, w)]
            simp only [hl]
          exact List.mem_map_of_mem Prod.fst this
    refine ⟨m, ?_, hkeys, ?_, ?_⟩
    · rw [hunfold, if_neg (by simpa using hlen)]
      exact e
    · intro i h1 h2 hlast
      have hi : i < (keyVec.zip valVec).length := by omega
      have hget : (keyVec.zip valVec)[i] = (keyVec[i], valVec[i]) := List.getElem_zip
      have hl := lastPaired_of_last (keyVec.zip valVec) i hi (by
        intro j hj hij
        have hj2 : j < keyVec.length := by omega
        have hgj : (keyVec.zip valVec)[j] = (keyVec[j], valVec[j]) := List.getElem_zip
        rw [hgj, hget]
        exact hlast j hj2 hij)
      rw [hget] at hl
      rw [Shape.atKey_iff inv.shape, hent]
      simp only [hl]
    · rw [inv.size_eq_card]
      congr 2
      ext k
      rw [List.mem_toFinset, List.mem_toFinset, ← hkeys k, Shape.containsKey_iff inv.shape]
  have hmis : HashMap.ctorVec hashFanc keyVec valVec = .error .double_delete ↔
      keyVec.length ≠ valVec.length := by
    constructor
    · intro he hlen
      obtain ⟨m, hm, -⟩ := main hlen
      rw [he] at hm
      cases hm
    · intro hne
      rw [hunfold, if_pos hne]
  refine ⟨?_, hmis, ?_, main⟩
  · intro he
    by_cases hlen : keyVec.length = valVec.length
    · obtain ⟨m, hm, -⟩ := main hlen
      rw [he] at hm
      cases hm
    · rw [hmis.2 hlen] at he
      cases he
  · exact ctorVec_of_mismatch demoHash [1, 2] [10] (by decide)

/-! ### Iteration, `clear`, frame properties and capacity -/

/-- The loop `for (auto cur : *this)` started at `begin()` visits the stored entries, chain
after chain, for every bound on its rounds that exceeds the number of stored entries. -/
theorem rangeLoop_begin (m : HashMap K V) (hlen : m._table.length = m._capacity.toNat)
    (hcap : 1 ≤ m._capacity) (fuel : Nat) (hfuel : m._table.flatten.length + 1 ≤ fuel) :
    rangeLoop m fuel m.begin [] = .ok m._table.flatten := by
  unfold HashMap.begin const_iterator.start
  simp only [INIT_TABLA_INDEX, INIT_LIST_INDEX]
  have hT : m._table.flatten =
      (m.chain 0).drop ((-1 : Int) + 1).toNat ++ (m._table.drop ((0 : Int) + 1).toNat).flatten := by
    have := drop_flatten_of_chain m 0 (le_refl _) (by omega)
    simpa using this
  rcases next_spec m hlen 0 (-1) (le_refl _) (by omega) (le_refl _) with
    ⟨hend, hnil⟩ | ⟨hon, hrest⟩
  · cases fuel with
    | zero => omega
    | succ fuel => rw [rangeLoop_at_end m _ _ _ hend, hT, hnil]
  · have hfuel2 : (remaining m (const_iterator.next m ⟨0, -1⟩)).length + 1 ≤ fuel := by
      rw [hrest, ← hT]
      exact hfuel
    have := rangeLoop_onEntry m hlen _ _ [] hon hfuel2
    rw [hrest, ← hT] at this
    simpa using this

/-- C12: on a reachable table of size `N`, the iteration from `begin()` until the iterator
equals `end()` stops (for every bound on its rounds above `N`) and yields exactly the `N`
stored entries, the chains concatenated in bucket order; each yielded pair `(k, v)`
satisfies `containsKey(k)` and `at(k) = v`, and no key is yielded twice. -/
theorem iteration_yields_entries [Inhabited V] (hashFanc : K → Nat) (m : HashMap K V)
    (hr : Reachable hashFanc m) :
    ∃ visited, m.elements = .ok visited ∧
      (∀ fuel, m.size.toNat + 1 ≤ fuel → rangeLoop m fuel m.begin [] = .ok visited) ∧
      visited = m._table.flatten ∧ (visited.length : Int) = m.size ∧
      (∀ p ∈ visited, m.containsKey hashFanc p.1 = true ∧ m.atKey hashFanc p.1 = .ok p.2) ∧
      (visited.map Prod.fst).Nodup := by
  have inv := hr.inv
  have ok := inv.shape
  have hsz : m.size.toNat = m._table.flatten.length := by
    show m._size.toNat = _
    rw [inv.size_eq]
    rfl
  refine ⟨m._table.flatten, elements_eq m ok.table_len ok.cap_pos, ?_, rfl, ?_, ?_, ok.nodup⟩
  · intro fuel hf
    exact rangeLoop_begin m ok.table_len ok.cap_pos fuel (by omega)
  · exact inv.size_eq.symm
  · intro p hp
    have hat := (Shape.atKey_iff ok p.1 p.2).2 hp
    exact ⟨containsKey_of_atKey hashFanc m p.1 p.2 hat, hat⟩

/-- Instance of C12 on the table that stores `(3, 5)`. -/
theorem iteration_yields_entries_witness :
    Reachable demoHash demoTable1 ∧
    ∃ visited, demoTable1.elements = .ok visited ∧
      (∀ fuel, demoTable1.size.toNat + 1 ≤ fuel →
        rangeLoop demoTable1 fuel demoTable1.begin [] = .ok visited) ∧
      visited = demoTable1._table.flatten ∧ (visited.length : Int) = demoTable1.size ∧
      (∀ p ∈ visited, demoTable1.containsKey demoHash p.1 = true ∧
        demoTable1.atKey demoHash p.1 = .ok p.2) ∧
      (visited.map Prod.fst).Nodup :=
  ⟨demoTable1_reachable, iteration_yields_entries demoHash demoTable1 demoTable1_reachable⟩

omit [DecidableEq V] in
/-- C14: `clear()` leaves the size 0, keeps the capacity and both load-factor bounds, leaves
`capacity` chains that are all empty, and afterwards `containsKey(k)` is `false` for every
key. -/
theorem clear_spec (hashFanc : K → Nat) (m : HashMap K V) :
    m.clear.size = 0 ∧ m.clear.capacity = m.capacity ∧
    m.clear._lowLoadFactor = m._lowLoadFactor ∧
    m.clear._highLoadFactor = m._highLoadFactor ∧
    m.clear._table.length = m.capacity.toNat ∧
    (∀ i, m.clear.chain i = []) ∧ m.clear.entries = [] ∧
    (∀ k, m.clear.containsKey hashFanc k = false) := by
  have hchain : ∀ i, m.clear.chain i = [] := by
    intro i
    unfold HashMap.chain HashMap.clear
    rw [List.getD_eq_getElem?_getD]
    by_cases hi : i.toNat < m._capacity.toNat
    · simp [List.getElem?_replicate, hi]
    · simp [List.getElem?_replicate, hi]
  refine ⟨rfl, rfl, rfl, rfl, by simp [HashMap.clear, HashMap.capacity], hchain, ?_, ?_⟩
  · simp [HashMap.clear, HashMap.entries]
  · intro k
    unfold HashMap.containsKey
    rw [hchain]
    rfl

omit [DecidableEq V] in
theorem atKey_error_kind (hashFanc : K → Nat) (m : HashMap K V) (key : K) (e : Exc)
    (h : m.atKey hashFanc key = .error e) : e = .out_of_range := by
  unfold HashMap.atKey at h
  cases hf : chainFind key (m.chain (m._index hashFanc key)) with
  | none =>
    simp only [hf, Except.error.injEq] at h
    exact h.symm
  | some w => simp [hf] at h

omit [DecidableEq V] in
/-- Two well-formed tables that store the same values for a key answer `containsKey` and
`at` alike for that key. -/
theorem lookup_congr {hashFanc : K → Nat} {a b : HashMap K V} (oka : Shape hashFanc a)
    (okb : Shape hashFanc b) (key : K)
    (h : ∀ v, (key, v) ∈ a.entries ↔ (key, v) ∈ b.entries) :
    b.containsKey hashFanc key = a.containsKey hashFanc key ∧
      b.atKey hashFanc key = a.atKey hashFanc key := by
  have hkeys : key ∈ a.keys ↔ key ∈ b.keys := by
    constructor
    · intro hk
      obtain ⟨p, hp, e⟩ := List.mem_map.1 hk
      have hp2 : (key, p.2) ∈ a.entries := by
        have : p = (key, p.2) := Prod.ext e rfl
        rw [← this]
        exact hp
      exact List.mem_map_of_mem Prod.fst ((h p.2).1 hp2)
    · intro hk
      obtain ⟨p, hp, e⟩ := List.mem_map.1 hk
      have hp2 : (key, p.2) ∈ b.entries := by
        have : p = (key, p.2) := Prod.ext e rfl
        rw [← this]
        exact hp
      exact List.mem_map_of_mem Prod.fst ((h p.2).2 hp2)
  constructor
  · rw [Bool.eq_iff_iff, Shape.containsKey_iff okb, Shape.containsKey_iff oka]
    exact hkeys.symm
  · cases ha : a.atKey hashFanc key with
    | ok v =>
      exact (Shape.atKey_iff okb key v).2 ((h v).1 ((Shape.atKey_iff oka key v).1 ha))
    | error e =>
      have he := atKey_error_kind hashFanc a key e ha
      subst he
      rw [Shape.atKey_error_iff okb]
      rw [Shape.atKey_error_iff oka] at ha
      exact fun hk => ha (hkeys.2 hk)

/-- C16: on a reachable table, `insert(k, v)` and `erase(k)` return and leave
`containsKey(k2)` and `at(k2)` as they were for every other key `k2`, resizing or not; and
`_reSize(newCap)` with `newCap ≥ 1` returns, keeps the stored entries and leaves each entry
in the chain of index `hash(key) & (newCap - 1)`. -/
theorem other_keys_untouched [Inhabited V] (hashFanc : K → Nat) (m : HashMap K V)
    (k k2 : K) (hr : Reachable hashFanc m) (hne : k ≠ k2) :
    (∀ v, ∃ r, m.insert hashFanc k v = .ok r ∧
      r.2.containsKey hashFanc k2 = m.containsKey hashFanc k2 ∧
      r.2.atKey hashFanc k2 = m.atKey hashFanc k2) ∧
    (∃ r, m.erase hashFanc k = .ok r ∧
      r.2.containsKey hashFanc k2 = m.containsKey hashFanc k2 ∧
      r.2.atKey hashFanc k2 = m.atKey hashFanc k2) ∧
    (∀ newCap, 1 ≤ newCap →
      ∃ m', m._reSize hashFanc newCap = .ok m' ∧ m'.capacity = newCap ∧
        m'._table.length = newCap.toNat ∧ m'.entries.Perm m.entries ∧
        (∀ p ∈ m'.entries, p ∈ m'.chain (maskIndex hashFanc p.1 newCap)) ∧
        (∀ (i : Nat) (p : K × V), p ∈ m'.chain (i : Int) →
          maskIndex hashFanc p.1 newCap = (i : Int))) := by
  have inv := hr.inv
  have ok := inv.shape
  refine ⟨?_, ?_, ?_⟩
  · intro v
    cases hc : m.containsKey hashFanc k with
    | true => exact ⟨(false, m), insert_present hashFanc m k v hc, rfl, rfl⟩
    | false =>
      obtain ⟨m', e, ok', perm, -⟩ := insert_absent ok k v hc
      obtain ⟨h1, h2⟩ := lookup_congr ok ok' k2 (fun w => by
        rw [perm.mem_iff, List.mem_cons]
        constructor
        · exact Or.inr
        · rintro (h | h)
          · exact absurd (congrArg Prod.fst h).symm hne
          · exact h)
      exact ⟨(true, m'), e, h1, h2⟩
  · cases hc : m.containsKey hashFanc k with
    | false => exact ⟨(false, m), erase_absent hashFanc m k hc, rfl, rfl⟩
    | true =>
      obtain ⟨m', v, e, ok', perm, -⟩ := erase_present ok k hc
      obtain ⟨h1, h2⟩ := lookup_congr ok ok' k2 (fun w => by
        rw [perm.mem_iff, List.mem_cons]
        constructor
        · rintro (h | h)
          · exact absurd (congrArg Prod.fst h).symm hne
          · exact h
        · exact Or.inr)
      exact ⟨(true, m'), e, h1, h2⟩
  · intro newCap hcap
    obtain ⟨ok', perm⟩ := rehash_ok hashFanc m._table.flatten newCap hcap ok.nodup
    refine ⟨_, reSize_eq hashFanc m ok.table_len ok.cap_pos newCap hcap, rfl,
      ok'.table_len, perm, ?_, ?_⟩
    · intro p hp
      exact (TableOK.mem_iff ok' p).1 hp
    · intro i p hp
      apply ok'.placed i p
      simpa [HashMap.chain] using hp

/-- Instance of C16 on the table that stores `(3, 5)`, with the keys `3` and `4`. -/
theorem other_keys_untouched_witness :
    Reachable demoHash demoTable1 ∧ (3 : Nat) ≠ 4 ∧
    ((∀ v, ∃ r, demoTable1.insert demoHash 3 v = .ok r ∧
      r.2.containsKey demoHash 4 = demoTable1.containsKey demoHash 4 ∧
      r.2.atKey demoHash 4 = demoTable1.atKey demoHash 4) ∧
    (∃ r, demoTable1.erase demoHash 3 = .ok r ∧
      r.2.containsKey demoHash 4 = demoTable1.containsKey demoHash 4 ∧
      r.2.atKey demoHash 4 = demoTable1.atKey demoHash 4) ∧
    (∀ newCap, 1 ≤ newCap →
      ∃ m', demoTable1._reSize demoHash newCap = .ok m' ∧ m'.capacity = newCap ∧
        m'._table.length = newCap.toNat ∧ m'.entries.Perm demoTable1.entries ∧
        (∀ p ∈ m'.entries, p ∈ m'.chain (maskIndex demoHash p.1 newCap)) ∧
        (∀ (i : Nat) (p : Nat × Nat), p ∈ m'.chain (i : Int) →
          maskIndex demoHash p.1 newCap = (i : Int)))) :=
  ⟨demoTable1_reachable, by decide,
    other_keys_untouched demoHash demoTable1 3 4 demoTable1_reachable (by decide)⟩

/-- C17: on a reachable table with size `s` and capacity `c`, a successful `erase` leaves
the capacity `c / 2` when `(s - 1) / c < lowLoadFactor` and `c ≥ 2`, and `c` otherwise; at
capacity 1 it keeps the capacity and the other entries; `_reSize` to a capacity below 1
returns the table as it is; and an `erase` of a key that is not stored returns `false` and
the table as it is.  (`containsKey`, `at` and `bucketSize` return no table: they are
functions of the table.) -/
theorem erase_capacity [Inhabited V] (hashFanc : K → Nat) (m : HashMap K V) (key : K)
    (hr : Reachable hashFanc m) :
    (m.containsKey hashFanc key = true →
      ∃ m' v, m.erase hashFanc key = .ok (true, m') ∧
        m.entries.Perm ((key, v) :: m'.entries) ∧
        m'.capacity =
          if ((m.size - 1 : Int) : ℚ) / (m.capacity : ℚ) < m._lowLoadFactor ∧
              2 ≤ m.capacity then
            m.capacity / 2
          else m.capacity) ∧
    (m.containsKey hashFanc key = true → m.capacity = 1 →
      ∃ m' v, m.erase hashFanc key = .ok (true, m') ∧ m'.capacity = 1 ∧
        m.entries.Perm ((key, v) :: m'.entries)) ∧
    (m.containsKey hashFanc key = false → m.erase hashFanc key = .ok (false, m)) ∧
    (∀ newCap, newCap < MIN_CAPACITY → m._reSize hashFanc newCap = .ok m) := by
  have ok := hr.inv.shape
  refine ⟨?_, ?_, erase_absent hashFanc m key, ?_⟩
  · intro hc
    obtain ⟨m', v, e, -, perm, -, -, -, hcap⟩ := erase_present ok key hc
    exact ⟨m', v, e, perm, hcap⟩
  · intro hc h1
    obtain ⟨m', v, e, -, perm, -, -, -, hcap⟩ := erase_present ok key hc
    refine ⟨m', v, e, ?_, perm⟩
    have h1' : m._capacity = 1 := h1
    show m'._capacity = 1
    rw [hcap, if_neg (by rw [h1']; rintro ⟨-, h⟩; exact absurd h (by decide)), h1']
  · intro newCap h
    exact reSize_small hashFanc m newCap (by simpa [MIN_CAPACITY] using h)

/-- Instance of C17 on the table that stores `(3, 5)`. -/
theorem erase_capacity_witness :
    Reachable demoHash demoTable1 ∧
    ((demoTable1.containsKey demoHash 3 = true →
      ∃ m' v, demoTable1.erase demoHash 3 = .ok (true, m') ∧
        demoTable1.entries.Perm ((3, v) :: m'.entries) ∧
        m'.capacity =
          if ((demoTable1.size - 1 : Int) : ℚ) / (demoTable1.capacity : ℚ) <
              demoTable1._lowLoadFactor ∧ 2 ≤ demoTable1.capacity then
            demoTable1.capacity / 2
          else demoTable1.capacity) ∧
    (demoTable1.containsKey demoHash 3 = true → demoTable1.capacity = 1 →
      ∃ m' v, demoTable1.erase demoHash 3 = .ok (true, m') ∧ m'.capacity = 1 ∧
        demoTable1.entries.Perm ((3, v) :: m'.entries)) ∧
    (demoTable1.containsKey demoHash 3 = false →
      demoTable1.erase demoHash 3 = .ok (false, demoTable1)) ∧
    (∀ newCap, newCap < MIN_CAPACITY → demoTable1._reSize demoHash newCap = .ok demoTable1)) :=
  ⟨demoTable1_reachable, erase_capacity demoHash demoTable1 3 demoTable1_reachable⟩

/-- C18: in every reachable state the capacity is at least 1 and a power of two, so the
bucket index `hash(key) & (capacity - 1)` is `hash(key) mod capacity` and lies in
`[0, capacity)`. -/
theorem capacity_power_of_two [Inhabited V] (hashFanc : K → Nat) (m : HashMap K V)
    (hr : Reachable hashFanc m) :
    1 ≤ m.capacity ∧ (∃ n : Nat, m.capacity = 2 ^ n) ∧
    ∀ key, m._index hashFanc key = ((hashFanc key % m.capacity.toNat : Nat) : Int) ∧
      0 ≤ m._index hashFanc key ∧ m._index hashFanc key < m.capacity := by
  have inv := hr.inv
  refine ⟨inv.shape.cap_pos, inv.cap_pow, ?_⟩
  intro key
  refine ⟨?_, maskIndex_nonneg hashFanc key _, maskIndex_lt hashFanc key _ inv.shape.cap_pos⟩
  obtain ⟨n, hn⟩ := inv.cap_pow
  show ((hashFanc key &&& (m._capacity - 1).toNat : Nat) : Int) =
    ((hashFanc key % m._capacity.toNat : Nat) : Int)
  have h1 : (m._capacity - 1).toNat = 2 ^ n - 1 := by
    rw [hn]
    have : ((2 : Int) ^ n) = ((2 ^ n : Nat) : Int) := by push_cast; rfl
    rw [this]
    have hpos : 1 ≤ 2 ^ n := Nat.one_le_two_pow
    omega
  have h2 : m._capacity.toNat = 2 ^ n := by
    rw [hn]
    have : ((2 : Int) ^ n) = ((2 ^ n : Nat) : Int) := by push_cast; rfl
    rw [this]
    exact Int.toNat_ofNat _
  rw [h1, h2, Nat.and_pow_two_sub_one_eq_mod]

/-- Instance of C18 on the table that stores `(3, 5)`. -/
theorem capacity_power_of_two_witness :
    Reachable demoHash demoTable1 ∧
    (1 ≤ demoTable1.capacity ∧ (∃ n : Nat, demoTable1.capacity = 2 ^ n) ∧
    ∀ key, demoTable1._index demoHash key =
        ((demoHash key % demoTable1.capacity.toNat : Nat) : Int) ∧
      0 ≤ demoTable1._index demoHash key ∧
      demoTable1._index demoHash key < demoTable1.capacity) :=
  ⟨demoTable1_reachable, capacity_power_of_two demoHash demoTable1 demoTable1_reachable⟩

/-- C20: for the table made by `HashMap()` and every sequence of `insert` and `erase`
calls, with every hash function, the calls return and afterwards `size / capacity ≤ 0.75`,
that is `4 * size ≤ 3 * capacity`. -/
theorem default_load_le_three_quarters (hashFanc : K → Nat) (m0 : HashMap K V)
    (calls : List (Call K V)) (h0 : HashMap.ctorDefault = .ok m0) :
    ∃ m, runCalls hashFanc calls m0 = .ok m ∧ m.getLoadFactor ≤ 3 / 4 ∧
      4 * m.size ≤ 3 * m.capacity := by
  have h0' : HashMap.ctor DEF_LOW_FACTOR DEF_HIGH_FACTOR = .ok m0 := h0
  have inv0 := Inv.of_ctor hashFanc _ _ m0 h0'
  obtain ⟨-, e0⟩ := (ctor_ok_iff _ _ m0).1 h0'
  have hl0 : m0._lowLoadFactor = 1 / 4 := by rw [e0]; rfl
  have hh0 : m0._highLoadFactor = 3 / 4 := by rw [e0]; rfl
  obtain ⟨m, e, inv, -, hl, hh⟩ := runCalls_spec inv0 calls
  have hload0 : m0.getLoadFactor ≤ m0._highLoadFactor := by
    rw [e0]
    norm_num [HashMap.getLoadFactor, HashMap.size, HashMap.capacity, DEF_HIGH_FACTOR]
  have hload := load_le_high_run inv0 (by rw [hl0, hh0]; norm_num) (by rw [hh0]; norm_num)
    hload0 calls m e
  rw [hh, hh0] at hload
  refine ⟨m, e, hload, ?_⟩
  have hcap := inv.shape.cap_pos
  have hcq : (0 : ℚ) < (m._capacity : ℚ) := by
    have : (0 : Int) < m._capacity := by omega
    exact_mod_cast this
  simp only [HashMap.getLoadFactor, HashMap.size, HashMap.capacity] at hload ⊢
  rw [div_le_iff₀ hcq] at hload
  have h4 : (4 : ℚ) * (m._size : ℚ) ≤ 3 * (m._capacity : ℚ) := by linarith
  exact_mod_cast h4

/-- Instance of C20: the default table after `insert(3, 5)`, `erase(3)` and `insert(4, 1)`. -/
theorem default_load_le_three_quarters_witness :
    HashMap.ctorDefault = .ok demoTable ∧
    ∃ m, runCalls demoHash [Call.insert 3 5, Call.erase 3, Call.insert 4 1] demoTable =
        .ok m ∧ m.getLoadFactor ≤ 3 / 4 ∧ 4 * m.size ≤ 3 * m.capacity :=
  ⟨demoTable_ctor, default_load_le_three_quarters demoHash demoTable _ demoTable_ctor⟩

/-! ### Growth of the capacity -/

omit [DecidableEq K] [DecidableEq V] in
theorem growCap_add (high : ℚ) (a b : Nat) (c s : Int) :
    growCap high (a + b) c s = growCap high b (growCap high a c s) (s + a) := by
  induction a generalizing c s with
  | zero => simp [growCap]
  | succ a ih =>
    have e : a + 1 + b = (a + b) + 1 := by omega
    rw [e]
    simp only [growCap]
    rw [ih]
    congr 1
    push_cast
    ring

omit [DecidableEq K] [DecidableEq V] in
theorem growCap_stay (high : ℚ) (n : Nat) (c s : Int)
    (h : ∀ i : Nat, i < n → ((s + 1 + i : Int) : ℚ) / (c : ℚ) ≤ high) :
    growCap high n c s = c := by
  induction n generalizing s with
  | zero => rfl
  | succ n ih =>
    simp only [growCap]
    have h0 := h 0 (by omega)
    simp only [Nat.cast_zero, add_zero] at h0
    rw [if_neg (not_lt.2 h0)]
    apply ih
    intro i hi
    have := h (i + 1) (by omega)
    have e : (s + 1 + 1 + (i : Int)) = s + 1 + ((i + 1 : Nat) : Int) := by push_cast; ring
    rw [e]
    exact this

omit [DecidableEq K] [DecidableEq V] in
/-- With a high bound in `[7/8, 15/16)`, twenty successful inserts into 16 empty chains
end with capacity 32: the fifteenth insert doubles the capacity. -/
theorem growCap_twenty (high : ℚ) (h1 : 7 / 8 ≤ high) (h2 : high < 15 / 16) :
    growCap high 20 16 0 = 32 := by
  have e : (20 : Nat) = 14 + (1 + 5) := rfl
  rw [e, growCap_add, growCap_add]
  have s14 : growCap high 14 16 0 = 16 := by
    apply growCap_stay
    intro i hi
    have hi' : (i : ℚ) ≤ 13 := by exact_mod_cast (show i ≤ 13 by omega)
    push_cast
    rw [div_le_iff₀ (by norm_num)]
    linarith
  rw [s14]
  have s1 : growCap high 1 16 ((0 : Int) + (14 : Nat)) = 32 := by
    simp only [growCap]
    rw [if_pos (by push_cast; norm_num; linarith)]
    rfl
  rw [s1]
  apply growCap_stay
  intro i hi
  have hi' : (i : ℚ) ≤ 4 := by exact_mod_cast (show i ≤ 4 by omega)
  push_cast
  rw [div_le_iff₀ (by norm_num)]
  linarith

/-- A sequence of `insert` calls with distinct keys, none of them stored: every call
succeeds and the capacity grows as `growCap` computes. -/
theorem insertCalls_spec {hashFanc : K → Nat} {m : HashMap K V} (inv : Inv hashFanc m)
    (kvs : List (K × V)) (hnd : (kvs.map Prod.fst).Nodup)
    (hnew : ∀ p ∈ kvs, p.1 ∉ m.keys) :
    ∃ m', runCalls hashFanc (insertCalls kvs) m = .ok m' ∧ Inv hashFanc m' ∧
      m'._size = m._size + kvs.length ∧
      m'._capacity = growCap m._highLoadFactor kvs.length m._capacity m._size ∧
      m'._highLoadFactor = m._highLoadFactor ∧ m'._lowLoadFactor = m._lowLoadFactor := by
  induction kvs generalizing m with
  | nil => exact ⟨m, rfl, inv, by simp, rfl, rfl, rfl⟩
  | cons p rest ih =>
    rw [List.map_cons, List.nodup_cons] at hnd
    have habs : m.containsKey hashFanc p.1 = false :=
      (Shape.containsKey_false_iff inv.shape p.1).2 (hnew p (List.mem_cons_self _ _))
    obtain ⟨m1, e1, -, perm, hs, hl, hh, hcap⟩ := insert_absent inv.shape p.1 p.2 habs
    have inv1 := inv.of_insert p.1 p.2 (true, m1) e1
    have hnew1 : ∀ q ∈ rest, q.1 ∉ m1.keys := by
      intro q hq hmem
      have hmem2 : q.1 ∈ (p.1 :: m.keys) := ((perm.map Prod.fst).mem_iff).1 hmem
      rcases List.mem_cons.1 hmem2 with h | h
      · exact hnd.1 (h ▸ List.mem_map_of_mem Prod.fst hq)
      · exact hnew q (List.mem_cons_of_mem _ hq) h
    obtain ⟨m2, e2, inv2, hs2, hcap2, hh2, hl2⟩ := ih inv1 hnd.2 hnew1
    refine ⟨m2, ?_, inv2, ?_, ?_, hh2.trans hh, hl2.trans hl⟩
    · unfold runCalls insertCalls at e2 ⊢
      rw [List.map_cons, List.foldlM_cons]
      simp only [applyCall, e1, bind, Except.bind]
      exact e2
    · rw [hs2, hs, List.length_cons]
      push_cast
      ring
    · rw [hcap2, hh, hs, hcap, List.length_cons]
      rfl

/-- C13: on a reachable table with size `s` and capacity `c`, a successful `insert` leaves
the capacity `2 * c` when `(s + 1) / c > highLoadFactor` and `c` otherwise.  For a table
constructed with a high bound in `[7/8, 15/16)`, such as `0.9`, twenty inserts with distinct
keys leave, for every hash function, capacity 32, size 20 and load factor `20 / 32`, which
is at most the high bound. -/
theorem insert_capacity [Inhabited V] (hashFanc : K → Nat) (m : HashMap K V)
    (low high : ℚ) (m0 : HashMap K V) (hr : Reachable hashFanc m)
    (h0 : HashMap.ctor low high = .ok m0) :
    (∀ key val, m.containsKey hashFanc key = false →
      ∃ m', m.insert hashFanc key val = .ok (true, m') ∧
        m'.capacity =
          if ((m.size + 1 : Int) : ℚ) / (m.capacity : ℚ) > m._highLoadFactor then
            2 * m.capacity
          else m.capacity) ∧
    (7 / 8 ≤ high → high < 15 / 16 →
      ∀ kvs : List (K × V), kvs.length = 20 → (kvs.map Prod.fst).Nodup →
        ∃ m20, runCalls hashFanc (insertCalls kvs) m0 = .ok m20 ∧
          m20.capacity = 32 ∧ 16 < m20.capacity ∧ m20.size = 20 ∧
          m20.getLoadFactor = 20 / 32 ∧ m20.getLoadFactor ≤ high) := by
  constructor
  · intro key val habs
    obtain ⟨m', e, -, -, -, -, -, hcap⟩ := insert_absent hr.inv.shape key val habs
    refine ⟨m', e, ?_⟩
    simp only [HashMap.capacity, HashMap.size]
    rw [hcap]
    split_ifs
    · ring
    · rfl
  · intro h1 h2 kvs hlen hnd
    have inv0 := Inv.of_ctor hashFanc low high m0 h0
    obtain ⟨-, e0⟩ := (ctor_ok_iff low high m0).1 h0
    have hkeys := ctor_keys_empty low high m0 h0
    obtain ⟨m20, e, -, hs, hcap, -, -⟩ := insertCalls_spec inv0 kvs hnd
      (fun p _ => by rw [hkeys]; simp)
    have hcap32 : m20._capacity = 32 := by
      rw [hcap, hlen, e0]
      exact growCap_twenty high h1 h2
    have hs20 : m20._size = 20 := by
      rw [hs, hlen, e0]
      rfl
    have hload : m20.getLoadFactor = 20 / 32 := by
      simp only [HashMap.getLoadFactor, HashMap.size, HashMap.capacity]
      rw [hs20, hcap32]
      norm_num
    refine ⟨m20, e, hcap32, by rw [show m20.capacity = 32 from hcap32]; decide, hs20, hload,
      ?_⟩
    rw [hload]
    linarith

/-- Instance of C13: the table that stores `(3, 5)`, and the bounds `0.1` and `0.9`. -/
theorem insert_capacity_witness :
    Reachable demoHash demoTable1 ∧
    (HashMap.ctor (1 / 10) (9 / 10) : Except Exc (HashMap Nat Nat)) =
      .ok (freshTable (1 / 10) (9 / 10)) ∧
    ((∀ key val, demoTable1.containsKey demoHash key = false →
      ∃ m', demoTable1.insert demoHash key val = .ok (true, m') ∧
        m'.capacity =
          if ((demoTable1.size + 1 : Int) : ℚ) / (demoTable1.capacity : ℚ) >
              demoTable1._highLoadFactor then
            2 * demoTable1.capacity
          else demoTable1.capacity) ∧
    ((7 / 8 : ℚ) ≤ 9 / 10 → (9 / 10 : ℚ) < 15 / 16 →
      ∀ kvs : List (Nat × Nat), kvs.length = 20 → (kvs.map Prod.fst).Nodup →
        ∃ m20, runCalls demoHash (insertCalls kvs) (freshTable (1 / 10) (9 / 10)) = .ok m20 ∧
          m20.capacity = 32 ∧ 16 < m20.capacity ∧ m20.size = 20 ∧
          m20.getLoadFactor = 20 / 32 ∧ m20.getLoadFactor ≤ 9 / 10)) :=
  ⟨demoTable1_reachable,
    (ctor_ok_iff _ _ _).2 ⟨⟨by norm_num, by norm_num, by norm_num⟩, rfl⟩,
    insert_capacity demoHash demoTable1 (1 / 10) (9 / 10) (freshTable (1 / 10) (9 / 10))
      demoTable1_reachable
      ((ctor_ok_iff _ _ _).2 ⟨⟨by norm_num, by norm_num, by norm_num⟩, rfl⟩)⟩

/-! ### Tables built from permuted sequences -/

omit [DecidableEq K] [DecidableEq V] in
theorem zip_map_fst_map_snd (l : List (K × V)) : (l.map Prod.fst).zip (l.map Prod.snd) = l := by
  induction l with
  | nil => rfl
  | cons p rest ih => simp [ih]

omit [DecidableEq V] in
theorem lastPaired_mem {key : K} {v : V} {l : List (K × V)} (h : lastPaired key l = some v) :
    (key, v) ∈ l := by
  induction l with
  | nil => simp [lastPaired] at h
  | cons p rest ih =>
    simp only [lastPaired] at h
    cases hr : lastPaired key rest with
    | some w =>
      simp only [hr, Option.some.injEq] at h
      subst h
      exact List.mem_cons_of_mem _ (ih hr)
    | none =>
      simp only [hr] at h
      by_cases hp : p.1 = key
      · simp only [hp, if_true, Option.some.injEq] at h
        have : p = (key, v) := Prod.ext hp h
        rw [this]
        exact List.mem_cons_self _ _
      · simp [hp] at h

omit [DecidableEq V] in
/-- When no key is paired with two different values, the value paired with the last
occurrence of a key is the value paired with any occurrence. -/
theorem lastPaired_eq_some_iff {l : List (K × V)}
    (hfun : ∀ k v v', (k, v) ∈ l → (k, v') ∈ l → v = v') (key : K) (v : V) :
    lastPaired key l = some v ↔ (key, v) ∈ l := by
  constructor
  · exact lastPaired_mem
  · intro h
    cases hl : lastPaired key l with
    | none =>
      exact absurd (List.mem_map_of_mem Prod.fst h) ((lastPaired_eq_none_iff key l).1 hl)
    | some w => rw [hfun key w v (lastPaired_mem hl) h]

/-- The constructor from two vectors of equal length runs the assignments on the members
left by `HashMap()`. -/
theorem ctorVec_unfold [Inhabited V] (hashFanc : K → Nat) (keyVec : List K) (valVec : List V)
    (hlen : keyVec.length = valVec.length) :
    HashMap.ctorVec hashFanc keyVec valVec =
      (keyVec.zip valVec).foldlM (fun t kv => t.bracketAssign hashFanc kv.1 kv.2)
        (freshTable (1 / 4) (3 / 4)) := by
  have hc : (HashMap.ctorDefault : Except Exc (HashMap K V)) =
      .ok (freshTable (1 / 4) (3 / 4)) := by
    unfold HashMap.ctorDefault
    exact (ctor_ok_iff _ _ _).2
      ⟨⟨by norm_num [DEF_LOW_FACTOR], by norm_num [DEF_LOW_FACTOR, DEF_HIGH_FACTOR],
        by norm_num [DEF_HIGH_FACTOR]⟩, by simp [DEF_LOW_FACTOR, DEF_HIGH_FACTOR, freshTable]⟩
  unfold HashMap.ctorVec
  rw [hc]
  show (if keyVec.length ≠ valVec.length then _ else _) = _
  rw [if_neg (by simpa using hlen)]

omit [DecidableEq K] [DecidableEq V] in
theorem freshTable_inv (hashFanc : K → Nat) (low high : ℚ) (h1 : 0 < low) (h2 : low ≤ high)
    (h3 : high < 1) : Inv hashFanc (freshTable low high : HashMap K V) :=
  Inv.of_ctor hashFanc low high _ ((ctor_ok_iff _ _ _).2 ⟨⟨h1, h2, h3⟩, rfl⟩)

/-- What the statement `(*this)[key] = val` does to the size and the capacity. -/
theorem bracketAssign_growth [Inhabited V] {hashFanc : K → Nat} {m : HashMap K V}
    (inv : Inv hashFanc m) (key : K) (val : V) (m' : HashMap K V)
    (e : m.bracketAssign hashFanc key val = .ok m') :
    m'._highLoadFactor = m._highLoadFactor ∧
    ((m'._size = m._size ∧ m'._capacity = m._capacity) ∨
      (m'._size = m._size + 1 ∧
        m'._capacity = growCap m._highLoadFactor 1 m._capacity m._size)) := by
  unfold HashMap.bracketAssign HashMap.operatorBracket at e
  cases hc : m.containsKey hashFanc key with
  | true =>
    rw [insert_present hashFanc m key default hc] at e
    cases ha : m.atKey hashFanc key with
    | error x => simp [ha, bind, Except.bind] at e
    | ok w =>
      simp only [ha, bind, Except.bind, Except.ok.injEq] at e
      subst e
      exact ⟨rfl, Or.inl ⟨rfl, rfl⟩⟩
  | false =>
    obtain ⟨m1, e1, -, -, hs, -, hh, hcap⟩ := insert_absent inv.shape key (default : V) hc
    rw [e1] at e
    cases ha : m1.atKey hashFanc key with
    | error x => simp [ha, bind, Except.bind] at e
    | ok w =>
      simp only [ha, bind, Except.bind, Except.ok.injEq] at e
      subst e
      exact ⟨hh, Or.inr ⟨hs, hcap⟩⟩

/-- Along the loop of the constructor from two vectors the capacity is the one that
`growCap` computes from the size. -/
theorem foldlM_bracketAssign_growth [Inhabited V] {hashFanc : K → Nat} {m : HashMap K V}
    (inv : Inv hashFanc m) (kvs : List (K × V)) (m' : HashMap K V)
    (hg : m._capacity = growCap m._highLoadFactor m._size.toNat 16 0)
    (e : kvs.foldlM (fun t kv => t.bracketAssign hashFanc kv.1 kv.2) m = .ok m') :
    m'._capacity = growCap m'._highLoadFactor m'._size.toNat 16 0 := by
  induction kvs generalizing m with
  | nil =>
    simp only [List.foldlM_nil, pure, Except.pure, Except.ok.injEq] at e
    subst e
    exact hg
  | cons x rest ih =>
    obtain ⟨m1, e1, inv1, -⟩ := bracketAssign_spec inv x.1 x.2
    rw [List.foldlM_cons, e1] at e
    obtain ⟨hh, hcase⟩ := bracketAssign_growth inv x.1 x.2 m1 e1
    apply ih inv1 _ e
    rcases hcase with ⟨hs, hcap⟩ | ⟨hs, hcap⟩
    · rw [hcap, hh, hs]
      exact hg
    · have hnn := inv.size_nonneg
      have hn : (m._size + 1).toNat = m._size.toNat + 1 := by omega
      have hz : ((0 : Int) + (m._size.toNat : Nat)) = m._size := by omega
      rw [hcap, hh, hs, hn, growCap_add, hz, ← hg]

/-- The table that the constructor builds from the pairs of a list. -/
theorem ctorVec_of_pairs [Inhabited V] (hashFanc : K → Nat) (kvs : List (K × V)) :
    ∃ a, HashMap.ctorVec hashFanc (kvs.map Prod.fst) (kvs.map Prod.snd) = .ok a ∧
      Inv hashFanc a ∧
      (∀ p : K × V, p ∈ a.entries ↔ lastPaired p.1 kvs = some p.2) ∧
      a._highLoadFactor = 3 / 4 ∧
      a._capacity = growCap (3 / 4) a._size.toNat 16 0 := by
  have inv0 : Inv hashFanc (freshTable (1 / 4) (3 / 4) : HashMap K V) :=
    freshTable_inv hashFanc _ _ (by norm_num) (by norm_num) (by norm_num)
  obtain ⟨a, e, inv, hent⟩ := foldlM_bracketAssign_spec inv0 kvs
  have hg := foldlM_bracketAssign_growth inv0 kvs a rfl e
  have hhigh : a._highLoadFactor = 3 / 4 := by
    have : ∀ (l : List (K × V)) (m m' : HashMap K V), Inv hashFanc m →
        l.foldlM (fun t kv => t.bracketAssign hashFanc kv.1 kv.2) m = .ok m' →
        m'._highLoadFactor = m._highLoadFactor := by
      intro l
      induction l with
      | nil =>
        intro m m' _ h
        simp only [List.foldlM_nil, pure, Except.pure, Except.ok.injEq] at h
        rw [h]
      | cons x rest ih =>
        intro m m' im h
        obtain ⟨m1, e1, inv1, -⟩ := bracketAssign_spec im x.1 x.2
        rw [List.foldlM_cons, e1] at h
        rw [ih m1 m' inv1 h]
        exact (bracketAssign_growth im x.1 x.2 m1 e1).1
    exact this kvs _ a inv0 e
  refine ⟨a, ?_, inv, ?_, hhigh, ?_⟩
  · rw [ctorVec_unfold hashFanc _ _ (by simp), zip_map_fst_map_snd]
    exact e
  · intro p
    rw [hent p]
    cases lastPaired p.1 kvs with
    | none => simp [HashMap.entries, freshTable]
    | some w =>
      simp only [Option.some.injEq]
      exact eq_comm
  · rw [hhigh] at hg
    exact hg

/-- C11 (the claim fails): the pairs `(1, 10), (1, 20)` and their permutation
`(1, 20), (1, 10)` give tables that `operator==` finds different: each stores the value of
the last occurrence of the key `1`. -/
theorem ctorVec_permuted_differs :
    List.Perm [((1 : Nat), (10 : Nat)), (1, 20)] [(1, 20), (1, 10)] ∧
    ∃ a b : HashMap Nat Nat,
      HashMap.ctorVec demoHash [1, 1] [10, 20] = .ok a ∧
      HashMap.ctorVec demoHash [1, 1] [20, 10] = .ok b ∧
      a.atKey demoHash 1 = .ok 20 ∧ b.atKey demoHash 1 = .ok 10 ∧
      a.operatorEq demoHash b = .ok false := by
  refine ⟨List.Perm.swap _ _ _, ?_⟩
  obtain ⟨a, ea, ia, ha, -⟩ := ctorVec_of_pairs demoHash [((1 : Nat), (10 : Nat)), (1, 20)]
  obtain ⟨b, eb, ib, hb, -⟩ := ctorVec_of_pairs demoHash [((1 : Nat), (20 : Nat)), (1, 10)]
  have ha1 : a.atKey demoHash 1 = .ok 20 :=
    (Shape.atKey_iff ia.shape 1 20).2 ((ha (1, 20)).2 (by decide))
  have hb1 : b.atKey demoHash 1 = .ok 10 :=
    (Shape.atKey_iff ib.shape 1 10).2 ((hb (1, 10)).2 (by decide))
  refine ⟨a, b, ea, eb, ha1, hb1, ?_⟩
  obtain ⟨r, hr⟩ := operatorEq_returns ia.shape b
  cases r with
  | false => exact hr
  | true =>
    obtain ⟨-, -, hall⟩ := (operatorEq_true_iff ia.shape b).1 hr
    have := hall (1, 20) ((Shape.atKey_iff ia.shape 1 20).1 ha1)
    rw [hb1] at this
    simp at this

/-- C11 (amended): for a sequence of pairs in which no key is paired with two different
values, and every permutation of it, the constructor from the keys and the values returns
for both, and the two tables are equal by `operator==`. -/
theorem ctorVec_permuted_eq [Inhabited V] (hashFanc : K → Nat) (kvs kvs' : List (K × V))
    (hperm : kvs.Perm kvs')
    (hfun : ∀ k v v', (k, v) ∈ kvs → (k, v') ∈ kvs → v = v') :
    ∃ a b, HashMap.ctorVec hashFanc (kvs.map Prod.fst) (kvs.map Prod.snd) = .ok a ∧
      HashMap.ctorVec hashFanc (kvs'.map Prod.fst) (kvs'.map Prod.snd) = .ok b ∧
      a.operatorEq hashFanc b = .ok true := by
  have hfun' : ∀ k v v', (k, v) ∈ kvs' → (k, v') ∈ kvs' → v = v' := fun k v v' h1 h2 =>
    hfun k v v' (hperm.mem_iff.2 h1) (hperm.mem_iff.2 h2)
  obtain ⟨a, ea, ia, ha, hha, hca⟩ := ctorVec_of_pairs hashFanc kvs
  obtain ⟨b, eb, ib, hb, hhb, hcb⟩ := ctorVec_of_pairs hashFanc kvs'
  have hmem : ∀ p : K × V, p ∈ a.entries ↔ p ∈ b.entries := by
    intro p
    rw [ha p, hb p, lastPaired_eq_some_iff hfun, lastPaired_eq_some_iff hfun']
    exact hperm.mem_iff
  have hpermE : a.entries.Perm b.entries :=
    (List.perm_ext_iff_of_nodup (List.Nodup.of_map Prod.fst ia.shape.nodup)
      (List.Nodup.of_map Prod.fst ib.shape.nodup)).2 hmem
  have hsize : a._size = b._size := by
    rw [ia.size_eq, ib.size_eq, hpermE.length_eq]
  refine ⟨a, b, ea, eb, (operatorEq_true_iff ia.shape b).2 ⟨hsize, ?_, ?_⟩⟩
  · show a._capacity = b._capacity
    rw [hca, hcb, hsize]
  · intro p hp
    exact (Shape.atKey_iff ib.shape p.1 p.2).2 ((hmem p).1 hp)

theorem demo_pairs_functional : ∀ k v v' : Nat,
    (k, v) ∈ [((1 : Nat), (10 : Nat)), (2, 20), (1, 10)] →
    (k, v') ∈ [((1 : Nat), (10 : Nat)), (2, 20), (1, 10)] → v = v' := by
  intro k v v' h1 h2
  simp only [List.mem_cons, Prod.mk.injEq, List.mem_singleton, List.not_mem_nil,
    or_false] at h1 h2
  omega

/-- Instance of C11 (amended): the pairs `(1, 10), (2, 20), (1, 10)` and a permutation. -/
theorem ctorVec_permuted_eq_witness :
    List.Perm [((1 : Nat), (10 : Nat)), (2, 20), (1, 10)] [(2, 20), (1, 10), (1, 10)] ∧
    (∀ k v v', (k, v) ∈ [((1 : Nat), (10 : Nat)), (2, 20), (1, 10)] →
      (k, v') ∈ [((1 : Nat), (10 : Nat)), (2, 20), (1, 10)] → v = v') ∧
    ∃ a b, HashMap.ctorVec demoHash [1, 2, 1] [10, 20, 10] = .ok a ∧
      HashMap.ctorVec demoHash [2, 1, 1] [20, 10, 10] = .ok b ∧
      a.operatorEq demoHash b = .ok true :=
  ⟨List.Perm.swap _ _ _, demo_pairs_functional,
    ctorVec_permuted_eq demoHash [((1 : Nat), (10 : Nat)), (2, 20), (1, 10)]
      [(2, 20), (1, 10), (1, 10)] (List.Perm.swap _ _ _) demo_pairs_functional⟩

/-! ### The bucket indices read by `operator++` -/

omit [DecidableEq K] [DecidableEq V] in
theorem advanceLoop_mem_reads (m : HashMap K V) (fuel : Nat) (ti : Int) :
    advanceLoop m (fuel + 1) ti ∈ advanceLoopReads m (fuel + 1) ti := by
  induction fuel generalizing ti with
  | zero =>
    simp only [advanceLoop, advanceLoopReads]
    split_ifs <;> simp
  | succ fuel ih =>
    rw [advanceLoop, advanceLoopReads]
    split_ifs
    · simp
    · exact List.mem_cons_of_mem _ (ih (ti + 1))
    · simp

omit [DecidableEq K] [DecidableEq V] in
/-- The table index at which `operator++` stops is one of the indices it has read; so a step
that stops at the terminal position `capacity` has read `_table[capacity]`. -/
theorem next_reads_final_index (m : HashMap K V) (it : const_iterator) :
    (it.next m)._tableIndex ∈ it.nextReads m := by
  unfold const_iterator.next const_iterator.nextReads
  split_ifs
  · simp
  · exact List.mem_cons_of_mem _ (advanceLoop_mem_reads m _ _)

/-- C19 (the code reads past the array): in the table of capacity 16 that stores `(3, 5)`,
`begin()` stands on bucket 3; the next `operator++` reaches the terminal position after
reading `_table[3]`, ..., `_table[16]`, and index 16 is outside the array of 16 chains. -/
theorem iterator_reads_index_capacity :
    demoTable1.capacity = 16 ∧ demoTable1._table.length = 16 ∧
    demoTable1.begin = ⟨3, 0⟩ ∧
    const_iterator.next demoTable1 ⟨3, 0⟩ = ⟨16, 0⟩ ∧
    const_iterator.nextReads demoTable1 ⟨3, 0⟩ =
      [3, 4, 5, 6, 7, 8, 9, 10, 11, 12, 13, 14, 15, 16] ∧
    demoTable1.capacity ∈ const_iterator.nextReads demoTable1 ⟨3, 0⟩ ∧
    demoTable.capacity ∈ const_iterator.nextReads demoTable const_iterator.start := by
  refine ⟨rfl, rfl, by decide, by decide, by decide, by decide, by decide⟩

/-! ### The scanner -/

omit [DecidableEq K] [DecidableEq V] in
theorem findAt_none (pat s : List Char) (pos : Nat) (h : findAt pat s pos = none) :
    occFrom pat s = 0 := by
  induction s generalizing pos with
  | nil =>
    simp only [findAt] at h
    simp only [occFrom]
    split_ifs at h ⊢
    rfl
  | cons c rest ih =>
    simp only [findAt] at h
    simp only [occFrom]
    split_ifs at h ⊢
    rw [ih (pos + 1) h]

omit [DecidableEq K] [DecidableEq V] in
theorem findAt_some (pat s : List Char) (pos p : Nat) (h : findAt pat s pos = some p) :
    ∃ k, p = pos + k ∧ k ≤ s.length ∧
      occFrom pat s = 1 + if k < s.length then occFrom pat (s.drop (k + 1)) else 0 := by
  induction s generalizing pos with
  | nil =>
    simp only [findAt] at h
    split_ifs at h with hp
    simp only [Option.some.injEq] at h
    exact ⟨0, by omega, le_refl _, by simp [occFrom, hp]⟩
  | cons c rest ih =>
    simp only [findAt] at h
    split_ifs at h with hp
    · simp only [Option.some.injEq] at h
      exact ⟨0, by omega, Nat.zero_le _, by simp [occFrom, hp]⟩
    · obtain ⟨k, hk1, hk2, hk3⟩ := ih (pos + 1) h
      refine ⟨k + 1, by omega, by simpa using hk2, ?_⟩
      simp only [occFrom, if_neg hp, List.length_cons, List.drop_succ_cons, zero_add, hk3,
        Nat.add_lt_add_iff_right]

omit [DecidableEq K] [DecidableEq V] in
theorem matchLoop_past_end (line : List Char) (pair : List Char × Int) (fuel pos : Nat)
    (sum : Int) (h : line.length < pos) : matchLoop line pair fuel pos sum = sum := by
  cases fuel with
  | zero => rfl
  | succ fuel => simp [matchLoop, strFind, h]

omit [DecidableEq K] [DecidableEq V] in
/-- Adding to a reduced sum and reducing gives the reduction of the exact sum. -/
theorem toInt32_add (a b : Int) : toInt32 (toInt32 a + b) = toInt32 (a + b) := by
  unfold toInt32 INT_MIN
  omega

omit [DecidableEq K] [DecidableEq V] in
/-- The reduction leaves exactly the values of the type `int` unchanged. -/
theorem toInt32_eq_self_iff (x : Int) : toInt32 x = x ↔ INT_MIN ≤ x ∧ x ≤ INT_MAX := by
  unfold toInt32 INT_MIN INT_MAX
  omega

omit [DecidableEq K] [DecidableEq V] in
/-- The search loop adds the weight once for every occurrence from `pos` on, in `int`
arithmetic, whenever its bound leaves it `line.size() + 2 - pos` rounds. -/
theorem matchLoop_eq (line : List Char) (pair : List Char × Int) (fuel pos : Nat) (s : Int)
    (hpos : pos ≤ line.length) (hfuel : line.length + 2 ≤ fuel + pos) :
    matchLoop line pair fuel pos (toInt32 s) =
      toInt32 (s + pair.2 * (occFrom pair.1 (line.drop pos) : Int)) := by
  induction fuel generalizing pos s with
  | zero => omega
  | succ fuel ih =>
    simp only [matchLoop, strFind, if_neg (not_lt.2 hpos)]
    cases hf : findAt pair.1 (line.drop pos) pos with
    | none => simp [findAt_none _ _ _ hf]
    | some p =>
      obtain ⟨k, hk1, hk2, hk3⟩ := findAt_some _ _ _ _ hf
      rw [List.length_drop] at hk2 hk3
      simp only [hk3, toInt32_add]
      by_cases hlt : k < line.length - pos
      · rw [if_pos hlt, ih (p + 1) (s + pair.2) (by omega) (by omega), List.drop_drop]
        have e : pos + (k + 1) = p + 1 := by omega
        have e' : k + 1 + pos = p + 1 := by omega
        simp only [e, e']
        congr 1
        push_cast
        ring
      · rw [if_neg hlt, matchLoop_past_end line pair fuel (p + 1) _ (by omega)]
        congr 1
        push_cast
        ring

omit [DecidableEq K] [DecidableEq V] in
theorem occurrences_eq_occFrom (pat line : List Char) : occurrences pat line = occFrom pat line := by
  unfold occurrences
  induction line with
  | nil =>
    have hr : List.range (([] : List Char).length + 1) = [0] := rfl
    rw [hr]
    by_cases hp : pat = []
    · simp [occFrom, hp]
    · simp [occFrom, hp]
  | cons c rest ih =>
    rw [List.length_cons, List.range_succ_eq_map, List.filter_cons, List.filter_map]
    simp only [occFrom, List.drop_zero]
    have hmap : ((List.range (rest.length + 1)).filter
        ((fun i => decide (pat <+: List.drop i (c :: rest))) ∘ Nat.succ)) =
        (List.range (rest.length + 1)).filter fun i => decide (pat <+: List.drop i rest) := by
      congr 1
    rw [hmap]
    by_cases hp : pat <+: c :: rest
    · simp only [hp, decide_True, if_true, List.length_cons, List.length_map, ih]
      omega
    · simp only [hp, decide_False, if_false, List.length_map, ih, Bool.false_eq_true]
      omega

omit [DecidableEq K] [DecidableEq V] in
/-- The searches of one line through the visited entries. -/
theorem scanLine_eq (line : List Char) (visited : List (List Char × Int)) (sum : Int) :
    visited.foldl (fun s pair => matchLoop line pair (line.length + 2) 0 s) (toInt32 sum) =
      toInt32 (sum + (visited.map fun p => p.2 * (occurrences p.1 line : Int)).sum) := by
  induction visited generalizing sum with
  | nil => simp
  | cons x rest ih =>
    rw [List.foldl_cons, matchLoop_eq line x _ 0 sum (Nat.zero_le _) (by omega), ih]
    simp only [List.drop_zero, List.map_cons, List.sum_cons, occurrences_eq_occFrom]
    congr 1
    ring

omit [DecidableEq K] [DecidableEq V] in
/-- The lines that the reading loop of the scanner processes are the lines of the text. -/
theorem fileLines_eq_specLines (content : List Char) :
    fileLines content = specLines content := by
  unfold specLines List.splitOn
  induction content with
  | nil => rfl
  | cons c rest ih =>
    rw [List.splitOnP_cons]
    simp only [fileLines, ih, beq_iff_eq]
    split_ifs with h
    · rfl
    · cases hs : List.splitOnP (fun x => x == '\n') rest with
      | nil => exact absurd hs (List.splitOnP_ne_nil _ _)
      | cons l ls => rfl

omit [DecidableEq K] [DecidableEq V] in
/-- In the C locale `toupper` changes the letters `a`, ..., `z` to `A`, ..., `Z` and no
other character. -/
theorem toUpper_eq_specUpper (c : Char) : c.toUpper = specUpper c := by
  by_cases h : 97 ≤ c.toNat ∧ c.toNat ≤ 122
  · have hc : c = Char.ofNat c.toNat := (Char.ofNat_toNat c).symm
    obtain ⟨h1, h2⟩ := h
    generalize c.toNat = n at hc h1 h2
    subst hc
    interval_cases n <;> rfl
  · have hu : c.toUpper = c := by
      unfold Char.toUpper
      simp only [ge_iff_le]
      rw [if_neg h]
    rw [hu]
    unfold specUpper
    split <;> first | rfl | (exfalso; apply h; decide)

omit [DecidableEq K] [DecidableEq V] in
theorem upperLine_eq_specUpper (line : List Char) : upperLine line = line.map specUpper := by
  unfold upperLine
  exact List.map_congr_left fun c _ => toUpper_eq_specUpper c

omit [DecidableEq K] [DecidableEq V] in
/-- The specified score, written over the lines and the upper-casing of the scanner. -/
theorem specScore_eq_lines (entries : List (List Char × Int)) (content : List Char) :
    specScore entries content =
      ((fileLines content).map fun line =>
        (entries.map fun p => p.2 * (occurrences p.1 (upperLine line) : Int)).sum).sum := by
  unfold specScore
  rw [fileLines_eq_specLines]
  simp only [upperLine_eq_specUpper]

omit [DecidableEq K] [DecidableEq V] in
/-- On a table whose iteration visits `visited`, `searchInFile` returns the `int` that is
congruent modulo `2^32` to the score that the specification assigns to `visited`. -/
theorem searchInFile_eq (content : List Char) (dataBase : HashMap (List Char) Int)
    (visited : List (List Char × Int)) (hv : dataBase.elements = .ok visited) :
    searchInFile content dataBase = .ok (toInt32 (specScore visited content)) := by
  have key : ∀ (lines : List (List Char)) (sum : Int),
      lines.foldlM
        (fun sum line =>
          (.ok (visited.foldl
            (fun s pair => matchLoop (upperLine line) pair ((upperLine line).length + 2) 0 s)
            sum) : Except Exc Int))
        (toInt32 sum) =
      (.ok (toInt32 (sum + (lines.map fun line =>
        (visited.map fun p => p.2 * (occurrences p.1 (upperLine line) : Int)).sum).sum)) :
        Except Exc Int) := by
    intro lines
    induction lines with
    | nil => intro sum; simp [pure, Except.pure]
    | cons l rest ih =>
      intro sum
      rw [List.foldlM_cons]
      simp only [bind, Except.bind]
      rw [scanLine_eq, ih]
      simp only [List.map_cons, List.sum_cons]
      congr 2
      ring
  have key0 := key (fileLines content) 0
  rw [show toInt32 0 = 0 from rfl, zero_add] at key0
  rw [specScore_eq_lines]
  unfold searchInFile
  rw [hv]
  simp only [bind, Except.bind]
  exact key0

omit [DecidableEq K] [DecidableEq V] in
theorem specScore_perm {a b : List (List Char × Int)} (h : a.Perm b) (content : List Char) :
    specScore a content = specScore b content := by
  unfold specScore
  congr 1
  apply List.map_congr_left
  intro line _
  exact (h.map _).sum_eq

omit [DecidableEq K] [DecidableEq V] in
theorem classify_iff (score limit : Int) (h : 0 < limit) :
    (classify score limit = .ok SPAM_MSG ↔ score ≥ limit) ∧
      (classify score limit = .ok NOT_SPAM_MSG ↔ score < limit) := by
  have hne : SPAM_MSG ≠ NOT_SPAM_MSG := by decide
  unfold classify
  rw [if_neg (by omega)]
  by_cases hs : score ≥ limit
  · rw [if_pos hs]
    refine ⟨⟨fun _ => hs, fun _ => rfl⟩, ⟨fun e => ?_, fun hlt => by omega⟩⟩
    simp only [Except.ok.injEq] at e
    exact absurd e hne
  · rw [if_neg hs]
    refine ⟨⟨fun e => ?_, fun h' => absurd h' hs⟩, ⟨fun _ => by omega, fun _ => rfl⟩⟩
    simp only [Except.ok.injEq] at e
    exact absurd e.symm hne

omit [DecidableEq K] [DecidableEq V] in
/-- The scenario of the specification, for every hash function on strings. -/
theorem scanner_scenario (hashFanc : List Char → Nat) (m0 : HashMap (List Char) Int)
    (h0 : HashMap.ctorDefault = .ok m0) :
    ∃ db, runCalls hashFanc [Call.insert "FREE".toList 5, Call.insert "WIN".toList 10] m0 =
        .ok db ∧
      specScore db.entries "you WIN a FREE prize".toList = 15 ∧
      searchInFile "you WIN a FREE prize".toList db = .ok 15 := by
  have h0' : HashMap.ctor DEF_LOW_FACTOR DEF_HIGH_FACTOR = .ok m0 := h0
  have inv0 := Inv.of_ctor hashFanc _ _ m0 h0'
  have hk0 := ctor_keys_empty _ _ m0 h0'
  have hent0 : m0.entries = [] := by
    have : m0.entries.map Prod.fst = [] := hk0
    simpa using this
  have habs1 : m0.containsKey hashFanc "FREE".toList = false := by
    rw [Shape.containsKey_false_iff inv0.shape, hk0]
    simp
  obtain ⟨m1, e1, ok1, perm1, -⟩ := insert_absent inv0.shape "FREE".toList (5 : Int) habs1
  rw [hent0] at perm1
  have habs2 : m1.containsKey hashFanc "WIN".toList = false := by
    rw [Shape.containsKey_false_iff ok1]
    intro hmem
    have := ((perm1.map Prod.fst).mem_iff).1 hmem
    revert this
    decide
  obtain ⟨m2, e2, ok2, perm2, -⟩ := insert_absent ok1 "WIN".toList (10 : Int) habs2
  have perm : m2.entries.Perm [("WIN".toList, 10), ("FREE".toList, 5)] :=
    perm2.trans (List.Perm.cons _ perm1)
  have hscore : specScore m2.entries "you WIN a FREE prize".toList = 15 := by
    rw [specScore_perm perm, specScore_eq_lines]
    decide
  refine ⟨m2, ?_, hscore, ?_⟩
  · unfold runCalls
    rw [List.foldlM_cons]
    simp only [applyCall, e1, bind, Except.bind]
    rw [List.foldlM_cons]
    simp only [applyCall, e2, bind, Except.bind]
    rfl
  · rw [searchInFile_eq _ m2 _ (elements_eq m2 ok2.table_len ok2.cap_pos)]
    have he : m2._table.flatten = m2.entries := rfl
    rw [he, hscore]
    rfl

theorem demoBigTable_reachable : Reachable demoStrHash demoBigTable := by
  have hc : (HashMap.ctor (1 / 4) (3 / 4) : Except Exc (HashMap (List Char) Int)) =
      .ok (freshTable (1 / 4) (3 / 4)) :=
    (ctor_ok_iff _ _ _).2 ⟨⟨by norm_num, by norm_num, by norm_num⟩, rfl⟩
  have hi : (freshTable (1 / 4) (3 / 4) : HashMap (List Char) Int).insert demoStrHash
      "A".toList 2147483647 = .ok (true, demoBigTable) := by
    unfold HashMap.insert
    rw [if_neg (by decide)]
    have h : ¬ (HashMap.getLoadFactor
        { (freshTable (1 / 4) (3 / 4) : HashMap (List Char) Int) with
          _size := (freshTable (1 / 4) (3 / 4) : HashMap (List Char) Int)._size + 1 } >
        (freshTable (1 / 4) (3 / 4) : HashMap (List Char) Int)._highLoadFactor) := by
      norm_num [HashMap.getLoadFactor, HashMap.size, HashMap.capacity, freshTable]
    simp only [if_neg h]
    rfl
  exact Reachable.insert _ _ _ _ (Reachable.ctor _ _ _ hc) hi

/-- C15, counterexample: the table that stores `A ↦ 2147483647`, made by `HashMap()` and
one `insert`, and the text `aa`.  The phrase occurs at two start positions, so the sum of
the claim is 4294967294; the scanner adds the weight twice to its `int sum` and returns
-2, which it reports `NOT_SPAM` for the threshold 10. -/
theorem scanner_score_overflows :
    Reachable demoStrHash demoBigTable ∧
    demoBigTable.entries = [("A".toList, 2147483647)] ∧
    occurrences "A".toList ("aa".toList.map specUpper) = 2 ∧
    specScore demoBigTable.entries "aa".toList = 4294967294 ∧
    searchInFile "aa".toList demoBigTable = .ok (-2) ∧
    searchInFile "aa".toList demoBigTable ≠
      .ok (specScore demoBigTable.entries "aa".toList) ∧
    classify (-2) 10 = .ok NOT_SPAM_MSG ∧
    classify (specScore demoBigTable.entries "aa".toList) 10 = .ok SPAM_MSG := by
  have ok := demoBigTable_reachable.inv.shape
  have hs : specScore demoBigTable.entries "aa".toList = 4294967294 := by
    rw [specScore_eq_lines]
    decide
  have hrun : searchInFile "aa".toList demoBigTable = .ok (-2) := by
    rw [searchInFile_eq _ demoBigTable _ (elements_eq demoBigTable ok.table_len ok.cap_pos)]
    have he : demoBigTable._table.flatten = demoBigTable.entries := rfl
    rw [he, hs]
    rfl
  refine ⟨demoBigTable_reachable, by decide, by decide, hs, hrun, ?_, rfl, ?_⟩
  · rw [hrun, hs]
    intro e
    cases e
  · rw [hs]
    rfl

/-- C15 as amended: for every reachable table of phrases and weights and every text, the
scanner returns a score, and the score is the sum, over the lines of the text in upper case
and the entries of the table, of the weight times the number of start positions at which
the phrase occurs in the line, exactly when that sum is a value of the type `int`.  For
the table that stores `FREE ↦ 5` and `WIN ↦ 10` and the text `you WIN a FREE prize` the
sum and the score are 15; it is reported `SPAM` for the threshold 10 and `NOT_SPAM` for
20, and for every positive threshold the report is `SPAM` exactly when the score reaches
it. -/
theorem scanner_score (hashFanc : List Char → Nat) (dataBase m0 : HashMap (List Char) Int)
    (content : List Char) (hr : Reachable hashFanc dataBase)
    (h0 : HashMap.ctorDefault = .ok m0) :
    (∃ score, searchInFile content dataBase = .ok score ∧
      INT_MIN ≤ score ∧ score ≤ INT_MAX) ∧
    (searchInFile content dataBase = .ok (specScore dataBase.entries content) ↔
      INT_MIN ≤ specScore dataBase.entries content ∧
        specScore dataBase.entries content ≤ INT_MAX) ∧
    (∃ db, runCalls hashFanc [Call.insert "FREE".toList 5, Call.insert "WIN".toList 10] m0 =
        .ok db ∧
      specScore db.entries "you WIN a FREE prize".toList = 15 ∧
      searchInFile "you WIN a FREE prize".toList db = .ok 15) ∧
    classify 15 10 = .ok SPAM_MSG ∧ classify 15 20 = .ok NOT_SPAM_MSG ∧
    (∀ score limit : Int, 0 < limit →
      (classify score limit = .ok SPAM_MSG ↔ score ≥ limit) ∧
      (classify score limit = .ok NOT_SPAM_MSG ↔ score < limit)) := by
  have ok := hr.inv.shape
  have hrun : searchInFile content dataBase =
      .ok (toInt32 (specScore dataBase.entries content)) :=
    searchInFile_eq content dataBase _ (elements_eq dataBase ok.table_len ok.cap_pos)
  refine ⟨⟨_, hrun, ?_, ?_⟩, ?_, scanner_scenario hashFanc m0 h0, rfl, rfl, classify_iff⟩
  · unfold toInt32 INT_MIN
    omega
  · unfold toInt32 INT_MIN INT_MAX
    omega
  · rw [hrun, ← toInt32_eq_self_iff]
    constructor
    · intro e
      simpa using e
    · intro e
      rw [e]

theorem demoSpamTable_reachable : Reachable demoStrHash demoSpamTable := by
  have hc : (HashMap.ctor (1 / 4) (3 / 4) : Except Exc (HashMap (List Char) Int)) =
      .ok (freshTable (1 / 4) (3 / 4)) :=
    (ctor_ok_iff _ _ _).2 ⟨⟨by norm_num, by norm_num, by norm_num⟩, rfl⟩
  have hi : (freshTable (1 / 4) (3 / 4) : HashMap (List Char) Int).insert demoStrHash
      "FREE".toList 5 = .ok (true, demoSpamTable) := by
    unfold HashMap.insert
    rw [if_neg (by decide)]
    have h : ¬ (HashMap.getLoadFactor
        { (freshTable (1 / 4) (3 / 4) : HashMap (List Char) Int) with
          _size := (freshTable (1 / 4) (3 / 4) : HashMap (List Char) Int)._size + 1 } >
        (freshTable (1 / 4) (3 / 4) : HashMap (List Char) Int)._highLoadFactor) := by
      norm_num [HashMap.getLoadFactor, HashMap.size, HashMap.capacity, freshTable]
    simp only [if_neg h]
    rfl
  exact Reachable.insert _ _ _ _ (Reachable.ctor _ _ _ hc) hi

/-- Instance of C15: the table that stores `FREE ↦ 5` and a text of two lines. -/
theorem scanner_score_witness :
    Reachable demoStrHash demoSpamTable ∧
    (HashMap.ctorDefault : Except Exc (HashMap (List Char) Int)) =
      .ok (freshTable (1 / 4) (3 / 4)) ∧
    ((∃ score, searchInFile "free Freedom\nnot free".toList demoSpamTable = .ok score ∧
      INT_MIN ≤ score ∧ score ≤ INT_MAX) ∧
    (searchInFile "free Freedom\nnot free".toList demoSpamTable =
        .ok (specScore demoSpamTable.entries "free Freedom\nnot free".toList) ↔
      INT_MIN ≤ specScore demoSpamTable.entries "free Freedom\nnot free".toList ∧
        specScore demoSpamTable.entries "free Freedom\nnot free".toList ≤ INT_MAX) ∧
    (∃ db, runCalls demoStrHash [Call.insert "FREE".toList 5, Call.insert "WIN".toList 10]
        (freshTable (1 / 4) (3 / 4)) = .ok db ∧
      specScore db.entries "you WIN a FREE prize".toList = 15 ∧
      searchInFile "you WIN a FREE prize".toList db = .ok 15) ∧
    classify 15 10 = .ok SPAM_MSG ∧ classify 15 20 = .ok NOT_SPAM_MSG ∧
    (∀ score limit : Int, 0 < limit →
      (classify score limit = .ok SPAM_MSG ↔ score ≥ limit) ∧
      (classify score limit = .ok NOT_SPAM_MSG ↔ score < limit))) :=
  ⟨demoSpamTable_reachable,
    (ctor_ok_iff _ _ _).2 ⟨⟨by norm_num [DEF_LOW_FACTOR],
      by norm_num [DEF_LOW_FACTOR, DEF_HIGH_FACTOR], by norm_num [DEF_HIGH_FACTOR]⟩,
      by simp [DEF_LOW_FACTOR, DEF_HIGH_FACTOR, freshTable]⟩,
    scanner_score demoStrHash demoSpamTable (freshTable (1 / 4) (3 / 4))
      "free Freedom\nnot free".toList demoSpamTable_reachable
      ((ctor_ok_iff _ _ _).2 ⟨⟨by norm_num [DEF_LOW_FACTOR],
        by norm_num [DEF_LOW_FACTOR, DEF_HIGH_FACTOR], by norm_num [DEF_HIGH_FACTOR]⟩,
        by simp [DEF_LOW_FACTOR, DEF_HIGH_FACTOR, freshTable]⟩)⟩

/-- The score of the table that stores `FREE ↦ 5` on a text of two lines: `FREE` occurs
twice in the first line and once in the second, and the scanner returns 15. -/
theorem demo_scanner_score :
    specLines "free Freedom\nnot free".toList = ["free Freedom".toList, "not free".toList] ∧
    "not free".toList.map specUpper = "NOT FREE".toList ∧
    specScore demoSpamTable.entries "free Freedom\nnot free".toList = 15 ∧
    searchInFile "free Freedom\nnot free".toList demoSpamTable = .ok 15 := by
  have ok := demoSpamTable_reachable.inv.shape
  have hs : specScore demoSpamTable.entries "free Freedom\nnot free".toList = 15 := by
    rw [specScore_eq_lines]
    decide
  refine ⟨?_, by decide, hs, ?_⟩
  · rw [← fileLines_eq_specLines]
    decide
  · rw [searchInFile_eq _ demoSpamTable _
      (elements_eq demoSpamTable ok.table_len ok.cap_pos)]
    have he : demoSpamTable._table.flatten = demoSpamTable.entries := rfl
    rw [he, hs]
    rfl

/-! ### Equality of iterators -/

omit [DecidableEq K] [DecidableEq V] in
/-- An iterator that stands on an entry has that entry as the first of the entries that
remain. -/
theorem remaining_eq_cons (m : HashMap K V) (ti li : Int) (hv : OnEntry m ⟨ti, li⟩) :
    ∃ h : li.toNat < (m.chain ti).length,
      remaining m ⟨ti, li⟩ =
        (m.chain ti)[li.toNat] ::
          ((m.chain ti).drop (li + 1).toNat ++ (m._table.drop (ti + 1).toNat).flatten) := by
  obtain ⟨-, -, hl0, hll⟩ := hv
  simp only at hl0 hll
  refine ⟨hll, ?_⟩
  have e : (li + 1).toNat = li.toNat + 1 := by omega
  simp only [remaining]
  rw [List.drop_eq_getElem_cons hll, e]
  rfl

omit [DecidableEq K] [DecidableEq V] in
theorem deref_onEntry (m : HashMap K V) (ti li : Int) (hv : OnEntry m ⟨ti, li⟩) :
    ∃ h : li.toNat < (m.chain ti).length,
      const_iterator.deref m ⟨ti, li⟩ = .ok (m.chain ti)[li.toNat] := by
  obtain ⟨-, -, hl0, hll⟩ := hv
  simp only at hl0 hll
  refine ⟨hll, ?_⟩
  have hnl : ¬ li < 0 := by omega
  simp [const_iterator.deref, hnl, List.getElem?_eq_getElem hll]

omit [DecidableEq K] [DecidableEq V] in
/-- After `n` advances from `begin()`, with `n` at most the number of stored entries, the
iterator stands on the entry number `n` of the traversal, or is at the terminal position
when no entry is left. -/
theorem iterAt_spec (m : HashMap K V) (hlen : m._table.length = m._capacity.toNat)
    (hcap : 1 ≤ m._capacity) (n : Nat) (hn : n ≤ m._table.flatten.length) :
    (OnEntry m (iterAt m n) ∧ remaining m (iterAt m n) = m._table.flatten.drop n) ∨
      ((iterAt m n)._tableIndex = m._capacity ∧ m._table.flatten.drop n = []) := by
  induction n with
  | zero =>
    have hT : m._table.flatten =
        (m.chain 0).drop ((-1 : Int) + 1).toNat ++
          (m._table.drop ((0 : Int) + 1).toNat).flatten := by
      have := drop_flatten_of_chain m 0 (le_refl _) (by omega)
      simpa using this
    have hb : iterAt m 0 = const_iterator.next m ⟨0, -1⟩ := rfl
    rw [hb, List.drop_zero]
    rcases next_spec m hlen 0 (-1) (le_refl _) (by omega) (le_refl _) with
      ⟨hend, hnil⟩ | ⟨hon, hrest⟩
    · right
      exact ⟨hend, by rw [hT, hnil]⟩
    · left
      exact ⟨hon, by rw [hrest, ← hT]⟩
  | succ n ih =>
    rcases ih (by omega) with ⟨hon, hrem⟩ | ⟨-, hnil⟩
    · have hs : iterAt m (n + 1) = const_iterator.next m (iterAt m n) := rfl
      rw [hs]
      generalize iterAt m n = it at hon hrem ⊢
      obtain ⟨ti, li⟩ := it
      obtain ⟨hll, hcons⟩ := remaining_eq_cons m ti li hon
      have hdrop : m._table.flatten.drop (n + 1) =
          (m.chain ti).drop (li + 1).toNat ++ (m._table.drop (ti + 1).toNat).flatten := by
        have h1 := List.drop_drop 1 n m._table.flatten
        rw [← hrem, hcons] at h1
        simpa using h1.symm
      rw [hdrop]
      obtain ⟨h0, hlt, hl0, -⟩ := hon
      simp only at h0 hlt hl0
      exact (next_spec m hlen ti li h0 hlt (by omega)).symm
    · rw [List.drop_eq_nil_iff] at hnil
      omega

omit [DecidableEq K] [DecidableEq V] in
/-- Two iterators that stand on equal entries of a well-formed table stand on the same
slot. -/
theorem slot_unique {hashFanc : K → Nat} {m : HashMap K V} (ok : Shape hashFanc m)
    (ta la tb lb : Int) (ha : OnEntry m ⟨ta, la⟩) (hb : OnEntry m ⟨tb, lb⟩)
    (h1 : la.toNat < (m.chain ta).length) (h2 : lb.toNat < (m.chain tb).length)
    (he : (m.chain ta)[la.toNat] = (m.chain tb)[lb.toNat]) : ta = tb ∧ la = lb := by
  obtain ⟨ha0, -, hal, -⟩ := ha
  obtain ⟨hb0, -, hbl, -⟩ := hb
  simp only at ha0 hal hb0 hbl
  have pa := ok.placed ta.toNat (m.chain ta)[la.toNat] (List.getElem_mem h1)
  have pb := ok.placed tb.toNat (m.chain tb)[lb.toNat] (List.getElem_mem h2)
  rw [he] at pa
  have ht : ta = tb := by
    have : (ta.toNat : Int) = (tb.toNat : Int) := pa.symm.trans pb
    omega
  subst ht
  refine ⟨rfl, ?_⟩
  have hnd : (m.chain ta).Nodup :=
    List.Nodup.of_map Prod.fst (TableOK.chain_nodup ok ta.toNat)
  have := (List.Nodup.getElem_inj_iff hnd).1 he
  omega

/-- On a well-formed table, `operator==` of two iterators that each stand on an entry or
are terminal returns, and answers `true` exactly when both are terminal or both stand on
the same slot. -/
theorem iter_eq_iff {hashFanc : K → Nat} {m : HashMap K V} (ok : Shape hashFanc m)
    (a b : const_iterator) (ha : OnEntry m a ∨ a._tableIndex = m._capacity)
    (hb : OnEntry m b ∨ b._tableIndex = m._capacity) :
    (∃ r, a.eq m b = .ok r) ∧
    (a.eq m b = .ok true ↔
      (a._tableIndex = m._capacity ∧ b._tableIndex = m._capacity) ∨
      (OnEntry m a ∧ OnEntry m b ∧ a._tableIndex = b._tableIndex ∧
        a._listIndex = b._listIndex)) := by
  have hnot : ∀ it : const_iterator, OnEntry m it → it._tableIndex ≠ m._capacity := by
    intro it h
    have := h.2.1
    omega
  unfold const_iterator.eq
  simp only [HashMap.capacity]
  by_cases h1 : a._tableIndex = m._capacity ∧ b._tableIndex = m._capacity
  · rw [if_pos h1]
    exact ⟨⟨true, rfl⟩, ⟨fun _ => Or.inl h1, fun _ => rfl⟩⟩
  · rw [if_neg h1]
    by_cases h2 : a._tableIndex = m._capacity ∨ b._tableIndex = m._capacity
    · rw [if_pos h2]
      refine ⟨⟨false, rfl⟩, ⟨fun e => (by cases e), ?_⟩⟩
      rintro (h | ⟨oa, ob, -, -⟩)
      · exact absurd h h1
      · rcases h2 with h | h
        · exact absurd h (hnot a oa)
        · exact absurd h (hnot b ob)
    · rw [if_neg h2]
      simp only [not_or] at h2
      have oa : OnEntry m a := ha.resolve_right h2.1
      have ob : OnEntry m b := hb.resolve_right h2.2
      obtain ⟨ta, la⟩ := a
      obtain ⟨tb, lb⟩ := b
      obtain ⟨hla, da⟩ := deref_onEntry m ta la oa
      obtain ⟨hlb, db⟩ := deref_onEntry m tb lb ob
      simp only [da, db, bind, Except.bind, Except.ok.injEq, decide_eq_true_eq]
      refine ⟨⟨_, rfl⟩, ?_⟩
      constructor
      · intro he
        have := slot_unique ok ta la tb lb oa ob hla hlb he
        exact Or.inr ⟨oa, ob, this.1, this.2⟩
      · rintro (h | ⟨-, -, ht, hl⟩)
        · exact absurd h.1 h2.1
        · have ht' : ta = tb := ht
          have hl' : la = lb := hl
          subst ht'
          subst hl'
          rfl

omit [DecidableEq K] [DecidableEq V] in
/-- In the model, `operator++` on an iterator at or beyond the terminal position reads
empty chains outside the array and moves one bucket further.  (In the source these reads
are outside the array.) -/
theorem next_past (m : HashMap K V) (hlen : m._table.length = m._capacity.toNat)
    (hcap : 1 ≤ m._capacity) (t l : Int) (ht : m._capacity ≤ t) (hl : -1 ≤ l) :
    const_iterator.next m ⟨t, l⟩ = ⟨t + 1, 0⟩ := by
  have h1 : m.chain t = [] := chain_eq_nil_of_le m t (by omega)
  have h2 : m.chain (t + 1) = [] := chain_eq_nil_of_le m (t + 1) (by omega)
  have h3 : (m.capacity - t).toNat = 0 := by
    show (m._capacity - t).toNat = 0
    omega
  have h4 : ¬ (t + 1 < m.capacity) := by
    show ¬ (t + 1 < m._capacity)
    omega
  unfold const_iterator.next
  simp only [h1, h3, List.length_nil, Nat.cast_zero, zero_add]
  rw [if_neg (by omega)]
  simp only [advanceLoop, h2, List.length_nil, Nat.cast_zero, gt_iff_lt, lt_self_iff_false,
    if_false, h4]

omit [DecidableEq K] [DecidableEq V] in
theorem iterAt_listIndex_nonneg (m : HashMap K V) (n : Nat) : 0 ≤ (iterAt m n)._listIndex := by
  have step : ∀ it : const_iterator, -1 ≤ it._listIndex → 0 ≤ (it.next m)._listIndex := by
    intro it h
    unfold const_iterator.next
    split_ifs
    · show 0 ≤ it._listIndex + 1
      omega
    · exact le_refl _
  induction n with
  | zero => exact step const_iterator.start (by decide)
  | succ n ih => exact step (iterAt m n) (by omega)

omit [DecidableEq K] [DecidableEq V] in
/-- After more advances than there are stored entries the iterator of the model is beyond
the terminal position. -/
theorem iterAt_past (m : HashMap K V) (hlen : m._table.length = m._capacity.toNat)
    (hcap : 1 ≤ m._capacity) (k : Nat) :
    (iterAt m (m._table.flatten.length + k))._tableIndex = m._capacity + k := by
  induction k with
  | zero =>
    rcases iterAt_spec m hlen hcap m._table.flatten.length (le_refl _) with
      ⟨hon, hrem⟩ | ⟨hend, -⟩
    · exfalso
      rw [List.drop_length] at hrem
      generalize iterAt m m._table.flatten.length = it at hon hrem
      obtain ⟨ti, li⟩ := it
      obtain ⟨_, hcons⟩ := remaining_eq_cons m ti li hon
      rw [hcons] at hrem
      cases hrem
    · simpa using hend
  | succ k ih =>
    have hs : iterAt m (m._table.flatten.length + (k + 1)) =
        const_iterator.next m (iterAt m (m._table.flatten.length + k)) := rfl
    have hl := iterAt_listIndex_nonneg m (m._table.flatten.length + k)
    rw [hs]
    generalize iterAt m (m._table.flatten.length + k) = it at ih hl
    obtain ⟨t, l⟩ := it
    simp only at ih hl
    rw [next_past m hlen hcap t l (by omega) (by omega), ih]
    push_cast
    ring

/-- In the model, `operator==` with an operand beyond the terminal position does not answer
`true`. -/
theorem eq_past_not_true (m : HashMap K V) (hlen : m._table.length = m._capacity.toNat)
    (hcap : 1 ≤ m._capacity) (a b : const_iterator)
    (h : m._capacity < a._tableIndex ∨ m._capacity < b._tableIndex) :
    a.eq m b ≠ .ok true ∧ b.eq m a ≠ .ok true := by
  have hd : ∀ it : const_iterator, m._capacity < it._tableIndex →
      it.deref m = .error .out_of_range := by
    intro it hit
    have hnil : m.chain it._tableIndex = [] := chain_eq_nil_of_le m _ (by omega)
    unfold const_iterator.deref
    split_ifs
    · rfl
    · simp [hnil]
  have main : ∀ x y : const_iterator,
      (m._capacity < x._tableIndex ∨ m._capacity < y._tableIndex) → x.eq m y ≠ .ok true := by
    intro x y hxy
    unfold const_iterator.eq
    simp only [HashMap.capacity]
    have h1 : ¬ (x._tableIndex = m._capacity ∧ y._tableIndex = m._capacity) := by
      rintro ⟨h1, h2⟩
      omega
    rw [if_neg h1]
    split_ifs
    · intro e
      cases e
    · rcases hxy with hx | hy
      · rw [hd x hx]
        intro e
        cases e
      · rw [hd y hy]
        cases x.deref m with
        | error e =>
          intro e'
          cases e'
        | ok p =>
          intro e'
          cases e'
  exact ⟨main a b h, main b a h.symm⟩

/-- C21: on a reachable table, for iterators obtained from `begin()` by any numbers of
advances, `operator==` answers `true` exactly when both iterators are at the terminal
position or both stand on the same slot.  For at most `size()` advances `operator==`
returns, and answers `true` exactly when the numbers of advances are equal; the iterator
is terminal exactly after `size()` advances, where it equals `end()`; and
`begin() == end()` exactly when the table is empty.  (More than `size()` advances leave
the array; there the model reads empty chains.) -/
theorem iterator_eq_positional [Inhabited V] (hashFanc : K → Nat) (m : HashMap K V)
    (i j : Nat) (hr : Reachable hashFanc m) :
    ((iterAt m i).eq m (iterAt m j) = .ok true ↔
      ((iterAt m i)._tableIndex = m.capacity ∧ (iterAt m j)._tableIndex = m.capacity) ∨
      (OnEntry m (iterAt m i) ∧ OnEntry m (iterAt m j) ∧
        (iterAt m i)._tableIndex = (iterAt m j)._tableIndex ∧
        (iterAt m i)._listIndex = (iterAt m j)._listIndex)) ∧
    (i ≤ m.size.toNat → j ≤ m.size.toNat →
      (∃ r, (iterAt m i).eq m (iterAt m j) = .ok r) ∧
      ((iterAt m i).eq m (iterAt m j) = .ok true ↔ i = j)) ∧
    (i ≤ m.size.toNat →
      ((iterAt m i)._tableIndex = m.capacity ↔ i = m.size.toNat) ∧
      ((iterAt m i).eq m m.end_ = .ok true ↔ i = m.size.toNat)) ∧
    (m.begin.eq m m.end_ = .ok true ↔ m.size = 0) ∧
    (m.begin.eq m m.end_ = .ok true ↔ m.empty = true) := by
  have inv := hr.inv
  have ok := inv.shape
  have hsz : m.size.toNat = m._table.flatten.length := by
    show m._size.toNat = _
    rw [inv.size_eq]
    rfl
  rw [hsz]
  have spec := fun n hn => iterAt_spec m ok.table_len ok.cap_pos n hn
  have valid : ∀ n, n ≤ m._table.flatten.length →
      OnEntry m (iterAt m n) ∨ (iterAt m n)._tableIndex = m._capacity := by
    intro n hn
    rcases spec n hn with ⟨h, -⟩ | ⟨h, -⟩
    · exact Or.inl h
    · exact Or.inr h
  have past : ∀ n, m._table.flatten.length < n → m._capacity < (iterAt m n)._tableIndex := by
    intro n hn
    obtain ⟨k, hk⟩ : ∃ k, n = m._table.flatten.length + (k + 1) := ⟨n - m._table.flatten.length - 1, by omega⟩
    rw [hk, iterAt_past m ok.table_len ok.cap_pos (k + 1)]
    push_cast
    omega
  have term : ∀ n, n ≤ m._table.flatten.length →
      ((iterAt m n)._tableIndex = m._capacity ↔ n = m._table.flatten.length) := by
    intro n hn
    rcases spec n hn with ⟨hon, hrem⟩ | ⟨hend, hnil⟩
    · have hne : (iterAt m n)._tableIndex ≠ m._capacity := by
        have := hon.2.1
        omega
      have hlt : n < m._table.flatten.length := by
        by_contra hge
        have hnil : m._table.flatten.drop n = [] := List.drop_eq_nil_iff.2 (by omega)
        rw [hnil] at hrem
        generalize iterAt m n = it at hon hrem
        obtain ⟨ti, li⟩ := it
        obtain ⟨_, hcons⟩ := remaining_eq_cons m ti li hon
        rw [hcons] at hrem
        cases hrem
      exact ⟨fun h => absurd h hne, fun h => by omega⟩
    · rw [List.drop_eq_nil_iff] at hnil
      exact ⟨fun _ => by omega, fun _ => hend⟩
  have entry : ∀ n (hn : n < m._table.flatten.length),
      const_iterator.deref m (iterAt m n) = .ok m._table.flatten[n] := by
    intro n hn
    rcases spec n (by omega) with ⟨hon, hrem⟩ | ⟨-, hnil⟩
    · generalize iterAt m n = it at hon hrem
      obtain ⟨ti, li⟩ := it
      obtain ⟨hl, hd⟩ := deref_onEntry m ti li hon
      obtain ⟨_, hcons⟩ := remaining_eq_cons m ti li hon
      rw [hd]
      rw [hcons, List.drop_eq_getElem_cons hn] at hrem
      simp only [List.cons.injEq] at hrem
      rw [hrem.1]
    · rw [List.drop_eq_nil_iff] at hnil
      omega
  have endEq : ∀ it : const_iterator,
      (it.eq m m.end_ = .ok true ↔ it._tableIndex = m._capacity) := by
    intro it
    unfold const_iterator.eq
    simp only [HashMap.end_, HashMap.capacity, and_true, or_true, if_true]
    by_cases h : it._tableIndex = m._capacity
    · simp [h]
    · simp [h]
  have hnd : m._table.flatten.Nodup := List.Nodup.of_map Prod.fst ok.nodup
  have hbegin : m.begin.eq m m.end_ = .ok true ↔ m.size = 0 := by
    have h0 : m.begin = iterAt m 0 := rfl
    rw [h0, endEq, term 0 (Nat.zero_le _)]
    show (0 = m._table.flatten.length) ↔ m._size = 0
    rw [inv.size_eq]
    constructor
    · intro h
      have : m.entries.length = 0 := h.symm
      rw [this]
      rfl
    · intro h
      have : (m.entries.length : Int) = 0 := h
      have h2 : m.entries.length = 0 := by omega
      exact h2.symm
  have hgen : (iterAt m i).eq m (iterAt m j) = .ok true ↔
      ((iterAt m i)._tableIndex = m.capacity ∧ (iterAt m j)._tableIndex = m.capacity) ∨
      (OnEntry m (iterAt m i) ∧ OnEntry m (iterAt m j) ∧
        (iterAt m i)._tableIndex = (iterAt m j)._tableIndex ∧
        (iterAt m i)._listIndex = (iterAt m j)._listIndex) := by
    by_cases hij : i ≤ m._table.flatten.length ∧ j ≤ m._table.flatten.length
    · exact (iter_eq_iff ok (iterAt m i) (iterAt m j) (valid i hij.1) (valid j hij.2)).2
    · have hp : m._capacity < (iterAt m i)._tableIndex ∨
          m._capacity < (iterAt m j)._tableIndex := by
        by_cases hi : i ≤ m._table.flatten.length
        · exact Or.inr (past j (by
            by_contra hj
            exact hij ⟨hi, by omega⟩))
        · exact Or.inl (past i (by omega))
      have hne := (eq_past_not_true m ok.table_len ok.cap_pos _ _ hp).1
      constructor
      · intro h
        exact absurd h hne
      · rintro (⟨h1, h2⟩ | ⟨oa, ob, -, -⟩)
        · have h1' : (iterAt m i)._tableIndex = m._capacity := h1
          have h2' : (iterAt m j)._tableIndex = m._capacity := h2
          omega
        · have := oa.2.1
          have := ob.2.1
          omega
  refine ⟨hgen, ?_, ?_, hbegin, ?_⟩
  · intro hi hj
    obtain ⟨hret, hiff⟩ := iter_eq_iff ok (iterAt m i) (iterAt m j) (valid i hi) (valid j hj)
    refine ⟨hret, ?_⟩
    constructor
    · intro he
      rcases (hiff.1 he) with ⟨h1, h2⟩ | ⟨oa, ob, ht, hl⟩
      · have := (term i hi).1 h1
        have := (term j hj).1 h2
        omega
      · have hi' : i < m._table.flatten.length := by
          rcases Nat.lt_or_ge i m._table.flatten.length with h | h
          · exact h
          · have := (term i hi).2 (by omega)
            have := oa.2.1
            omega
        have hj' : j < m._table.flatten.length := by
          rcases Nat.lt_or_ge j m._table.flatten.length with h | h
          · exact h
          · have := (term j hj).2 (by omega)
            have := ob.2.1
            omega
        have di := entry i hi'
        have dj := entry j hj'
        have hsame : iterAt m i = iterAt m j := by
          generalize iterAt m i = a at ht hl
          generalize iterAt m j = b at ht hl
          obtain ⟨ta, la⟩ := a
          obtain ⟨tb, lb⟩ := b
          simp only at ht hl
          rw [ht, hl]
        rw [hsame, dj] at di
        simp only [Except.ok.injEq] at di
        exact ((List.Nodup.getElem_inj_iff hnd).1 di).symm
    · intro h
      subst h
      apply hiff.2
      rcases valid i hi with h | h
      · exact Or.inr ⟨h, h, rfl, rfl⟩
      · exact Or.inl ⟨h, h⟩
  · intro hi
    exact ⟨term i hi, by rw [endEq, term i hi]⟩
  · rw [hbegin]
    simp [HashMap.empty, DEF_SIZE]

/-- Instance of C21 on the table that stores `(3, 5)`: `begin()` and its successor. -/
theorem iterator_eq_positional_witness :
    Reachable demoHash demoTable1 ∧
    (((iterAt demoTable1 0).eq demoTable1 (iterAt demoTable1 1) = .ok true ↔
      ((iterAt demoTable1 0)._tableIndex = demoTable1.capacity ∧
        (iterAt demoTable1 1)._tableIndex = demoTable1.capacity) ∨
      (OnEntry demoTable1 (iterAt demoTable1 0) ∧ OnEntry demoTable1 (iterAt demoTable1 1) ∧
        (iterAt demoTable1 0)._tableIndex = (iterAt demoTable1 1)._tableIndex ∧
        (iterAt demoTable1 0)._listIndex = (iterAt demoTable1 1)._listIndex)) ∧
    (0 ≤ demoTable1.size.toNat → 1 ≤ demoTable1.size.toNat →
      (∃ r, (iterAt demoTable1 0).eq demoTable1 (iterAt demoTable1 1) = .ok r) ∧
      ((iterAt demoTable1 0).eq demoTable1 (iterAt demoTable1 1) = .ok true ↔ 0 = 1)) ∧
    (0 ≤ demoTable1.size.toNat →
      ((iterAt demoTable1 0)._tableIndex = demoTable1.capacity ↔
        0 = demoTable1.size.toNat) ∧
      ((iterAt demoTable1 0).eq demoTable1 demoTable1.end_ = .ok true ↔
        0 = demoTable1.size.toNat)) ∧
    (demoTable1.begin.eq demoTable1 demoTable1.end_ = .ok true ↔ demoTable1.size = 0) ∧
    (demoTable1.begin.eq demoTable1 demoTable1.end_ = .ok true ↔
      demoTable1.empty = true)) :=
  ⟨demoTable1_reachable, iterator_eq_positional demoHash demoTable1 0 1 demoTable1_reachable⟩

/-- The positions of the iterators of the instance above: `begin()` stands on the slot
`(3, 0)`, one advance reaches the terminal position, and the two compare different. -/
theorem demo_iterator_positions :
    iterAt demoTable1 0 = ⟨3, 0⟩ ∧ iterAt demoTable1 1 = ⟨16, 0⟩ ∧
    demoTable1.size.toNat = 1 ∧
    (iterAt demoTable1 0).eq demoTable1 (iterAt demoTable1 1) = .ok false ∧
    (iterAt demoTable1 0).eq demoTable1 (iterAt demoTable1 0) = .ok true ∧
    (iterAt demoTable1 1).eq demoTable1 demoTable1.end_ = .ok true := by
  refine ⟨by decide, by decide, by decide, rfl, rfl, rfl⟩

end Claims

end Ex3
